import Mathlib

/-!
org-chart: reconciliation of an org chart against GitHub teams

A shallow embedding of `cmd/org-chart/main.go` and the properties proved about it.

* Go pointers into `chart.Teams` and `chart.Employees` are positions in those
  slices (`none` is the nil pointer).  A `*github.Team` is a record that carries the
  address of the object it points to beside the fields the program reads; the objects
  are never written to, a new one gets the next free address `GithubState.heap`.
  The entries of the slices and the values of `gh.teams` are taken to be non-nil.
* Go maps are association lists; `mget`, `mset` and `mdel` are index, assignment and
  `delete`.  `range` over `gh.teams` visits the list in its order, which is arbitrary
  since the snapshot is; the order of `range` over the membership plan is a parameter
  (`MapRange`).
* The GitHub client is a record of response functions (`Client`).  Every write call is
  appended to `GithubState.calls`, and the response to a call may depend on all calls
  made before it.
* A Go `error` is its message.  A function that can fail returns an `Outcome` beside the
  state it leaves, since the state is mutated in place also on the failing paths.
* The recursion of `createTeamByIDIfNotExists` is bounded by a fuel argument; running
  out of fuel is the outcome `overflow` (the Go program never returns).
-/

namespace OrgSync

/-! ## Go maps -/

/-- Map index `m[k]` with the comma-ok result as an option. -/
def mget {κ ν : Type} [DecidableEq κ] : List (κ × ν) → κ → Option ν
  | [], _ => none
  | (k', v) :: m, k => if k' = k then some v else mget m k

/-- Map assignment `m[k] = v`. -/
def mset {κ ν : Type} [DecidableEq κ] : List (κ × ν) → κ → ν → List (κ × ν)
  | [], k, v => [(k, v)]
  | (k', v') :: m, k, v => if k' = k then (k, v) :: m else (k', v') :: mset m k v

/-- Builtin `delete(m, k)`. -/
def mdel {κ ν : Type} [DecidableEq κ] (m : List (κ × ν)) (k : κ) : List (κ × ν) :=
  m.filter (fun p => decide (p.1 ≠ k))

/-! ## Data model -/

/-- Go `Team`. -/
structure Team where
  ID : String
  Name : String
  ParentID : String
  Description : String
  Github : String
  TeachLeadID : String
  ProductLeadID : String
  deriving DecidableEq, Repr

/-- Go `Employee`; `Team` is the `*Team` back-reference, a position in `chart.Teams`. -/
structure Employee where
  ID : String
  Name : String
  Github : String
  MemberOf : String
  Team : Option Nat
  deriving DecidableEq, Repr

/-- Go `OrgChart`; the two indices hold pointers, i.e. positions in `Teams` and `Employees`. -/
structure OrgChart where
  Employees : List Employee
  Teams : List Team
  TeamsByID : List (String × Nat)
  EmployeesByID : List (String × Nat)
  deriving DecidableEq, Repr

/-- The object a `github.Team.Parent` pointer leads to; the program reads only its name. -/
structure GhParent where
  ID : Option Int
  Name : Option String
  deriving DecidableEq, Repr

/-- A `*github.Team`: the address of the object and the fields the program reads. -/
structure GhTeam where
  addr : Nat
  ID : Option Int
  Name : Option String
  Description : Option String
  Privacy : Option String
  Parent : Option GhParent
  deriving DecidableEq, Repr

/-- A `*github.User`. -/
structure GhUser where
  ID : Option Int
  Login : Option String
  deriving DecidableEq, Repr

/-- Accessor `(*github.Team).GetName`. -/
def GhTeam.GetName (t : GhTeam) : String := t.Name.getD ""

/-- Accessor `(*github.Team).GetID`. -/
def GhTeam.GetID (t : GhTeam) : Int := t.ID.getD 0

/-- Accessor `GetName` on the parent object. -/
def GhParent.GetName (t : GhParent) : String := t.Name.getD ""

/-- Accessor `(*github.User).GetLogin`. -/
def GhUser.GetLogin (u : GhUser) : String := u.Login.getD ""

/-- Request body `github.NewTeam`. -/
structure NewTeam where
  Name : String
  Description : Option String
  ParentTeamID : Option Int
  Privacy : Option String
  deriving DecidableEq, Repr

/-- A write call on the platform; `role = none` is the default role (nil options). -/
inductive Call where
  | createTeam (org : String) (team : NewTeam)
  | editTeam (id : Int) (team : NewTeam)
  | deleteTeam (id : Int)
  | addTeamMembership (team : Int) (user : String) (role : Option String)
  deriving DecidableEq, Repr

/-- The `*github.Client`: the response to each write call, given the calls made before it.
`CreateTeam` and `EditTeam` answer with a team or an error, the other two with an
optional error. -/
structure Client where
  CreateTeam : List Call → String → NewTeam → Except String GhTeam
  EditTeam : List Call → Int → NewTeam → Except String GhTeam
  DeleteTeam : List Call → Int → Option String
  AddTeamMembership : List Call → Int → String → Option String → Option String

/-- Go `githubSyncResult`. -/
structure GithubSyncResult where
  removedTeams : List GhTeam
  unableToCreateMembership : List Employee
  unableToCreateMaintainer : List Employee
  deriving DecidableEq, Repr

/-- Go `GithubState`, together with the log of write calls made through `client`
and the number of `github.Team` objects allocated so far (the next free address). -/
structure GithubState where
  organisation : String
  teamPrefix : String
  teams : List (String × GhTeam)
  members : List GhUser
  syncResult : Option GithubSyncResult
  dry : Bool
  orgTeams : List Team
  calls : List Call
  heap : Nat
  deriving DecidableEq, Repr

/-- How a function call ends: with a value, with a Go `error`, with a nil-pointer
panic, or not at all (recursion deeper than the fuel). -/
inductive Outcome (α : Type) where
  | ok (a : α)
  | error (msg : String)
  | nilDeref
  | overflow
  deriving DecidableEq, Repr

/-- Go `teamMembershipSync`. -/
structure TeamMembershipSync where
  Maintainers : List String
  Members : List String
  deriving DecidableEq, Repr

/-! ## organise -/

/-- First loop of `organise`: `oc.TeamsByID[t.ID] = t`, `i` being the position of the
next team. -/
def indexTeams : Nat → List Team → List (String × Nat) → List (String × Nat)
  | _, [], m => m
  | i, t :: ts, m => indexTeams (i + 1) ts (mset m t.ID i)

/-- Second loop of `organise` from position `i` on: returns the error (if any), the
employees as the loop leaves them and the employee index. -/
def organiseEmployees (teamsByID : List (String × Nat)) :
    Nat → List Employee → List (String × Nat) →
      Option String × List Employee × List (String × Nat)
  | _, [], m => (none, [], m)
  | i, e :: es, m =>
    match mget teamsByID e.MemberOf with
    | none =>
      (some ("could not find team " ++ e.MemberOf ++ " for member " ++ e.Name), e :: es,
        mset m e.ID i)
    | some team =>
      match organiseEmployees teamsByID (i + 1) es (mset m e.ID i) with
      | (err, es', m') => (err, { e with Team := some team } :: es', m')

/-- Method `(*OrgChart).organise`: the returned error and the chart as the call leaves it. -/
def organise (oc : OrgChart) : Option String × OrgChart :=
  let teamsByID := indexTeams 0 oc.Teams []
  match organiseEmployees teamsByID 0 oc.Employees [] with
  | (err, es, m) =>
    (err, { oc with Employees := es, TeamsByID := teamsByID, EmployeesByID := m })

/-! ## Set differences -/

/-- Inner loop of the two member diffs: is `handle` the login of one of the members? -/
def loginFound (handle : String) : List GhUser → Bool
  | [] => false
  | ghMember :: rest => if handle = ghMember.GetLogin then true else loginFound handle rest

/-- Inner loop of `githubMembersNotInOrgchart`: is `login` the handle of an employee? -/
def handleFound (login : String) : List Employee → Bool
  | [] => false
  | employee :: rest => if employee.Github = login then true else handleFound login rest

/-- Inner loop of `teamsNotInGithub`: is `name` the name of a team of the map? -/
def ghNameFound (name : String) : List (String × GhTeam) → Bool
  | [] => false
  | ghTeam :: rest => if name = ghTeam.2.GetName then true else ghNameFound name rest

/-- Inner loop of `githubTeamsNotInOrgchart`: is `name` the platform name of a chart team? -/
def orgNameFound (name : String) : List Team → Bool
  | [] => false
  | team :: rest => if team.Github = name then true else orgNameFound name rest

/-- Outer loop of `employeesNotInGithub`, `notInGithub` being the slice built so far. -/
def employeesNotInGithubLoop (members : List GhUser) :
    List Employee → List Employee → List Employee
  | [], notInGithub => notInGithub
  | employee :: rest, notInGithub =>
    if employee.Github = "" then employeesNotInGithubLoop members rest notInGithub
    else if loginFound employee.Github members then
      employeesNotInGithubLoop members rest notInGithub
    else employeesNotInGithubLoop members rest (notInGithub ++ [employee])

/-- Function `employeesNotInGithub`. -/
def employeesNotInGithub (orgchart : OrgChart) (gh : GithubState) : List Employee :=
  employeesNotInGithubLoop gh.members orgchart.Employees []

/-- Outer loop of `githubMembersNotInOrgchart`. -/
def githubMembersNotInOrgchartLoop (employees : List Employee) :
    List GhUser → List GhUser → List GhUser
  | [], notInOrgchart => notInOrgchart
  | ghMember :: rest, notInOrgchart =>
    if handleFound ghMember.GetLogin employees then
      githubMembersNotInOrgchartLoop employees rest notInOrgchart
    else githubMembersNotInOrgchartLoop employees rest (notInOrgchart ++ [ghMember])

/-- Function `githubMembersNotInOrgchart`. -/
def githubMembersNotInOrgchart (orgchart : OrgChart) (gh : GithubState) : List GhUser :=
  githubMembersNotInOrgchartLoop orgchart.Employees gh.members []

/-- Outer loop of `teamsNotInGithub`. -/
def teamsNotInGithubLoop (ghTeams : List (String × GhTeam)) :
    List Team → List Team → List Team
  | [], notInGithub => notInGithub
  | team :: rest, notInGithub =>
    if ghNameFound team.Github ghTeams then teamsNotInGithubLoop ghTeams rest notInGithub
    else teamsNotInGithubLoop ghTeams rest (notInGithub ++ [team])

/-- Function `teamsNotInGithub`. -/
def teamsNotInGithub (orgchart : OrgChart) (gh : GithubState) : List Team :=
  teamsNotInGithubLoop gh.teams orgchart.Teams []

/-- Outer loop of `githubTeamsNotInOrgchart`; the map is ranged over in list order. -/
def githubTeamsNotInOrgchartLoop (teams : List Team) :
    List (String × GhTeam) → List GhTeam → List GhTeam
  | [], notInOrgchart => notInOrgchart
  | ghTeam :: rest, notInOrgchart =>
    if orgNameFound ghTeam.2.GetName teams then
      githubTeamsNotInOrgchartLoop teams rest notInOrgchart
    else githubTeamsNotInOrgchartLoop teams rest (notInOrgchart ++ [ghTeam.2])

/-- Function `githubTeamsNotInOrgchart`. -/
def githubTeamsNotInOrgchart (orgchart : OrgChart) (gh : GithubState) : List GhTeam :=
  githubTeamsNotInOrgchartLoop orgchart.Teams gh.teams []

/-! ## Hierarchy reconciler -/

/-- Lookup loop at the head of `createTeamByIDIfNotExists`: the last team with the ID wins. -/
def findOrgTeam (orgTeams : List Team) (teamID : String) : Option Team :=
  orgTeams.foldl (fun teamToCreate team => if team.ID = teamID then some team else teamToCreate)
    none

/-- The request sent for `teamToCreate` by both `CreateTeam` and `EditTeam`. -/
def newTeamFor (teamToCreate : Team) (parentID : Option Int) : NewTeam :=
  { Name := teamToCreate.Github, Description := some teamToCreate.Description,
    ParentTeamID := parentID, Privacy := some "closed" }

/-- The part of `createTeamByIDIfNotExists` after the parent has been dealt with
(from `privacy := "closed"` to the end), `parentID` being the parent's platform ID. -/
def createOrEdit (c : Client) (teamToCreate : Team) (parentID : Option Int)
    (gh : GithubState) : Outcome GhTeam × GithubState :=
  match mget gh.teams teamToCreate.Github with
  | some preExistingTeam =>
    match preExistingTeam.Parent with
    | some parentTeam =>
      if parentTeam.GetName ≠ teamToCreate.ParentID then
        if gh.dry then (.ok preExistingTeam, gh)
        else
          let req := newTeamFor teamToCreate parentID
          let gh1 := { gh with calls := gh.calls ++ [Call.editTeam preExistingTeam.GetID req] }
          match c.EditTeam gh.calls preExistingTeam.GetID req with
          | .error err => (.error ("editing team: " ++ err), gh1)
          | .ok answer =>
            let editedTeam := { answer with addr := gh1.heap }
            (.ok preExistingTeam,
              { gh1 with heap := gh1.heap + 1,
                         teams := mset gh1.teams editedTeam.GetName editedTeam })
      else (.ok preExistingTeam, gh)
    | none => (.ok preExistingTeam, gh)
  | none =>
    if gh.dry then
      let createdTeam : GhTeam :=
        { addr := gh.heap, ID := none, Name := some teamToCreate.Github,
          Description := some teamToCreate.Description, Privacy := some "closed",
          Parent := none }
      (.ok createdTeam,
        { gh with heap := gh.heap + 1, teams := mset gh.teams createdTeam.GetName createdTeam })
    else
      let req := newTeamFor teamToCreate parentID
      let gh1 := { gh with calls := gh.calls ++ [Call.createTeam gh.organisation req] }
      match c.CreateTeam gh.calls gh.organisation req with
      | .error err => (.error err, gh1)
      | .ok answer =>
        let createdTeam := { answer with addr := gh1.heap }
        (.ok createdTeam,
          { gh1 with heap := gh1.heap + 1,
                     teams := mset gh1.teams createdTeam.GetName createdTeam })

/-- Method `createTeamByIDIfNotExists`; the first argument bounds the recursion depth. -/
def createTeamByIDIfNotExists (c : Client) :
    Nat → String → GithubState → Outcome GhTeam × GithubState
  | 0, _, gh => (.overflow, gh)
  | fuel + 1, teamID, gh =>
    match findOrgTeam gh.orgTeams teamID with
    | none => (.error ("could not find org team " ++ teamID ++ " for creation"), gh)
    | some teamToCreate =>
      if teamToCreate.ParentID ≠ "" then
        match createTeamByIDIfNotExists c fuel teamToCreate.ParentID gh with
        | (.ok parentTeam, gh1) => createOrEdit c teamToCreate parentTeam.ID gh1
        | (.error err, gh1) => (.error err, gh1)
        | (.nilDeref, gh1) => (.nilDeref, gh1)
        | (.overflow, gh1) => (.overflow, gh1)
      else createOrEdit c teamToCreate none gh

/-- Method `removeTeam`.  It returns nil on every path, also when the delete call fails. -/
def removeTeam (c : Client) (team : GhTeam) (gh : GithubState) : Outcome Unit × GithubState :=
  let record (gh : GithubState) : Outcome Unit × GithubState :=
    match gh.syncResult with
    | none => (.nilDeref, gh)
    | some res =>
      (.ok (),
        { gh with syncResult := some { res with removedTeams := res.removedTeams ++ [team] },
                  teams := mdel gh.teams team.GetName })
  if gh.dry then record gh
  else
    let gh1 := { gh with calls := gh.calls ++ [Call.deleteTeam team.GetID] }
    match c.DeleteTeam gh.calls team.GetID with
    | some _ => (.ok (), gh1)
    | none => record gh1

/-! ## Membership planner and applier -/

/-- The statement `if _, ok := memberSync[team]; !ok { memberSync[team] = &teamMembershipSync{…} }`. -/
def ensureEntry (memberSync : List (GhTeam × TeamMembershipSync)) (team : GhTeam) :
    List (GhTeam × TeamMembershipSync) :=
  match mget memberSync team with
  | some _ => memberSync
  | none => mset memberSync team { Maintainers := [], Members := [] }

/-- The statement `memberSync[team].Members = append(memberSync[team].Members, handle)`. -/
def addMember (memberSync : List (GhTeam × TeamMembershipSync)) (team : GhTeam)
    (handle : String) : List (GhTeam × TeamMembershipSync) :=
  match mget memberSync team with
  | some entry => mset memberSync team { entry with Members := entry.Members ++ [handle] }
  | none => memberSync

/-- The statement `memberSync[team].Maintainers = append(memberSync[team].Maintainers, handle)`. -/
def addMaintainer (memberSync : List (GhTeam × TeamMembershipSync)) (team : GhTeam)
    (handle : String) : List (GhTeam × TeamMembershipSync) :=
  match mget memberSync team with
  | some entry => mset memberSync team { entry with Maintainers := entry.Maintainers ++ [handle] }
  | none => memberSync

/-- Dereference of the pointer stored under `id` in `chart.EmployeesByID`. -/
def employeeByID (chart : OrgChart) (id : String) : Option (Option Employee) :=
  (mget chart.EmployeesByID id).map fun i => chart.Employees.get? i

/-- First loop of `teamMembersSyncData`, over the employees. -/
def planEmployees (chart : OrgChart) :
    List Employee → List (GhTeam × TeamMembershipSync) → GithubState →
      Outcome (List (GhTeam × TeamMembershipSync)) × GithubState
  | [], memberSync, gh => (.ok memberSync, gh)
  | e :: rest, memberSync, gh =>
    if e.Github = "" then
      match gh.syncResult with
      | none => (.nilDeref, gh)
      | some res =>
        let res1 := { res with unableToCreateMembership := res.unableToCreateMembership ++ [e] }
        planEmployees chart rest memberSync { gh with syncResult := some res1 }
    else
      match e.Team.bind fun i => chart.Teams.get? i with
      | none => (.nilDeref, gh)
      | some eTeam =>
        match mget gh.teams eTeam.Github with
        | none => (.error ("team " ++ eTeam.Github ++ " not found in github"), gh)
        | some team =>
          planEmployees chart rest (addMember (ensureEntry memberSync team) team e.Github) gh

/-- Second loop of `teamMembersSyncData`, over the teams. -/
def planTeams (chart : OrgChart) :
    List Team → List (GhTeam × TeamMembershipSync) → GithubState →
      Outcome (List (GhTeam × TeamMembershipSync)) × GithubState
  | [], memberSync, gh => (.ok memberSync, gh)
  | t :: rest, memberSync, gh =>
    match mget gh.teams t.Github with
    | none => (.error ("team " ++ t.Github ++ " not found in github"), gh)
    | some team =>
      let memberSync := ensureEntry memberSync team
      let productLead (memberSync : List (GhTeam × TeamMembershipSync)) :
          Outcome (List (GhTeam × TeamMembershipSync)) × GithubState :=
        if t.ProductLeadID ≠ "" then
          match employeeByID chart t.ProductLeadID with
          | none =>
            (.error ("could not find product lead " ++ t.TeachLeadID ++ " for team " ++ t.Name),
              gh)
          | some none => (.nilDeref, gh)
          | some (some productLead) =>
            if productLead.Github = "" then
              match gh.syncResult with
              | none => (.nilDeref, gh)
              | some res =>
                let res1 :=
                  { res with
                    unableToCreateMaintainer := res.unableToCreateMaintainer ++ [productLead] }
                planTeams chart rest memberSync { gh with syncResult := some res1 }
            else planTeams chart rest (addMaintainer memberSync team productLead.Github) gh
        else planTeams chart rest memberSync gh
      if t.TeachLeadID ≠ "" then
        match employeeByID chart t.TeachLeadID with
        | none =>
          (.error ("could not find tech lead " ++ t.TeachLeadID ++ " for team " ++ t.Name), gh)
        | some none => (.nilDeref, gh)
        | some (some techLead) =>
          if techLead.Github = "" then
            match gh.syncResult with
            | none => (.nilDeref, gh)
            | some res =>
              let res1 :=
                { res with
                  unableToCreateMaintainer := res.unableToCreateMaintainer ++ [techLead] }
              planTeams chart rest memberSync { gh with syncResult := some res1 }
          else productLead (addMaintainer memberSync team techLead.Github)
      else productLead memberSync

/-- Function `teamMembersSyncData`. -/
def teamMembersSyncData (chart : OrgChart) (gh : GithubState) :
    Outcome (List (GhTeam × TeamMembershipSync)) × GithubState :=
  match planEmployees chart chart.Employees [] gh with
  | (.ok memberSync, gh1) => planTeams chart chart.Teams memberSync gh1
  | r => r

/-- One loop of `syncTeamMembers`: an `AddTeamMembership` call per handle, until one fails. -/
def grantAll (c : Client) (teamID : Int) (role : Option String) :
    List String → GithubState → Outcome Unit × GithubState
  | [], gh => (.ok (), gh)
  | user :: rest, gh =>
    let gh1 := { gh with calls := gh.calls ++ [Call.addTeamMembership teamID user role] }
    match c.AddTeamMembership gh.calls teamID user role with
    | some err => (.error err, gh1)
    | none => grantAll c teamID role rest gh1

/-- Method `syncTeamMembers`. -/
def syncTeamMembers (c : Client) (team : GhTeam) (memberHandles maintainerHandles : List String)
    (gh : GithubState) : Outcome Unit × GithubState :=
  if gh.dry then (.ok (), gh)
  else
    match grantAll c team.GetID none memberHandles gh with
    | (.ok _, gh1) => grantAll c team.GetID (some "maintainer") maintainerHandles gh1
    | r => r

/-! ## Orchestrator -/

/-- The order in which `range` visits the entries of the membership plan: Go leaves it
unspecified, every entry is visited once. -/
structure MapRange where
  order : List (GhTeam × TeamMembershipSync) → List (GhTeam × TeamMembershipSync)
  perm : ∀ m, (order m).Perm m

/-- First loop of `SyncTeams`: remove the teams of `githubTeamsNotInOrgchart`. -/
def removeStale (c : Client) : List GhTeam → GithubState → Outcome Unit × GithubState
  | [], gh => (.ok (), gh)
  | teamToRemove :: rest, gh =>
    match removeTeam c teamToRemove gh with
    | (.ok _, gh1) => removeStale c rest gh1
    | r => r

/-- Second loop of `SyncTeams`: the root teams. -/
def resetRoots (c : Client) : List Team → GithubState → Outcome Unit × GithubState
  | [], gh => (.ok (), gh)
  | t :: rest, gh =>
    if t.ParentID = "" then
      match mget gh.teams t.Github with
      | none => (.ok (), gh)
      | some rootTeam =>
        match removeTeam c rootTeam gh with
        | (.ok _, gh1) => resetRoots c rest { gh1 with teams := [] }
        | r => r
    else resetRoots c rest gh

/-- Third loop of `SyncTeams`: create the teams of `teamsNotInGithub`. -/
def createMissing (c : Client) (fuel : Nat) :
    List Team → GithubState → Outcome Unit × GithubState
  | [], gh => (.ok (), gh)
  | teamToCreate :: rest, gh =>
    match createTeamByIDIfNotExists c fuel teamToCreate.ID gh with
    | (.ok _, gh1) => createMissing c fuel rest gh1
    | (.error err, gh1) => (.error err, gh1)
    | (.nilDeref, gh1) => (.nilDeref, gh1)
    | (.overflow, gh1) => (.overflow, gh1)

/-- Last loop of `SyncTeams`: apply the plan, entry by entry. -/
def applyPlan (c : Client) :
    List (GhTeam × TeamMembershipSync) → GithubState → Outcome Unit × GithubState
  | [], gh => (.ok (), gh)
  | (ghTeam, membership) :: rest, gh =>
    match syncTeamMembers c ghTeam membership.Members membership.Maintainers gh with
    | (.ok _, gh1) => applyPlan c rest gh1
    | r => r

/-- The first two statements of `SyncTeams`: `gh.orgTeams = chart.Teams` and a fresh, empty
`gh.syncResult`. -/
def syncStart (chart : OrgChart) (gh : GithubState) : GithubState :=
  { gh with orgTeams := chart.Teams,
            syncResult := some { removedTeams := [], unableToCreateMembership := [],
                                 unableToCreateMaintainer := [] } }

/-- Method `SyncTeams`.  The `*githubSyncResult` it returns is `gh.syncResult` of the
state it leaves, beside a nil error (`ok`) or an error. -/
def SyncTeams (c : Client) (range : MapRange) (fuel : Nat) (chart : OrgChart)
    (gh : GithubState) : Outcome Unit × GithubState :=
  let gh0 := syncStart chart gh
  match removeStale c (githubTeamsNotInOrgchart chart gh0) gh0 with
  | (.ok _, gh1) =>
    match resetRoots c chart.Teams gh1 with
    | (.ok _, gh2) =>
      match createMissing c fuel (teamsNotInGithub chart gh2) gh2 with
      | (.ok _, gh3) =>
        match teamMembersSyncData chart gh3 with
        | (.ok syncData, gh4) => applyPlan c (range.order syncData) gh4
        | (.error err, gh4) => (.error err, gh4)
        | (.nilDeref, gh4) => (.nilDeref, gh4)
        | (.overflow, gh4) => (.overflow, gh4)
      | r => r
    | r => r
  | r => r

/-! ## The phases of SyncTeams -/

/-- The state of `SyncTeams` after its first loop (removal of the stale teams). -/
def afterStale (c : Client) (chart : OrgChart) (gh : GithubState) : GithubState :=
  (removeStale c (githubTeamsNotInOrgchart chart (syncStart chart gh)) (syncStart chart gh)).2

/-- The state of `SyncTeams` after its second loop (the root teams). -/
def afterRoots (c : Client) (chart : OrgChart) (gh : GithubState) : GithubState :=
  (resetRoots c chart.Teams (afterStale c chart gh)).2

/-- The outcome and state of the third loop of `SyncTeams` (creation). -/
def creation (c : Client) (fuel : Nat) (chart : OrgChart) (gh : GithubState) :
    Outcome Unit × GithubState :=
  createMissing c fuel (teamsNotInGithub chart (afterRoots c chart gh)) (afterRoots c chart gh)

/-- The plan `SyncTeams` computes after creation, and the state the planner leaves. -/
def planning (c : Client) (fuel : Nat) (chart : OrgChart) (gh : GithubState) :
    Outcome (List (GhTeam × TeamMembershipSync)) × GithubState :=
  teamMembersSyncData chart (creation c fuel chart gh).2

/-- The state with `gh.syncResult` pointing at `r`. -/
def withResult (gh : GithubState) (r : GithubSyncResult) : GithubState :=
  { gh with syncResult := some r }

/-- The result with `es` appended to `unableToCreateMembership`. -/
def moreMembership (r : GithubSyncResult) (es : List Employee) : GithubSyncResult :=
  { r with unableToCreateMembership := r.unableToCreateMembership ++ es }

/-- The result with `es` appended to `unableToCreateMaintainer`. -/
def moreMaintainer (r : GithubSyncResult) (es : List Employee) : GithubSyncResult :=
  { r with unableToCreateMaintainer := r.unableToCreateMaintainer ++ es }

/-- The state with `new` appended to the call log. -/
def withCalls (gh : GithubState) (new : List Call) : GithubState :=
  { gh with calls := gh.calls ++ new }

/-! ## Predicates of the statements -/

/-- What a step of a dry run keeps: the flag and the call log. -/
def DryKeeps (gh gh1 : GithubState) : Prop := gh1.dry = true ∧ gh1.calls = gh.calls

/-- The fields no step of a run writes to after `syncStart`. -/
def SameConfig (gh gh1 : GithubState) : Prop :=
  gh1.dry = gh.dry ∧ gh1.orgTeams = gh.orgTeams ∧ gh1.organisation = gh.organisation ∧
    gh1.members = gh.members ∧ gh1.teamPrefix = gh.teamPrefix

/-- The call log of `gh1` is the log of `gh` followed by calls that all satisfy `P`. -/
def CallsAdded (P : Call → Prop) (gh gh1 : GithubState) : Prop :=
  ∃ new, gh1.calls = gh.calls ++ new ∧ ∀ call ∈ new, P call

/-- The call is a `DeleteTeam`. -/
def Call.IsDelete : Call → Prop
  | .deleteTeam _ => True
  | _ => False

/-- The call is a `CreateTeam` or an `EditTeam`. -/
def Call.IsTeamWrite : Call → Prop
  | .createTeam _ _ => True
  | .editTeam _ _ => True
  | _ => False

/-- The result `r1` extends `r` by removed teams only. -/
def RemovedOnly (r r1 : GithubSyncResult) : Prop :=
  r.removedTeams <+: r1.removedTeams ∧
    r1.unableToCreateMembership = r.unableToCreateMembership ∧
    r1.unableToCreateMaintainer = r.unableToCreateMaintainer

/-- The placeholder `createTeamByIDIfNotExists` fabricates in a dry run. -/
def placeholder (addr : Nat) (teamToCreate : Team) : GhTeam :=
  { addr := addr, ID := none, Name := some teamToCreate.Github,
    Description := some teamToCreate.Description, Privacy := some "closed", Parent := none }

/-- The platform answers a create or edit request with a team of the requested name. -/
def Echoes (c : Client) : Prop :=
  (∀ log org req ans, c.CreateTeam log org req = .ok ans → ans.Name = some req.Name) ∧
    (∀ log id req ans, c.EditTeam log id req = .ok ans → ans.Name = some req.Name)

/-- No create call and no edit call fails. -/
def CreatesSucceed (c : Client) : Prop :=
  (∀ log org req, ∃ ans, c.CreateTeam log org req = .ok ans) ∧
    (∀ log id req, ∃ ans, c.EditTeam log id req = .ok ans)

/-- What the creation steps may change: the team index, the call log and the heap.  The
configuration and the result stay, the log grows by create and edit calls, bound keys
stay bound, and a value of the index is either the old value of its key or an object
allocated by the step. -/
def CreateStep (gh gh1 : GithubState) : Prop :=
  SameConfig gh gh1 ∧ gh1.syncResult = gh.syncResult ∧ gh.heap ≤ gh1.heap ∧
    CallsAdded Call.IsTeamWrite gh gh1 ∧
    (∀ k, (mget gh.teams k).isSome → (mget gh1.teams k).isSome) ∧
    (∀ k g, mget gh1.teams k = some g →
      mget gh.teams k = some g ∨ (gh.heap ≤ g.addr ∧ g.addr < gh1.heap))

/-- Following the parent IDs from `teamID` reaches a root team of the chart within `n`
teams, every ID on the way being the ID of a chart team. -/
def chainResolves (teams : List Team) : Nat → String → Bool
  | 0, _ => false
  | n + 1, teamID =>
    match findOrgTeam teams teamID with
    | none => false
    | some t => if t.ParentID = "" then true else chainResolves teams n t.ParentID

/-- How the keys bound by creation steps come about: in a dry run a binding is the old
one or a placeholder for a chart team of that name; otherwise a key that was free and is
now bound is the name of a chart team for which a create call is in the log. -/
def CreatedKeys (gh gh1 : GithubState) : Prop :=
  (gh.dry = true → ∀ k g, mget gh1.teams k = some g →
    mget gh.teams k = some g ∨
      ∃ t ∈ gh.orgTeams, t.Github = k ∧ ∃ a, gh.heap ≤ a ∧ g = placeholder a t) ∧
  (gh.dry = false → ∀ k, mget gh.teams k = none → (mget gh1.teams k).isSome →
    ∃ t ∈ gh.orgTeams, t.Github = k ∧
      ∃ pid, Call.createTeam gh.organisation (newTeamFor t pid) ∈ gh1.calls)

/-- No handle of the plan is empty. -/
def HandlesNonEmpty (plan : List (GhTeam × TeamMembershipSync)) : Prop :=
  ∀ e ∈ plan, "" ∉ e.2.Members ∧ "" ∉ e.2.Maintainers

/-- The platform team `p` returned for a chart team is recorded in the index of `gh1`: as
the value of a key, or, when `p` was found in the index and edited by the last call of the
log, through the platform's answer to that edit, bound under the name the answer carries. -/
def Recorded (c : Client) (gh1 : GithubState) (p : GhTeam) : Prop :=
  (∃ k, mget gh1.teams k = some p) ∨
    ∃ log req ans q, gh1.calls = log ++ [Call.editTeam p.GetID req] ∧
      c.EditTeam log p.GetID req = .ok ans ∧ mget gh1.teams ans.GetName = some q ∧
      q = { ans with addr := q.addr }

/-! ## Sample data -/

/-- A platform on which every call succeeds: a created team gets the requested name, an ID
derived from the number of earlier calls and the requested parent; an edited team keeps
its ID. -/
def sampleClient : Client where
  CreateTeam := fun log _ req =>
    .ok { addr := 0, ID := some (100 + log.length), Name := some req.Name,
          Description := req.Description, Privacy := req.Privacy,
          Parent := req.ParentTeamID.map fun i => { ID := some i, Name := none } }
  EditTeam := fun _ id req =>
    .ok { addr := 0, ID := some id, Name := some req.Name, Description := req.Description,
          Privacy := req.Privacy,
          Parent := req.ParentTeamID.map fun i => { ID := some i, Name := none } }
  DeleteTeam := fun _ _ => none
  AddTeamMembership := fun _ _ _ _ => none

/-- Ranging over the plan in the order of the list. -/
def sampleRange : MapRange := ⟨fun m => m, fun m => List.Perm.refl m⟩

/-- A root team. -/
def rootTeam : Team :=
  { ID := "root", Name := "Root", ParentID := "", Description := "all", Github := "org-root",
    TeachLeadID := "e1", ProductLeadID := "" }

/-- A team below `rootTeam`. -/
def childTeam : Team :=
  { ID := "child", Name := "Child", ParentID := "root", Description := "some",
    Github := "org-child", TeachLeadID := "", ProductLeadID := "e2" }

/-- Two employees, the second without a handle. -/
def sampleEmployees : List Employee :=
  [{ ID := "e1", Name := "Ada", Github := "ada", MemberOf := "root", Team := none },
   { ID := "e2", Name := "Bob", Github := "", MemberOf := "child", Team := none }]

/-- The chart of `rootTeam`, `childTeam` and `sampleEmployees` as loaded. -/
def rawChart : OrgChart :=
  { Employees := sampleEmployees, Teams := [rootTeam, childTeam], TeamsByID := [],
    EmployeesByID := [] }

/-- The chart `rawChart`, organised. -/
def sampleChart : OrgChart := (organise rawChart).2

/-- A platform team that is in no chart. -/
def staleGhTeam : GhTeam :=
  { addr := 0, ID := some 7, Name := some "org-old", Description := none, Privacy := none,
    Parent := none }

/-- A snapshot holding `staleGhTeam` only, before any call. -/
def sampleState (dry : Bool) : GithubState :=
  { organisation := "acme", teamPrefix := "org-", teams := [("org-old", staleGhTeam)],
    members := [{ ID := some 1, Login := some "ada" }], syncResult := none, dry := dry,
    orgTeams := [], calls := [], heap := 1 }

/-- The sample platform with a delete call that always fails. -/
def failingDeleteClient : Client :=
  { sampleClient with DeleteTeam := fun _ _ => some "delete refused" }

/-- A root team without leads. -/
def plainRoot : Team :=
  { ID := "root", Name := "Root", ParentID := "", Description := "all", Github := "org-root",
    TeachLeadID := "", ProductLeadID := "" }

/-- A second root team without leads. -/
def otherRoot : Team :=
  { ID := "other", Name := "Other", ParentID := "", Description := "rest",
    Github := "org-other", TeachLeadID := "", ProductLeadID := "" }

/-- A team below `plainRoot`, without leads. -/
def plainChild : Team :=
  { ID := "child", Name := "Child", ParentID := "root", Description := "some",
    Github := "org-child", TeachLeadID := "", ProductLeadID := "" }

/-- A chart with two root teams and no employees. -/
def twoRootChart : OrgChart :=
  { Employees := [], Teams := [plainRoot, otherRoot], TeamsByID := [("root", 0), ("other", 1)],
    EmployeesByID := [] }

/-- The platform team of `plainRoot`. -/
def rootGhTeam : GhTeam :=
  { addr := 0, ID := some 1, Name := some "org-root", Description := some "all",
    Privacy := some "closed", Parent := none }

/-- The platform team of `otherRoot`. -/
def otherGhTeam : GhTeam :=
  { addr := 1, ID := some 2, Name := some "org-other", Description := some "rest",
    Privacy := some "closed", Parent := none }

/-- A snapshot in which both root teams of `twoRootChart` exist. -/
def twoRootState (dry : Bool) : GithubState :=
  { organisation := "acme", teamPrefix := "org-",
    teams := [("org-root", rootGhTeam), ("org-other", otherGhTeam)], members := [],
    syncResult := none, dry := dry, orgTeams := [], calls := [], heap := 2 }

/-- The chart of `plainRoot` and `plainChild`, without employees. -/
def plainChart : OrgChart :=
  { Employees := [], Teams := [plainRoot, plainChild],
    TeamsByID := [("root", 0), ("child", 1)], EmployeesByID := [] }

/-- The platform team of `plainChild`, below `rootGhTeam`. -/
def childGhTeam : GhTeam :=
  { addr := 1, ID := some 2, Name := some "org-child", Description := some "some",
    Privacy := some "closed", Parent := some { ID := some 1, Name := some "org-root" } }

/-- A snapshot in which both teams of `plainChart` exist, unchanged. -/
def plainState (dry : Bool) : GithubState :=
  { organisation := "acme", teamPrefix := "org-",
    teams := [("org-root", rootGhTeam), ("org-child", childGhTeam)], members := [],
    syncResult := none, dry := dry, orgTeams := [], calls := [], heap := 2 }

/-- An empty platform: no team, no member, no call made yet. -/
def emptyState (dry : Bool) : GithubState :=
  { organisation := "acme", teamPrefix := "org-", teams := [], members := [],
    syncResult := none, dry := dry, orgTeams := [], calls := [], heap := 0 }

/-- The chart of `plainChild` and `plainRoot`, the child first. -/
def childFirstChart : OrgChart :=
  { Employees := [], Teams := [plainChild, plainRoot],
    TeamsByID := [("child", 0), ("root", 1)], EmployeesByID := [] }

/-- The sample platform, except that a team created below a parent records that parent
under the name `org-root`. -/
def namingClient : Client :=
  { sampleClient with
    CreateTeam := fun log _ req =>
      .ok { addr := 0, ID := some (100 + log.length), Name := some req.Name,
            Description := req.Description, Privacy := req.Privacy,
            Parent := req.ParentTeamID.map fun i => { ID := some i, Name := some "org-root" } } }

/-- An empty live platform seen from a run on the chart of `plainRoot` and `plainChild`. -/
def idempotenceStart : GithubState :=
  { emptyState false with orgTeams := [plainRoot, plainChild] }

/-! ## Parent chains: vocabulary and samples -/

/-- Following the non-empty parent IDs from `teamID` through at most `n` teams, the first
ID that is the ID of no chart team, if the chain gets to one. -/
def unknownAncestor (teams : List Team) : Nat → String → Option String
  | 0, _ => none
  | n + 1, teamID =>
    match findOrgTeam teams teamID with
    | none => some teamID
    | some t => if t.ParentID = "" then none else unknownAncestor teams n t.ParentID

/-- Following the non-empty parent IDs from `teamID` ends within `n` teams, at a root team
or at an ID that is the ID of no chart team. -/
def chainEnds (teams : List Team) : Nat → String → Bool
  | 0, _ => false
  | n + 1, teamID =>
    match findOrgTeam teams teamID with
    | none => true
    | some t => if t.ParentID = "" then true else chainEnds teams n t.ParentID

/-- The ID reached from `teamID` by following `k` non-empty parent IDs of chart teams. -/
def ancestorID (teams : List Team) : Nat → String → Option String
  | 0, teamID => some teamID
  | k + 1, teamID =>
    match findOrgTeam teams teamID with
    | none => none
    | some t => if t.ParentID = "" then none else ancestorID teams k t.ParentID

/-- A team that names itself as its parent. -/
def loopTeam : Team :=
  { ID := "loop", Name := "Loop", ParentID := "loop", Description := "", Github := "org-loop",
    TeachLeadID := "", ProductLeadID := "" }

/-- A team whose parent is the ID of no team. -/
def orphanTeam : Team :=
  { ID := "orphan", Name := "Orphan", ParentID := "nowhere", Description := "",
    Github := "org-orphan", TeachLeadID := "", ProductLeadID := "" }

/-- An empty live platform seen from a run on the chart of `loopTeam`, `orphanTeam`,
`plainRoot` and `plainChild`. -/
def chainStart : GithubState :=
  { emptyState false with orgTeams := [loopTeam, orphanTeam, plainRoot, plainChild] }

/-- The statements `var parentID *int64` and `if teamToCreate.ParentID != "" { … }` of
`createTeamByIDIfNotExists`: the recursive call for the parent and the parent ID it yields. -/
def ensureParent (c : Client) (fuel : Nat) (teamToCreate : Team) (gh : GithubState) :
    Outcome (Option Int) × GithubState :=
  if teamToCreate.ParentID ≠ "" then
    match createTeamByIDIfNotExists c fuel teamToCreate.ParentID gh with
    | (.ok parentTeam, gh1) => (.ok parentTeam.ID, gh1)
    | (.error err, gh1) => (.error err, gh1)
    | (.nilDeref, gh1) => (.nilDeref, gh1)
    | (.overflow, gh1) => (.overflow, gh1)
  else (.ok none, gh)

/-- The platform team of `plainChild` with no recorded parent. -/
def looseChildGhTeam : GhTeam :=
  { addr := 1, ID := some 2, Name := some "org-child", Description := some "some",
    Privacy := some "closed", Parent := none }

/-- A live snapshot for the chart of `plainRoot` and `plainChild` in which the child has the
platform team `child` and the root has `rootGhTeam` or, if `withRoot` is false, none. -/
def correctionState (withRoot : Bool) (child : GhTeam) : GithubState :=
  { organisation := "acme", teamPrefix := "org-",
    teams := (if withRoot then [("org-root", rootGhTeam)] else []) ++ [("org-child", child)],
    members := [], syncResult := none, dry := false, orgTeams := [plainRoot, plainChild],
    calls := [], heap := 2 }

/-! ## Grants: vocabulary and samples -/

/-- The `AddTeamMembership` calls `syncTeamMembers` is to issue for a team: one with the
default role for each member handle, then one with the role `maintainer` for each
maintainer handle. -/
def grantCalls (teamID : Int) (memberHandles maintainerHandles : List String) : List Call :=
  memberHandles.map (fun user => Call.addTeamMembership teamID user none) ++
    maintainerHandles.map (fun user => Call.addTeamMembership teamID user (some "maintainer"))

/-- The platform's answer to an `AddTeamMembership` call made after the calls of `log`. -/
def grantAnswer (c : Client) (log : List Call) : Call → Option String
  | .addTeamMembership teamID user role => c.AddTeamMembership log teamID user role
  | _ => none

/-- Issuing the calls of a list in order up to the first one that fails: the outcome and the
log it leaves. -/
def untilFailure (c : Client) : List Call → List Call → Outcome Unit × List Call
  | log, [] => (.ok (), log)
  | log, call :: rest =>
    match grantAnswer c log call with
    | some err => (.error err, log ++ [call])
    | none => untilFailure c (log ++ [call]) rest

/-- The sample platform, except that no membership can be granted to `ada`. -/
def failingGrantClient : Client :=
  { sampleClient with
    AddTeamMembership := fun _ _ user _ => if user = "ada" then some "grant refused" else none }

/-! ## The membership plan: vocabulary and samples -/

/-- The `Members` list of the plan entry of `g`, empty when there is no entry. -/
def membersOf (plan : List (GhTeam × TeamMembershipSync)) (g : GhTeam) : List String :=
  match mget plan g with
  | some entry => entry.Members
  | none => []

/-- The `Maintainers` list of the plan entry of `g`, empty when there is no entry. -/
def maintainersOf (plan : List (GhTeam × TeamMembershipSync)) (g : GhTeam) : List String :=
  match mget plan g with
  | some entry => entry.Maintainers
  | none => []

/-- The team `e.Team` points at. -/
def teamOf (chart : OrgChart) (e : Employee) : Option Team :=
  e.Team.bind fun i => chart.Teams.get? i

/-- The platform team the index binds to the name of the employee's team. -/
def employeeGhTeam (chart : OrgChart) (teams : List (String × GhTeam)) (e : Employee) :
    Option GhTeam :=
  (teamOf chart e).bind fun t => mget teams t.Github

/-- The handles, in list order, of the employees of `l` with a non-empty handle whose
team's name is bound to `g`. -/
def memberHandles (chart : OrgChart) (teams : List (String × GhTeam)) (g : GhTeam)
    (l : List Employee) : List String :=
  (l.filter fun e => decide (e.Github ≠ "") && decide (employeeGhTeam chart teams e = some g)).map
    Employee.Github

/-- The handles, in list order, of the employees of `l` with a non-empty handle whose
team has the name `name`. -/
def memberHandlesByName (chart : OrgChart) (name : String) (l : List Employee) : List String :=
  (l.filter fun e =>
    decide (e.Github ≠ "") && (teamOf chart e).any fun t => decide (t.Github = name)).map
      Employee.Github

/-- The handle the product lead of a team contributes to `Maintainers`: that of a
configured product lead with a handle. -/
def productLeadHandles (chart : OrgChart) (t : Team) : List String :=
  if t.ProductLeadID = "" then []
  else
    match employeeByID chart t.ProductLeadID with
    | some (some e) => if e.Github = "" then [] else [e.Github]
    | _ => []

/-- The product lead of a team as an entry of `unableToCreateMaintainer`: a configured
product lead without a handle. -/
def unableProductLead (chart : OrgChart) (t : Team) : List Employee :=
  if t.ProductLeadID = "" then []
  else
    match employeeByID chart t.ProductLeadID with
    | some (some e) => if e.Github = "" then [e] else []
    | _ => []

/-- The handles a team contributes to `Maintainers`: none when its configured tech lead
has no handle; otherwise the handle of the tech lead, if one is configured, followed by
that of the product lead. -/
def leadHandles (chart : OrgChart) (t : Team) : List String :=
  if t.TeachLeadID = "" then productLeadHandles chart t
  else
    match employeeByID chart t.TeachLeadID with
    | some (some e) => if e.Github = "" then [] else e.Github :: productLeadHandles chart t
    | _ => []

/-- The leads of a team recorded in `unableToCreateMaintainer`: the configured tech lead
when it has no handle, and nothing else then; otherwise the product lead when it has no
handle. -/
def unableLeads (chart : OrgChart) (t : Team) : List Employee :=
  if t.TeachLeadID = "" then unableProductLead chart t
  else
    match employeeByID chart t.TeachLeadID with
    | some (some e) => if e.Github = "" then [e] else unableProductLead chart t
    | _ => []

/-- A dry snapshot in which both teams of `sampleChart` exist, at the point of a run where
the planner is called. -/
def plannerState : GithubState := syncStart sampleChart (plainState true)

/-- A root team whose tech lead and product lead are two different employees. -/
def leadTeam : Team :=
  { ID := "lead", Name := "Lead", ParentID := "", Description := "", Github := "org-lead",
    TeachLeadID := "e2", ProductLeadID := "e3" }

/-- The chart of `leadTeam` with its two leads, neither of whom has a handle, as loaded. -/
def rawLeadsChart : OrgChart :=
  { Employees :=
      [{ ID := "e2", Name := "Bob", Github := "", MemberOf := "lead", Team := none },
       { ID := "e3", Name := "Cy", Github := "", MemberOf := "lead", Team := none }],
    Teams := [leadTeam], TeamsByID := [], EmployeesByID := [] }

/-- The chart `rawLeadsChart`, organised. -/
def leadsChart : OrgChart := (organise rawLeadsChart).2

/-- The platform team of `leadTeam`. -/
def leadGhTeam : GhTeam :=
  { addr := 0, ID := some 1, Name := some "org-lead", Description := some "",
    Privacy := some "closed", Parent := none }

/-- A dry snapshot in which the team of `leadsChart` exists, at the point of a run where the
planner is called. -/
def leadsState : GithubState :=
  syncStart leadsChart { emptyState true with teams := [("org-lead", leadGhTeam)], heap := 1 }

/-! ## Well-formed charts and indices -/

/-- What `organise` establishes and the planner relies on: the back-reference of every
employee points at a chart team, and the employee index resolves the ID of every employee
to an employee of the chart. -/
def Organised (chart : OrgChart) : Prop :=
  (∀ e ∈ chart.Employees, ∃ t ∈ chart.Teams, teamOf chart e = some t) ∧
    (∀ e ∈ chart.Employees, ∃ e1, employeeByID chart e.ID = some (some e1))

/-- The team index is keyed by team name: every entry is stored under the name of its
platform team. -/
def KeyedByName (teams : List (String × GhTeam)) : Prop :=
  ∀ p ∈ teams, p.2.GetName = p.1

/-- The team index is keyed by team name and every key is the platform-team name of a
team of the list. -/
def Mirrors (orgTeams : List Team) (teams : List (String × GhTeam)) : Prop :=
  ∀ p ∈ teams, p.2.GetName = p.1 ∧ ∃ t ∈ orgTeams, t.Github = p.1

/-! ## Further samples -/

/-- The sample platform, except that only the first write call can be a successful delete:
a delete call made after any other call is refused. -/
def flakyDeleteClient : Client :=
  { sampleClient with
    DeleteTeam := fun log _ => if log.length = 0 then none else some "delete refused" }

theorem createOrEdit_dry (c : Client) (t : Team) (p : Option Int) (gh : GithubState)
    (h : gh.dry = true) : DryKeeps gh (createOrEdit c t p gh).2 := by
  unfold createOrEdit DryKeeps
  split
  · split
    · split <;> simp [h]
    · simp [h]
  · simp [h]

theorem createTeamByIDIfNotExists_dry (c : Client) (fuel : Nat) :
    ∀ (teamID : String) (gh : GithubState), gh.dry = true →
      DryKeeps gh (createTeamByIDIfNotExists c fuel teamID gh).2 := by
  induction fuel with
  | zero => intro teamID gh h; simp [createTeamByIDIfNotExists, DryKeeps, h]
  | succ n ih =>
    intro teamID gh h
    unfold createTeamByIDIfNotExists
    split
    · simp [DryKeeps, h]
    · rename_i t _
      split
      · have hp := ih t.ParentID gh h
        split <;> rename_i heq <;> rw [heq] at hp
        · rename_i parentTeam gh1
          have := createOrEdit_dry c t parentTeam.ID gh1 hp.1
          exact ⟨this.1, this.2.trans hp.2⟩
        all_goals exact hp
      · exact createOrEdit_dry c t none gh h

theorem removeTeam_dry (c : Client) (team : GhTeam) (gh : GithubState) (h : gh.dry = true) :
    DryKeeps gh (removeTeam c team gh).2 := by
  unfold removeTeam DryKeeps
  simp only [h, if_true]
  split <;> simp [h]

theorem syncTeamMembers_dry (c : Client) (gh : GithubState) (h : gh.dry = true)
    (team : GhTeam) (ms mt : List String) :
    DryKeeps gh (syncTeamMembers c team ms mt gh).2 := by
  simp [syncTeamMembers, h, DryKeeps]

theorem removeStale_dry (c : Client) (l : List GhTeam) :
    ∀ gh : GithubState, gh.dry = true → DryKeeps gh (removeStale c l gh).2 := by
  induction l with
  | nil => intro gh h; simp [removeStale, DryKeeps, h]
  | cons t l ih =>
    intro gh h
    unfold removeStale
    have hr := removeTeam_dry c t gh h
    split
    · rename_i heq
      rw [heq] at hr
      have := ih _ hr.1
      exact ⟨this.1, this.2.trans hr.2⟩
    · exact hr

theorem resetRoots_dry (c : Client) (l : List Team) :
    ∀ gh : GithubState, gh.dry = true → DryKeeps gh (resetRoots c l gh).2 := by
  induction l with
  | nil => intro gh h; simp [resetRoots, DryKeeps, h]
  | cons t l ih =>
    intro gh h
    unfold resetRoots
    split
    · split
      · simp [DryKeeps, h]
      · rename_i rootTeam _
        have hr := removeTeam_dry c rootTeam gh h
        split
        · rename_i heq
          rw [heq] at hr
          have := ih { (_ : GithubState) with teams := [] } hr.1
          exact ⟨this.1, this.2.trans hr.2⟩
        · exact hr
    · exact ih gh h

theorem createMissing_dry (c : Client) (fuel : Nat) (l : List Team) :
    ∀ gh : GithubState, gh.dry = true → DryKeeps gh (createMissing c fuel l gh).2 := by
  induction l with
  | nil => intro gh h; simp [createMissing, DryKeeps, h]
  | cons t l ih =>
    intro gh h
    unfold createMissing
    have hr := createTeamByIDIfNotExists_dry c fuel t.ID gh h
    split <;> rename_i heq <;> rw [heq] at hr
    · have := ih _ hr.1
      exact ⟨this.1, this.2.trans hr.2⟩
    all_goals exact hr

theorem planEmployees_dry (chart : OrgChart) (l : List Employee) :
    ∀ (ms : List (GhTeam × TeamMembershipSync)) (gh : GithubState), gh.dry = true →
      DryKeeps gh (planEmployees chart l ms gh).2 := by
  induction l with
  | nil => intro ms gh h; simp [planEmployees, DryKeeps, h]
  | cons e l ih =>
    intro ms gh h
    unfold planEmployees
    split
    · split
      · simp [DryKeeps, h]
      · exact ih _ _ h
    · split
      · simp [DryKeeps, h]
      · split
        · simp [DryKeeps, h]
        · exact ih _ _ h

theorem planTeams_dry (chart : OrgChart) (l : List Team) :
    ∀ (ms : List (GhTeam × TeamMembershipSync)) (gh : GithubState), gh.dry = true →
      DryKeeps gh (planTeams chart l ms gh).2 := by
  induction l with
  | nil => intro ms gh h; simp [planTeams, DryKeeps, h]
  | cons t l ih =>
    intro ms gh h
    unfold planTeams
    have base : DryKeeps gh gh := ⟨h, rfl⟩
    have step : ∀ ms (r : Option GithubSyncResult),
        DryKeeps gh (planTeams chart l ms { gh with syncResult := r }).2 := by
      intro ms r
      exact ih ms { gh with syncResult := r } h
    split
    · exact base
    · simp only []
      repeat' split
      all_goals first | exact base | exact step _ _

theorem teamMembersSyncData_dry (chart : OrgChart) (gh : GithubState) (h : gh.dry = true) :
    DryKeeps gh (teamMembersSyncData chart gh).2 := by
  unfold teamMembersSyncData
  have h1 := planEmployees_dry chart chart.Employees [] gh h
  split
  · rename_i ms gh1 heq
    rw [heq] at h1
    have := planTeams_dry chart chart.Teams ms gh1 h1.1
    exact ⟨this.1, this.2.trans h1.2⟩
  · exact h1

theorem applyPlan_dry (c : Client) (l : List (GhTeam × TeamMembershipSync)) :
    ∀ gh : GithubState, gh.dry = true → DryKeeps gh (applyPlan c l gh).2 := by
  induction l with
  | nil => intro gh h; simp [applyPlan, DryKeeps, h]
  | cons e l ih =>
    intro gh h
    obtain ⟨team, m⟩ := e
    unfold applyPlan
    have hr := syncTeamMembers_dry c gh h team m.Members m.Maintainers
    split
    · rename_i heq
      rw [heq] at hr
      have := ih _ hr.1
      exact ⟨this.1, this.2.trans hr.2⟩
    · exact hr

theorem SyncTeams_dry (c : Client) (range : MapRange) (fuel : Nat) (chart : OrgChart)
    (gh : GithubState) (h : gh.dry = true) :
    DryKeeps gh (SyncTeams c range fuel chart gh).2 := by
  unfold SyncTeams
  simp only []
  generalize hg : syncStart chart gh = gh0
  have h0 : DryKeeps gh gh0 := by subst hg; exact ⟨h, rfl⟩
  have tr : ∀ {a b d : GithubState}, DryKeeps a b → DryKeeps b d → DryKeeps a d :=
    fun hab hbd => ⟨hbd.1, hbd.2.trans hab.2⟩
  have h1 := removeStale_dry c (githubTeamsNotInOrgchart chart gh0) gh0 h0.1
  split
  · rename_i u1 gh1 heq1
    rw [heq1] at h1
    have h2 := resetRoots_dry c chart.Teams gh1 h1.1
    split
    · rename_i u2 gh2 heq2
      rw [heq2] at h2
      have h3 := createMissing_dry c fuel (teamsNotInGithub chart gh2) gh2 h2.1
      split
      · rename_i u3 gh3 heq3
        rw [heq3] at h3
        have h4 := teamMembersSyncData_dry chart gh3 h3.1
        have h04 := tr (tr (tr h0 h1) h2) h3
        split <;> rename_i heq4 <;> rw [heq4] at h4
        · rename_i syncData gh4
          exact tr (tr h04 h4) (applyPlan_dry c (range.order syncData) gh4 h4.1)
        all_goals exact tr h04 h4
      · exact tr (tr (tr h0 h1) h2) h3
    · exact tr (tr h0 h1) h2
  · exact tr h0 h1

/-- C1. Dry-run invariant: with the dry flag set, `SyncTeams` and the three methods it calls
(`createTeamByIDIfNotExists`, `removeTeam`, `syncTeamMembers`) leave the log of write calls
as it was, so that a run started with an empty log ends with an empty log, whatever the
chart, the snapshot, the platform and the outcome of the run (value, error or no return). -/
theorem dry_run_issues_no_write_call (c : Client) (range : MapRange) (fuel : Nat)
    (chart : OrgChart) (gh : GithubState) (hdry : gh.dry = true) :
    (SyncTeams c range fuel chart gh).2.calls = gh.calls ∧
    (∀ teamID, (createTeamByIDIfNotExists c fuel teamID gh).2.calls = gh.calls) ∧
    (∀ team, (removeTeam c team gh).2.calls = gh.calls) ∧
    (∀ team members maintainers,
      (syncTeamMembers c team members maintainers gh).2.calls = gh.calls) :=
  ⟨(SyncTeams_dry c range fuel chart gh hdry).2,
   fun teamID => (createTeamByIDIfNotExists_dry c fuel teamID gh hdry).2,
   fun team => (removeTeam_dry c team gh hdry).2,
   fun team ms mt => (syncTeamMembers_dry c gh hdry team ms mt).2⟩

/-- C1 at the sample chart: the dry run ends without error and with an empty call log. -/
theorem dry_run_issues_no_write_call_witness :
    (sampleState true).dry = true ∧
    (SyncTeams sampleClient sampleRange 3 sampleChart (sampleState true)).1 = Outcome.ok () ∧
    (SyncTeams sampleClient sampleRange 3 sampleChart (sampleState true)).2.calls = [] :=
  ⟨rfl, by decide,
   (dry_run_issues_no_write_call sampleClient sampleRange 3 sampleChart (sampleState true)
      rfl).1⟩

/-! ## Maps -/

theorem mget_mset {κ ν : Type} [DecidableEq κ] (m : List (κ × ν)) (k k' : κ) (v : ν) :
    mget (mset m k v) k' = if k = k' then some v else mget m k' := by
  induction m with
  | nil => simp [mset, mget]
  | cons p m ih =>
    obtain ⟨a, b⟩ := p
    by_cases hak : a = k
    · subst hak
      simp only [mset, if_true, mget]
      split <;> rfl
    · by_cases hk : k = k'
      · subst hk
        simp [mset, mget, hak, ih]
      · simp [mset, mget, hak, ih, hk]

theorem mget_mdel {κ ν : Type} [DecidableEq κ] (m : List (κ × ν)) (k k' : κ) :
    mget (mdel m k) k' = if k' = k then none else mget m k' := by
  induction m with
  | nil => simp [mdel, mget]
  | cons p m ih =>
    obtain ⟨a, b⟩ := p
    unfold mdel at ih ⊢
    by_cases hak : a = k
    · subst hak
      by_cases hk : k' = a
      · subst hk; simpa using ih
      · have : ¬ a = k' := fun h => hk h.symm
        simpa [mget, this, hk] using ih
    · by_cases hk : k' = k
      · subst hk
        simpa [List.filter_cons, hak, mget] using ih
      · simp only [List.filter_cons, hak, ne_eq, not_false_eq_true, decide_True, if_true, mget]
        rw [ih]
        simp [hk]

/-- A bound value is the value of some pair of the list. -/
theorem mget_mem {κ ν : Type} [DecidableEq κ] (m : List (κ × ν)) (k : κ) (v : ν)
    (h : mget m k = some v) : (k, v) ∈ m := by
  induction m with
  | nil => simp [mget] at h
  | cons p m ih =>
    obtain ⟨a, b⟩ := p
    by_cases hak : a = k
    · simp [mget, hak] at h
      simp [hak, h]
    · simp [mget, hak] at h
      exact List.mem_cons_of_mem _ (ih h)

/-! ## Set differences -/

theorem loginFound_iff (handle : String) (ms : List GhUser) :
    loginFound handle ms = true ↔ ∃ m ∈ ms, m.GetLogin = handle := by
  induction ms with
  | nil => simp [loginFound]
  | cons m ms ih =>
    by_cases h : handle = m.GetLogin
    · simp [loginFound, h]
    · have h' : ¬ m.GetLogin = handle := fun e => h e.symm
      simp [loginFound, h, h', ih]

theorem handleFound_iff (login : String) (es : List Employee) :
    handleFound login es = true ↔ ∃ e ∈ es, e.Github = login := by
  induction es with
  | nil => simp [handleFound]
  | cons e es ih =>
    by_cases h : e.Github = login
    · simp [handleFound, h]
    · simp [handleFound, h, ih]

theorem ghNameFound_iff (name : String) (ts : List (String × GhTeam)) :
    ghNameFound name ts = true ↔ ∃ g ∈ ts.map Prod.snd, g.GetName = name := by
  induction ts with
  | nil => simp [ghNameFound]
  | cons g ts ih =>
    by_cases h : name = g.2.GetName
    · simp [ghNameFound, h]
    · have h' : ¬ g.2.GetName = name := fun e => h e.symm
      simp only [ghNameFound, h, if_false, ih]
      simp [h']

theorem orgNameFound_iff (name : String) (ts : List Team) :
    orgNameFound name ts = true ↔ ∃ t ∈ ts, t.Github = name := by
  induction ts with
  | nil => simp [orgNameFound]
  | cons t ts ih =>
    by_cases h : t.Github = name
    · simp [orgNameFound, h]
    · simp [orgNameFound, h, ih]

theorem employeesNotInGithubLoop_eq (members : List GhUser) (es : List Employee) :
    ∀ acc, employeesNotInGithubLoop members es acc =
      acc ++ es.filter fun e => decide (e.Github ≠ "") && !loginFound e.Github members := by
  induction es with
  | nil => intro acc; simp [employeesNotInGithubLoop]
  | cons e es ih =>
    intro acc
    unfold employeesNotInGithubLoop
    by_cases h : e.Github = ""
    · simp [h, ih]
    · by_cases hf : loginFound e.Github members = true
      · simp [h, hf, ih]
      · simp [h, hf, ih]

theorem githubMembersNotInOrgchartLoop_eq (es : List Employee) (ms : List GhUser) :
    ∀ acc, githubMembersNotInOrgchartLoop es ms acc =
      acc ++ ms.filter fun m => !handleFound m.GetLogin es := by
  induction ms with
  | nil => intro acc; simp [githubMembersNotInOrgchartLoop]
  | cons m ms ih =>
    intro acc
    unfold githubMembersNotInOrgchartLoop
    by_cases hf : handleFound m.GetLogin es = true
    · simp [hf, ih]
    · simp [hf, ih]

theorem teamsNotInGithubLoop_eq (ghTeams : List (String × GhTeam)) (ts : List Team) :
    ∀ acc, teamsNotInGithubLoop ghTeams ts acc =
      acc ++ ts.filter fun t => !ghNameFound t.Github ghTeams := by
  induction ts with
  | nil => intro acc; simp [teamsNotInGithubLoop]
  | cons t ts ih =>
    intro acc
    unfold teamsNotInGithubLoop
    by_cases hf : ghNameFound t.Github ghTeams = true
    · simp [hf, ih]
    · simp [hf, ih]

theorem githubTeamsNotInOrgchartLoop_eq (teams : List Team) (gs : List (String × GhTeam)) :
    ∀ acc, githubTeamsNotInOrgchartLoop teams gs acc =
      acc ++ (gs.map Prod.snd).filter fun g => !orgNameFound g.GetName teams := by
  induction gs with
  | nil => intro acc; simp [githubTeamsNotInOrgchartLoop]
  | cons g gs ih =>
    intro acc
    unfold githubTeamsNotInOrgchartLoop
    by_cases hf : orgNameFound g.2.GetName teams = true
    · simp [hf, ih]
    · simp [hf, ih]

theorem employeesNotInGithub_eq (chart : OrgChart) (gh : GithubState) :
    employeesNotInGithub chart gh =
      chart.Employees.filter fun e =>
        decide (e.Github ≠ "") && !loginFound e.Github gh.members := by
  simp [employeesNotInGithub, employeesNotInGithubLoop_eq]

theorem githubMembersNotInOrgchart_eq (chart : OrgChart) (gh : GithubState) :
    githubMembersNotInOrgchart chart gh =
      gh.members.filter fun m => !handleFound m.GetLogin chart.Employees := by
  simp [githubMembersNotInOrgchart, githubMembersNotInOrgchartLoop_eq]

theorem teamsNotInGithub_eq (chart : OrgChart) (gh : GithubState) :
    teamsNotInGithub chart gh =
      chart.Teams.filter fun t => !ghNameFound t.Github gh.teams := by
  simp [teamsNotInGithub, teamsNotInGithubLoop_eq]

theorem githubTeamsNotInOrgchart_eq (chart : OrgChart) (gh : GithubState) :
    githubTeamsNotInOrgchart chart gh =
      (gh.teams.map Prod.snd).filter fun g => !orgNameFound g.GetName chart.Teams := by
  simp [githubTeamsNotInOrgchart, githubTeamsNotInOrgchartLoop_eq]

theorem mem_teamsNotInGithub (chart : OrgChart) (gh : GithubState) (t : Team) :
    t ∈ teamsNotInGithub chart gh ↔
      t ∈ chart.Teams ∧ ¬ ∃ g ∈ gh.teams.map Prod.snd, g.GetName = t.Github := by
  rw [teamsNotInGithub_eq, List.mem_filter, ← ghNameFound_iff]
  simp

theorem mem_githubTeamsNotInOrgchart (chart : OrgChart) (gh : GithubState) (g : GhTeam) :
    g ∈ githubTeamsNotInOrgchart chart gh ↔
      g ∈ gh.teams.map Prod.snd ∧ ¬ ∃ t ∈ chart.Teams, t.Github = g.GetName := by
  rw [githubTeamsNotInOrgchart_eq, List.mem_filter, ← orgNameFound_iff]
  simp

/-- C7, as stated, fails for `employeesNotInGithub`: in the sample chart Bob has an empty
handle, no platform member has the empty login, and yet Bob is not in the output. -/
theorem employeesNotInGithub_not_complementary :
    ¬ ∀ e ∈ sampleChart.Employees,
        (e ∈ employeesNotInGithub sampleChart (sampleState true) ↔
          ¬ ∃ m ∈ (sampleState true).members, m.GetLogin = e.Github) := by
  decide

/-- C7, amended. Of the four diffs, `githubMembersNotInOrgchart`, `teamsNotInGithub` and
`githubTeamsNotInOrgchart` hold exactly the elements of their source collection whose
identity key (login, platform-team name) is the key of no element of the opposite
collection; `employeesNotInGithub` holds exactly the employees whose handle is non-empty
and is the login of no member, so an employee with an empty handle is left out even when
no member matches. -/
theorem set_difference_complementary (chart : OrgChart) (gh : GithubState) :
    (∀ e, e ∈ employeesNotInGithub chart gh ↔
      e ∈ chart.Employees ∧ e.Github ≠ "" ∧ ¬ ∃ m ∈ gh.members, m.GetLogin = e.Github) ∧
    (∀ m, m ∈ githubMembersNotInOrgchart chart gh ↔
      m ∈ gh.members ∧ ¬ ∃ e ∈ chart.Employees, e.Github = m.GetLogin) ∧
    (∀ t, t ∈ teamsNotInGithub chart gh ↔
      t ∈ chart.Teams ∧ ¬ ∃ g ∈ gh.teams.map Prod.snd, g.GetName = t.Github) ∧
    (∀ g, g ∈ githubTeamsNotInOrgchart chart gh ↔
      g ∈ gh.teams.map Prod.snd ∧ ¬ ∃ t ∈ chart.Teams, t.Github = g.GetName) := by
  refine ⟨fun e => ?_, fun m => ?_, fun t => ?_, fun g => ?_⟩
  · rw [employeesNotInGithub_eq, List.mem_filter, ← loginFound_iff]
    simp
  · rw [githubMembersNotInOrgchart_eq, List.mem_filter, ← handleFound_iff]
    simp
  · exact mem_teamsNotInGithub chart gh t
  · exact mem_githubTeamsNotInOrgchart chart gh g

/-- C8. `employeesNotInGithub` returns the employees of the chart, in chart order, whose
handle is non-empty and is the login of no platform member: the output is that filter of
`chart.Employees`, hence a sublist of it, and holds no employee with an empty handle. -/
theorem employeesNotInGithub_exact (chart : OrgChart) (gh : GithubState) :
    employeesNotInGithub chart gh =
      chart.Employees.filter
        (fun e => decide (e.Github ≠ "" ∧ ∀ m ∈ gh.members, m.GetLogin ≠ e.Github)) ∧
    (employeesNotInGithub chart gh).Sublist chart.Employees ∧
    (∀ e, e.Github = "" → e ∉ employeesNotInGithub chart gh) := by
  have heq : employeesNotInGithub chart gh =
      chart.Employees.filter
        (fun e => decide (e.Github ≠ "" ∧ ∀ m ∈ gh.members, m.GetLogin ≠ e.Github)) := by
    rw [employeesNotInGithub_eq]
    apply List.filter_congr
    intro e _
    by_cases hf : loginFound e.Github gh.members = true
    · have := (loginFound_iff _ _).1 hf
      obtain ⟨m, hm, hme⟩ := this
      simp only [hf, Bool.not_true, Bool.and_false]
      symm
      rw [decide_eq_false_iff_not]
      intro h
      exact h.2 m hm hme
    · have hn : ¬ ∃ m ∈ gh.members, m.GetLogin = e.Github := fun h => hf ((loginFound_iff _ _).2 h)
      have hall : ∀ m ∈ gh.members, m.GetLogin ≠ e.Github := fun m hm hme => hn ⟨m, hm, hme⟩
      simp only [Bool.not_eq_true] at hf
      simp only [hf, Bool.not_false, Bool.and_true, decide_eq_decide]
      exact ⟨fun h => ⟨h, hall⟩, fun h => h.1⟩
  refine ⟨heq, ?_, ?_⟩
  · rw [heq]; exact List.filter_sublist _
  · intro e he hmem
    rw [heq, List.mem_filter] at hmem
    simp [he] at hmem

/-! ## organise -/

theorem indexTeams_isSome (ts : List Team) :
    ∀ (i : Nat) (m : List (String × Nat)) (id : String),
      (mget (indexTeams i ts m) id).isSome ↔ (∃ t ∈ ts, t.ID = id) ∨ (mget m id).isSome := by
  induction ts with
  | nil => intro i m id; simp [indexTeams]
  | cons t ts ih =>
    intro i m id
    simp only [indexTeams]
    rw [ih, mget_mset]
    by_cases h : t.ID = id
    · simp [h]
    · simp [h]

theorem indexTeams_get (ts : List Team) :
    ∀ (pre : List Team) (m : List (String × Nat)),
      (∀ id j, mget m id = some j → ∃ t, pre.get? j = some t ∧ t.ID = id) →
      ∀ id j, mget (indexTeams pre.length ts m) id = some j →
        ∃ t, (pre ++ ts).get? j = some t ∧ t.ID = id := by
  induction ts with
  | nil => intro pre m hm id j h; simpa [indexTeams] using hm id j h
  | cons t ts ih =>
    intro pre m hm id j h
    simp only [indexTeams] at h
    have key := ih (pre ++ [t]) (mset m t.ID pre.length) (by
      intro id' j' h'
      rw [mget_mset] at h'
      by_cases e : t.ID = id'
      · simp only [e, if_true, Option.some.injEq] at h'
        subst h'
        exact ⟨t, by simp, e⟩
      · simp only [e, if_false] at h'
        obtain ⟨u, hu, hid⟩ := hm id' j' h'
        refine ⟨u, ?_, hid⟩
        have hj : j' < pre.length := by
          by_contra hge
          have : pre.get? j' = none := List.get?_eq_none.2 (Nat.le_of_not_lt hge)
          rw [this] at hu
          cases hu
        simp only [List.get?_eq_getElem?] at hu ⊢
        rw [List.getElem?_append_left hj]
        exact hu) id j (by simpa using h)
    simpa using key

theorem organiseEmployees_error (tb : List (String × Nat)) (es : List Employee) :
    ∀ (i : Nat) (m : List (String × Nat)),
      ((organiseEmployees tb i es m).1 = none ↔ ∀ e ∈ es, (mget tb e.MemberOf).isSome) ∧
      (∀ msg, (organiseEmployees tb i es m).1 = some msg →
        ∃ e ∈ es, mget tb e.MemberOf = none ∧
          msg = "could not find team " ++ e.MemberOf ++ " for member " ++ e.Name) := by
  induction es with
  | nil => intro i m; simp [organiseEmployees]
  | cons e es ih =>
    intro i m
    unfold organiseEmployees
    cases h : mget tb e.MemberOf with
    | none => simp [h]
    | some team =>
      have := ih (i + 1) (mset m e.ID i)
      simp only [List.forall_mem_cons, h, Option.isSome_some, true_and]
      refine ⟨this.1, ?_⟩
      intro msg hmsg
      obtain ⟨e', he', hn, hm⟩ := this.2 msg hmsg
      exact ⟨e', List.mem_cons_of_mem _ he', hn, hm⟩

theorem organiseEmployees_ok (tb : List (String × Nat)) (es : List Employee) :
    ∀ (i : Nat) (m : List (String × Nat)), (organiseEmployees tb i es m).1 = none →
      (organiseEmployees tb i es m).2.1 =
        es.map (fun e => { e with Team := mget tb e.MemberOf }) := by
  induction es with
  | nil => intro i m _; simp [organiseEmployees]
  | cons e es ih =>
    intro i m
    unfold organiseEmployees
    cases h : mget tb e.MemberOf with
    | none => simp
    | some team =>
      intro hn
      simp only [List.map_cons, List.cons.injEq]
      exact ⟨by rw [h], ih (i + 1) (mset m e.ID i) hn⟩

theorem organiseEmployees_index (tb : List (String × Nat)) (es : List Employee) :
    ∀ (i : Nat) (m : List (String × Nat)) (id : String),
      (organiseEmployees tb i es m).1 = none →
      ((mget (organiseEmployees tb i es m).2.2 id).isSome ↔
        (∃ e ∈ es, e.ID = id) ∨ (mget m id).isSome) := by
  induction es with
  | nil => intro i m id _; simp [organiseEmployees]
  | cons e es ih =>
    intro i m id
    unfold organiseEmployees
    cases h : mget tb e.MemberOf with
    | none => simp
    | some team =>
      intro hn
      have := ih (i + 1) (mset m e.ID i) id hn
      simp only [this, mget_mset]
      by_cases he : e.ID = id
      · simp [he]
      · simp [he]

/-- C9. `organise` either succeeds or fails with the message that names the unresolved team
identifier and the employee.  It succeeds exactly when every employee's `MemberOf` is the
ID of a team of the list; then the teams are untouched, the employees are the given ones
with the back-reference set, every back-reference points at a chart team whose ID is the
employee's `MemberOf`, and the two indices bind every team ID and every employee ID.
When it fails, the message is built from the `MemberOf` and the name of an employee whose
`MemberOf` is the ID of no team. -/
theorem organise_resolves_or_fails (oc : OrgChart) :
    ((organise oc).1 = none ↔ ∀ e ∈ oc.Employees, ∃ t ∈ oc.Teams, t.ID = e.MemberOf) ∧
    ((organise oc).1 = none →
      (organise oc).2.Teams = oc.Teams ∧
      (organise oc).2.Employees =
        oc.Employees.map (fun e => { e with Team := mget (organise oc).2.TeamsByID e.MemberOf }) ∧
      (∀ e ∈ (organise oc).2.Employees, ∃ i t,
        e.Team = some i ∧ (organise oc).2.Teams.get? i = some t ∧ t.ID = e.MemberOf) ∧
      (∀ t ∈ oc.Teams, (mget (organise oc).2.TeamsByID t.ID).isSome) ∧
      (∀ e ∈ oc.Employees, (mget (organise oc).2.EmployeesByID e.ID).isSome)) ∧
    (∀ msg, (organise oc).1 = some msg →
      ∃ e ∈ oc.Employees, (∀ t ∈ oc.Teams, t.ID ≠ e.MemberOf) ∧
        msg = "could not find team " ++ e.MemberOf ++ " for member " ++ e.Name) := by
  have hsome : ∀ id, (mget (indexTeams 0 oc.Teams []) id).isSome ↔ ∃ t ∈ oc.Teams, t.ID = id := by
    intro id
    rw [indexTeams_isSome]
    simp [mget]
  have hget : ∀ id j, mget (indexTeams 0 oc.Teams []) id = some j →
      ∃ t, oc.Teams.get? j = some t ∧ t.ID = id := by
    intro id j h
    have := indexTeams_get oc.Teams [] [] (by intro id j h; simp [mget] at h) id j
      (by simpa using h)
    simpa using this
  have herr := organiseEmployees_error (indexTeams 0 oc.Teams []) oc.Employees 0 []
  have h1 : (organise oc).1 = (organiseEmployees (indexTeams 0 oc.Teams []) 0 oc.Employees []).1 :=
    rfl
  have h2 : (organise oc).2.Employees =
      (organiseEmployees (indexTeams 0 oc.Teams []) 0 oc.Employees []).2.1 := rfl
  have h3 : (organise oc).2.TeamsByID = indexTeams 0 oc.Teams [] := rfl
  have h4 : (organise oc).2.EmployeesByID =
      (organiseEmployees (indexTeams 0 oc.Teams []) 0 oc.Employees []).2.2 := rfl
  have h5 : (organise oc).2.Teams = oc.Teams := rfl
  refine ⟨?_, ?_, ?_⟩
  · rw [h1, herr.1]
    exact forall_congr' fun e => imp_congr_right fun _ => hsome _
  · intro hok
    rw [h1] at hok
    have hmap := organiseEmployees_ok _ _ 0 [] hok
    refine ⟨h5, ?_, ?_, ?_, ?_⟩
    · rw [h2, h3, hmap]
    · intro e he
      rw [h2, hmap, List.mem_map] at he
      obtain ⟨e0, he0, rfl⟩ := he
      have hs := (herr.1.1 hok) e0 he0
      obtain ⟨i, hi⟩ := Option.isSome_iff_exists.1 hs
      obtain ⟨t, ht, hid⟩ := hget _ _ hi
      exact ⟨i, t, hi, by rw [h5]; exact ht, hid⟩
    · intro t ht
      rw [h3, hsome]
      exact ⟨t, ht, rfl⟩
    · intro e he
      rw [h4, organiseEmployees_index _ _ 0 [] e.ID hok]
      exact Or.inl ⟨e, he, rfl⟩
  · intro msg hmsg
    rw [h1] at hmsg
    obtain ⟨e, he, hn, hm⟩ := herr.2 msg hmsg
    refine ⟨e, he, ?_, hm⟩
    intro t ht hid
    have := (hsome e.MemberOf).2 ⟨t, ht, hid⟩
    rw [hn] at this
    cases this

/-- C9 at the sample chart: `organise` succeeds, and the back-reference of every employee
points at the team named by `MemberOf`. -/
theorem organise_resolves_or_fails_witness :
    (organise rawChart).1 = none ∧
    ∀ e ∈ (organise rawChart).2.Employees, ∃ i t,
      e.Team = some i ∧ (organise rawChart).2.Teams.get? i = some t ∧ t.ID = e.MemberOf :=
  ⟨by decide, ((organise_resolves_or_fails rawChart).2.1 (by decide)).2.2.1⟩

theorem sameConfig_refl (gh : GithubState) : SameConfig gh gh := ⟨rfl, rfl, rfl, rfl, rfl⟩

theorem sameConfig_trans {a b d : GithubState} (h1 : SameConfig a b) (h2 : SameConfig b d) :
    SameConfig a d :=
  ⟨h2.1.trans h1.1, h2.2.1.trans h1.2.1, h2.2.2.1.trans h1.2.2.1,
    h2.2.2.2.1.trans h1.2.2.2.1, h2.2.2.2.2.trans h1.2.2.2.2⟩

theorem callsAdded_refl (P : Call → Prop) (gh : GithubState) : CallsAdded P gh gh :=
  ⟨[], by simp, by simp⟩

theorem callsAdded_trans {P : Call → Prop} {a b d : GithubState} (h1 : CallsAdded P a b)
    (h2 : CallsAdded P b d) : CallsAdded P a d := by
  obtain ⟨n1, e1, p1⟩ := h1
  obtain ⟨n2, e2, p2⟩ := h2
  refine ⟨n1 ++ n2, by rw [e2, e1, List.append_assoc], ?_⟩
  intro call hc
  rcases List.mem_append.1 hc with h | h
  · exact p1 call h
  · exact p2 call h

theorem callsAdded_mem {P : Call → Prop} {a b : GithubState} (h : CallsAdded P a b)
    {call : Call} (hc : call ∈ a.calls) : call ∈ b.calls := by
  obtain ⟨n, e, _⟩ := h
  rw [e]
  exact List.mem_append_left _ hc

theorem removedOnly_refl (r : GithubSyncResult) : RemovedOnly r r :=
  ⟨List.prefix_refl _, rfl, rfl⟩

theorem removedOnly_trans {a b d : GithubSyncResult} (h1 : RemovedOnly a b)
    (h2 : RemovedOnly b d) : RemovedOnly a d :=
  ⟨h1.1.trans h2.1, h2.2.1.trans h1.2.1, h2.2.2.trans h1.2.2⟩

/-! ## Removal -/

/-- What one `removeTeam` does when the result accumulator is there: it ends without error;
either the run is dry or the delete call succeeded, and the team is appended to
`removedTeams` and its name deleted from the index, or the delete call failed and nothing
but the call log changes. -/
theorem removeTeam_spec (c : Client) (team : GhTeam) (gh : GithubState) (r : GithubSyncResult)
    (hs : gh.syncResult = some r) :
    ∃ gh1, removeTeam c team gh = (Outcome.ok (), gh1) ∧ SameConfig gh gh1 ∧
      gh1.heap = gh.heap ∧
      gh1.calls = (if gh.dry then gh.calls else gh.calls ++ [Call.deleteTeam team.GetID]) ∧
      ((gh1.syncResult = some { r with removedTeams := r.removedTeams ++ [team] } ∧
          gh1.teams = mdel gh.teams team.GetName ∧
          (gh.dry = true ∨ c.DeleteTeam gh.calls team.GetID = none)) ∨
        (gh1.syncResult = some r ∧ gh1.teams = gh.teams ∧ gh.dry = false ∧
          (c.DeleteTeam gh.calls team.GetID).isSome)) := by
  unfold removeTeam
  by_cases hd : gh.dry = true
  · simp only [hd, if_true, hs]
    exact ⟨_, rfl, ⟨hd.symm, rfl, rfl, rfl, rfl⟩, rfl, rfl, Or.inl ⟨rfl, rfl, Or.inl trivial⟩⟩
  · have hd' : gh.dry = false := by simpa using hd
    simp only [hd', Bool.false_eq_true, if_false, hs]
    cases hdel : c.DeleteTeam gh.calls team.GetID with
    | none =>
      exact ⟨_, rfl, ⟨hd'.symm, rfl, rfl, rfl, rfl⟩, rfl, rfl, Or.inl ⟨rfl, rfl, Or.inr rfl⟩⟩
    | some e =>
      exact ⟨_, rfl, ⟨hd'.symm, rfl, rfl, rfl, rfl⟩, rfl, rfl, Or.inr ⟨rfl, rfl, trivial, rfl⟩⟩

/-- The stale-team loop: it ends without error, touches neither configuration nor heap,
adds delete calls only, extends the result by removed teams only, leaves every key that is
the name of no listed team as it was, binds no new key, and records every listed team
whose delete call cannot fail (or every one, when dry). -/
theorem removeStale_spec (c : Client) (l : List GhTeam) :
    ∀ (gh : GithubState) (r : GithubSyncResult), gh.syncResult = some r →
      ∃ gh1 r1, removeStale c l gh = (Outcome.ok (), gh1) ∧ SameConfig gh gh1 ∧
        gh1.heap = gh.heap ∧ gh1.syncResult = some r1 ∧ RemovedOnly r r1 ∧
        CallsAdded Call.IsDelete gh gh1 ∧
        (∀ k, (∀ g ∈ l, g.GetName ≠ k) → mget gh1.teams k = mget gh.teams k) ∧
        (∀ k, mget gh.teams k = none → mget gh1.teams k = none) ∧
        (∀ g ∈ l, (gh.dry = true ∨ ∀ log, c.DeleteTeam log g.GetID = none) →
          g ∈ r1.removedTeams ∧ mget gh1.teams g.GetName = none) ∧
        (gh.dry = false → ∀ g ∈ l, Call.deleteTeam g.GetID ∈ gh1.calls) ∧
        ((gh.dry = true ∨ ∀ log id, c.DeleteTeam log id = none) →
          r1.removedTeams = r.removedTeams ++ l) := by
  induction l with
  | nil =>
    intro gh r hs
    exact ⟨gh, r, rfl, sameConfig_refl gh, rfl, hs, removedOnly_refl r,
      callsAdded_refl _ gh, fun _ _ => rfl, fun _ h => h, by simp, by simp, by simp⟩
  | cons t l ih =>
    intro gh r hs
    obtain ⟨ghm, hrun, hcfg, hheap, hcalls, hcase⟩ := removeTeam_spec c t gh r hs
    have hadd : CallsAdded Call.IsDelete gh ghm := by
      by_cases hd : gh.dry = true
      · exact ⟨[], by simp [hcalls, hd], by simp⟩
      · refine ⟨[Call.deleteTeam t.GetID], by simp [hcalls, hd], ?_⟩
        intro call hc
        rw [List.mem_singleton] at hc
        subst hc
        exact trivial
    have hrm : ∃ rm, ghm.syncResult = some rm ∧ RemovedOnly r rm ∧
        (∀ k, t.GetName ≠ k → mget ghm.teams k = mget gh.teams k) ∧
        (∀ k, mget gh.teams k = none → mget ghm.teams k = none) ∧
        ((gh.dry = true ∨ ∀ log, c.DeleteTeam log t.GetID = none) →
          rm.removedTeams = r.removedTeams ++ [t] ∧ mget ghm.teams t.GetName = none) := by
      rcases hcase with ⟨h1, h2, _⟩ | ⟨h1, h2, h3, h4⟩
      · refine ⟨_, h1, ⟨List.prefix_append _ _, rfl, rfl⟩, ?_, ?_, ?_⟩
        · intro k hk
          rw [h2, mget_mdel, if_neg (fun e : k = t.GetName => hk e.symm)]
        · intro k hk
          rw [h2, mget_mdel, hk]
          simp
        · intro _
          refine ⟨rfl, ?_⟩
          rw [h2, mget_mdel]
          simp
      · refine ⟨r, h1, removedOnly_refl r, fun k _ => by rw [h2], fun k hk => by rw [h2]; exact hk,
          ?_⟩
        intro hor
        rcases hor with hd | hall
        · rw [h3] at hd; cases hd
        · rw [hall] at h4; cases h4
    obtain ⟨rm, hsm, hro, hkeep, hnone, hrec⟩ := hrm
    obtain ⟨gh1, r1, hrun1, hcfg1, hheap1, hs1, hro1, hadd1, hkeep1, hnone1, hrec1, hdel1, hex1⟩ :=
      ih ghm rm hsm
    have hdry : ghm.dry = gh.dry := hcfg.1
    refine ⟨gh1, r1, ?_, sameConfig_trans hcfg hcfg1, hheap1.trans hheap, hs1, removedOnly_trans hro hro1,
      callsAdded_trans hadd hadd1, ?_, ?_, ?_, ?_, ?_⟩
    · simp only [removeStale, hrun, hrun1]
    · intro k hk
      rw [hkeep1 k (fun g hg => hk g (List.mem_cons_of_mem _ hg)),
        hkeep k (hk t (List.mem_cons_self _ _))]
    · intro k hk
      exact hnone1 k (hnone k hk)
    · intro g hg hor
      rcases List.mem_cons.1 hg with rfl | hg
      · obtain ⟨h1, h2⟩ := hrec hor
        refine ⟨hro1.1.subset ?_, hnone1 _ h2⟩
        rw [h1]
        simp
      · exact hrec1 g hg (by rw [hdry]; exact hor)
    · intro hd g hg
      rcases List.mem_cons.1 hg with rfl | hg
      · apply callsAdded_mem hadd1
        rw [hcalls]
        simp [hd]
      · exact hdel1 (by rw [hdry]; exact hd) g hg
    · intro hor
      have h1 := (hrec (hor.imp id fun h log => h log _)).1
      have h2 := hex1 (by rw [hdry]; exact hor)
      rw [h2, h1]
      simp

/-- On an empty team index the root loop does nothing. -/
theorem resetRoots_empty (c : Client) (l : List Team) (gh : GithubState)
    (h : gh.teams = []) : resetRoots c l gh = (Outcome.ok (), gh) := by
  induction l with
  | nil => rfl
  | cons t l ih =>
    unfold resetRoots
    by_cases hp : t.ParentID = ""
    · simp [hp, h, mget]
    · simp [hp, ih]

/-- The root loop: it ends without error, touches neither configuration nor heap, adds
delete calls only, extends the result by removed teams only and binds no new key. -/
theorem resetRoots_spec (c : Client) (l : List Team) :
    ∀ (gh : GithubState) (r : GithubSyncResult), gh.syncResult = some r →
      ∃ gh1 r1, resetRoots c l gh = (Outcome.ok (), gh1) ∧ SameConfig gh gh1 ∧
        gh1.heap = gh.heap ∧ gh1.syncResult = some r1 ∧ RemovedOnly r r1 ∧
        CallsAdded Call.IsDelete gh gh1 ∧
        (∀ k, mget gh.teams k = none → mget gh1.teams k = none) := by
  induction l with
  | nil =>
    intro gh r hs
    exact ⟨gh, r, rfl, sameConfig_refl gh, rfl, hs, removedOnly_refl r, callsAdded_refl _ gh,
      fun _ h => h⟩
  | cons t l ih =>
    intro gh r hs
    unfold resetRoots
    by_cases hp : t.ParentID = ""
    · simp only [hp, if_true]
      cases hg : mget gh.teams t.Github with
      | none =>
        exact ⟨gh, r, rfl, sameConfig_refl gh, rfl, hs, removedOnly_refl r,
          callsAdded_refl _ gh, fun _ h => h⟩
      | some g =>
        obtain ⟨ghm, hrun, hcfg, hheap, hcalls, hcase⟩ := removeTeam_spec c g gh r hs
        have hadd : CallsAdded Call.IsDelete gh ghm := by
          by_cases hd : gh.dry = true
          · exact ⟨[], by simp [hcalls, hd], by simp⟩
          · refine ⟨[Call.deleteTeam g.GetID], by simp [hcalls, hd], ?_⟩
            intro call hc
            rw [List.mem_singleton] at hc
            subst hc
            exact trivial
        have hrm : ∃ rm, ghm.syncResult = some rm ∧ RemovedOnly r rm := by
          rcases hcase with ⟨h1, _, _⟩ | ⟨h1, _, _, _⟩
          · exact ⟨_, h1, ⟨List.prefix_append _ _, rfl, rfl⟩⟩
          · exact ⟨r, h1, removedOnly_refl r⟩
        obtain ⟨rm, hsm, hro⟩ := hrm
        simp only [hrun]
        rw [resetRoots_empty c l { ghm with teams := [] } rfl]
        exact ⟨_, rm, rfl, hcfg, hheap, hsm, hro, hadd, fun k _ => rfl⟩
    · simp only [hp, if_false]
      exact ih gh r hs

/-- The first root team of the list, when its name is bound in the index, is the one team
the root loop hands to `removeTeam`; the index is emptied afterwards. -/
theorem resetRoots_first (c : Client) (l : List Team) (gh : GithubState) (t : Team)
    (g : GhTeam) (hfirst : l.find? (fun t => decide (t.ParentID = "")) = some t)
    (hg : mget gh.teams t.Github = some g) :
    resetRoots c l gh =
      match removeTeam c g gh with
      | (Outcome.ok _, gh1) => (Outcome.ok (), { gh1 with teams := [] })
      | r => r := by
  induction l with
  | nil => simp at hfirst
  | cons u l ih =>
    unfold resetRoots
    by_cases hp : u.ParentID = ""
    · simp only [List.find?, hp, decide_True, Option.some.injEq] at hfirst
      subst hfirst
      simp only [hp, if_true, hg]
      cases hrem : removeTeam c g gh with
      | mk o gh1 =>
        cases o with
        | ok a => exact resetRoots_empty c l { gh1 with teams := [] } rfl
        | error msg => rfl
        | nilDeref => rfl
        | overflow => rfl
    · simp only [List.find?, hp, decide_False] at hfirst
      simp only [hp, if_false]
      exact ih hfirst

/-! ## Creation -/

/-- The six ways through `createOrEdit`: the team is in the index and is returned as it is
(no recorded parent, recorded parent named like the configured parent ID, or dry run); it
is in the index and the edit call fails; it is in the index and is edited; it is not in the
index and the run is dry; it is not in the index and the create call fails; it is not in
the index and is created. -/
theorem createOrEdit_cases (c : Client) (t : Team) (pid : Option Int) (gh : GithubState) :
    (∃ pre, mget gh.teams t.Github = some pre ∧ createOrEdit c t pid gh = (Outcome.ok pre, gh) ∧
      (gh.dry = true ∨ ∀ p, pre.Parent = some p → p.GetName = t.ParentID)) ∨
    (∃ pre p err, mget gh.teams t.Github = some pre ∧ gh.dry = false ∧ pre.Parent = some p ∧
      p.GetName ≠ t.ParentID ∧
      c.EditTeam gh.calls pre.GetID (newTeamFor t pid) = .error err ∧
      createOrEdit c t pid gh =
        (Outcome.error ("editing team: " ++ err),
          { gh with calls := gh.calls ++ [Call.editTeam pre.GetID (newTeamFor t pid)] })) ∨
    (∃ pre p ans, mget gh.teams t.Github = some pre ∧ gh.dry = false ∧ pre.Parent = some p ∧
      p.GetName ≠ t.ParentID ∧
      c.EditTeam gh.calls pre.GetID (newTeamFor t pid) = .ok ans ∧
      createOrEdit c t pid gh =
        (Outcome.ok pre,
          { gh with calls := gh.calls ++ [Call.editTeam pre.GetID (newTeamFor t pid)],
                    heap := gh.heap + 1,
                    teams := mset gh.teams ans.GetName { ans with addr := gh.heap } })) ∨
    (mget gh.teams t.Github = none ∧ gh.dry = true ∧
      createOrEdit c t pid gh =
        (Outcome.ok (placeholder gh.heap t),
          { gh with heap := gh.heap + 1,
                    teams := mset gh.teams t.Github (placeholder gh.heap t) })) ∨
    (∃ err, mget gh.teams t.Github = none ∧ gh.dry = false ∧
      c.CreateTeam gh.calls gh.organisation (newTeamFor t pid) = .error err ∧
      createOrEdit c t pid gh =
        (Outcome.error err,
          { gh with calls :=
              gh.calls ++ [Call.createTeam gh.organisation (newTeamFor t pid)] })) ∨
    (∃ ans, mget gh.teams t.Github = none ∧ gh.dry = false ∧
      c.CreateTeam gh.calls gh.organisation (newTeamFor t pid) = .ok ans ∧
      createOrEdit c t pid gh =
        (Outcome.ok { ans with addr := gh.heap },
          { gh with calls := gh.calls ++ [Call.createTeam gh.organisation (newTeamFor t pid)],
                    heap := gh.heap + 1,
                    teams := mset gh.teams ans.GetName { ans with addr := gh.heap } })) := by
  rcases hg : mget gh.teams t.Github with _ | pre
  · by_cases hd : gh.dry = true
    · refine Or.inr (Or.inr (Or.inr (Or.inl ⟨rfl, hd, ?_⟩)))
      simp [createOrEdit, hg, hd, placeholder, GhTeam.GetName]
    · have hd' : gh.dry = false := by simpa using hd
      rcases he : c.CreateTeam gh.calls gh.organisation (newTeamFor t pid) with err | ans
      · refine Or.inr (Or.inr (Or.inr (Or.inr (Or.inl ⟨err, rfl, hd', rfl, ?_⟩))))
        simp [createOrEdit, hg, hd', he]
      · refine Or.inr (Or.inr (Or.inr (Or.inr (Or.inr ⟨ans, rfl, hd', rfl, ?_⟩))))
        simp [createOrEdit, hg, hd', he, GhTeam.GetName]
  · have hpre : ∃ q, pre.Parent = q := ⟨_, rfl⟩
    obtain ⟨q, hp⟩ := hpre
    cases q with
    | none =>
      refine Or.inl ⟨pre, rfl, ?_, Or.inr ?_⟩
      · simp [createOrEdit, hg, hp]
      · intro p h
        rw [hp] at h
        cases h
    | some p =>
      by_cases hn : p.GetName = t.ParentID
      · refine Or.inl ⟨pre, rfl, ?_, Or.inr ?_⟩
        · simp [createOrEdit, hg, hp, hn]
        · intro p' h
          rw [hp] at h
          cases h
          exact hn
      · by_cases hd : gh.dry = true
        · refine Or.inl ⟨pre, rfl, ?_, Or.inl hd⟩
          simp [createOrEdit, hg, hp, hn, hd]
        · have hd' : gh.dry = false := by simpa using hd
          have hans : ∃ a, c.EditTeam gh.calls pre.GetID (newTeamFor t pid) = a := ⟨_, rfl⟩
          obtain ⟨a, he⟩ := hans
          cases a with
          | error err =>
            refine Or.inr (Or.inl ⟨pre, p, err, rfl, hd', hp, hn, he, ?_⟩)
            simp [createOrEdit, hg, hp, hn, hd', he]
          | ok ans =>
            refine Or.inr (Or.inr (Or.inl ⟨pre, p, ans, rfl, hd', hp, hn, he, ?_⟩))
            simp [createOrEdit, hg, hp, hn, hd', he, GhTeam.GetName]

theorem createStep_refl (gh : GithubState) : CreateStep gh gh :=
  ⟨sameConfig_refl gh, rfl, Nat.le_refl _, callsAdded_refl _ gh, fun _ h => h,
    fun _ _ h => Or.inl h⟩

theorem createStep_trans {a b d : GithubState} (h1 : CreateStep a b) (h2 : CreateStep b d) :
    CreateStep a d := by
  obtain ⟨c1, s1, p1, l1, k1, v1⟩ := h1
  obtain ⟨c2, s2, p2, l2, k2, v2⟩ := h2
  refine ⟨sameConfig_trans c1 c2, s2.trans s1, Nat.le_trans p1 p2, callsAdded_trans l1 l2,
    fun k h => k2 k (k1 k h), ?_⟩
  intro k g h
  rcases v2 k g h with h | ⟨h, h'⟩
  · rcases v1 k g h with h | ⟨h, h'⟩
    · exact Or.inl h
    · exact Or.inr ⟨h, Nat.lt_of_lt_of_le h' p2⟩
  · exact Or.inr ⟨Nat.le_trans p1 h, h'⟩

/-- A state that differs from `gh` by one more call, one more object and one more
binding of the index is a creation step away from `gh`. -/
theorem createStep_bind (gh : GithubState) (calls : List Call) (k : String) (g : GhTeam)
    (hc : ∀ call ∈ calls, call.IsTeamWrite) (hg : g.addr = gh.heap) :
    CreateStep gh { gh with calls := gh.calls ++ calls, heap := gh.heap + 1,
                            teams := mset gh.teams k g } := by
  refine ⟨⟨rfl, rfl, rfl, rfl, rfl⟩, rfl, Nat.le_succ _, ⟨calls, rfl, hc⟩, ?_, ?_⟩
  · intro k' h
    simp only [mget_mset]
    split
    · rfl
    · exact h
  · intro k' g' h
    simp only [mget_mset] at h
    split at h
    · cases h
      exact Or.inr ⟨by rw [hg], by rw [hg]; exact Nat.lt_succ_self _⟩
    · exact Or.inl h

theorem createOrEdit_step (c : Client) (t : Team) (pid : Option Int) (gh : GithubState) :
    CreateStep gh (createOrEdit c t pid gh).2 := by
  rcases createOrEdit_cases c t pid gh with ⟨pre, _, he, _⟩ | ⟨pre, p, err, _, _, _, _, _, he⟩ |
    ⟨pre, p, ans, _, _, _, _, _, he⟩ | ⟨_, _, he⟩ | ⟨err, _, _, _, he⟩ | ⟨ans, _, _, _, he⟩
  · rw [he]; exact createStep_refl gh
  · rw [he]
    exact ⟨⟨rfl, rfl, rfl, rfl, rfl⟩, rfl, Nat.le_refl _,
      ⟨_, rfl, by intro call hc; rw [List.mem_singleton] at hc; subst hc; exact trivial⟩,
      fun _ h => h, fun _ _ h => Or.inl h⟩
  · rw [he]
    exact createStep_bind gh _ _ _
      (by intro call hc; rw [List.mem_singleton] at hc; subst hc; exact trivial) rfl
  · rw [he]
    have := createStep_bind gh [] t.Github (placeholder gh.heap t) (by simp) rfl
    simpa using this
  · rw [he]
    exact ⟨⟨rfl, rfl, rfl, rfl, rfl⟩, rfl, Nat.le_refl _,
      ⟨_, rfl, by intro call hc; rw [List.mem_singleton] at hc; subst hc; exact trivial⟩,
      fun _ h => h, fun _ _ h => Or.inl h⟩
  · rw [he]
    exact createStep_bind gh _ _ _
      (by intro call hc; rw [List.mem_singleton] at hc; subst hc; exact trivial) rfl

/-- In a dry run, or on a platform that echoes names, the only key `createOrEdit` can bind
is the platform-team name of its team, and after a successful call that key is bound. -/
theorem createOrEdit_named (c : Client) (t : Team) (pid : Option Int) (gh : GithubState)
    (h : gh.dry = true ∨ Echoes c) :
    (∀ k, mget gh.teams k = none → (mget (createOrEdit c t pid gh).2.teams k).isSome →
      k = t.Github) ∧
    (∀ p, (createOrEdit c t pid gh).1 = Outcome.ok p →
      (mget (createOrEdit c t pid gh).2.teams t.Github).isSome) := by
  have hdry : ∀ {P : Prop}, gh.dry = false → (Echoes c → P) → P := by
    intro P hd hP
    rcases h with h | h
    · rw [hd] at h; cases h
    · exact hP h
  rcases createOrEdit_cases c t pid gh with ⟨pre, hg, he, _⟩ | ⟨pre, p, err, hg, _, _, _, _, he⟩ |
    ⟨pre, p, ans, hg, hd, _, _, hans, he⟩ | ⟨hg, _, he⟩ | ⟨err, hg, _, _, he⟩ |
    ⟨ans, hg, hd, hans, he⟩
  · rw [he]
    exact ⟨fun k hk hs => by simp [hk] at hs, fun _ _ => by simp [hg]⟩
  · rw [he]
    exact ⟨fun k hk hs => by simp [hk] at hs, fun _ _ => by simp [hg]⟩
  · rw [he]
    have hname : ans.GetName = t.Github := hdry hd fun e => by
      have := e.2 _ _ _ _ hans
      simp [GhTeam.GetName, this, newTeamFor]
    simp only [hname, mget_mset]
    refine ⟨fun k hk hs => ?_, fun _ _ => by simp⟩
    by_cases hk' : t.Github = k
    · exact hk'.symm
    · simp [hk', hk] at hs
  · rw [he]
    simp only [mget_mset]
    refine ⟨fun k hk hs => ?_, fun _ _ => by simp⟩
    by_cases hk' : t.Github = k
    · exact hk'.symm
    · simp [hk', hk] at hs
  · rw [he]
    exact ⟨fun k hk hs => by simp [hk] at hs, fun _ h => by simp at h⟩
  · rw [he]
    have hname : ans.GetName = t.Github := hdry hd fun e => by
      have := e.1 _ _ _ _ hans
      simp [GhTeam.GetName, this, newTeamFor]
    simp only [hname, mget_mset]
    refine ⟨fun k hk hs => ?_, fun _ _ => by simp⟩
    by_cases hk' : t.Github = k
    · exact hk'.symm
    · simp [hk', hk] at hs

/-- In a dry run, or on a platform whose create and edit calls succeed, `createOrEdit`
returns a team. -/
theorem createOrEdit_succeeds (c : Client) (t : Team) (pid : Option Int) (gh : GithubState)
    (h : gh.dry = true ∨ CreatesSucceed c) :
    ∃ p, (createOrEdit c t pid gh).1 = Outcome.ok p := by
  rcases createOrEdit_cases c t pid gh with ⟨pre, _, he, _⟩ | ⟨pre, p, err, _, hd, _, _, hans, he⟩ |
    ⟨pre, p, ans, _, _, _, _, _, he⟩ | ⟨_, _, he⟩ | ⟨err, _, hd, hans, he⟩ | ⟨ans, _, _, _, he⟩
  · exact ⟨_, by rw [he]⟩
  · rcases h with h | h
    · rw [hd] at h; cases h
    · obtain ⟨a, ha⟩ := h.2 gh.calls pre.GetID (newTeamFor t pid)
      rw [ha] at hans; cases hans
  · exact ⟨_, by rw [he]⟩
  · exact ⟨_, by rw [he]⟩
  · rcases h with h | h
    · rw [hd] at h; cases h
    · obtain ⟨a, ha⟩ := h.1 gh.calls gh.organisation (newTeamFor t pid)
      rw [ha] at hans; cases hans
  · exact ⟨_, by rw [he]⟩

theorem findOrgTeam_foldl (id : String) (ts : List Team) :
    ∀ acc : Option Team,
      (∀ t, ts.foldl (fun a u => if u.ID = id then some u else a) acc = some t →
        (t ∈ ts ∧ t.ID = id) ∨ acc = some t) ∧
      ((∃ t ∈ ts, t.ID = id) →
        ∃ t ∈ ts, t.ID = id ∧ ts.foldl (fun a u => if u.ID = id then some u else a) acc = some t) ∧
      ((∀ t ∈ ts, t.ID ≠ id) →
        ts.foldl (fun a u => if u.ID = id then some u else a) acc = acc) := by
  induction ts with
  | nil => intro acc; simp
  | cons u ts ih =>
    intro acc
    simp only [List.foldl_cons]
    obtain ⟨a1, a2, a3⟩ := ih (if u.ID = id then some u else acc)
    refine ⟨?_, ?_, ?_⟩
    · intro t ht
      rcases a1 t ht with ⟨hm, hid⟩ | h
      · exact Or.inl ⟨List.mem_cons_of_mem _ hm, hid⟩
      · by_cases hu : u.ID = id
        · simp only [hu, if_true, Option.some.injEq] at h
          subst h
          exact Or.inl ⟨List.mem_cons_self _ _, hu⟩
        · simp only [hu, if_false] at h
          exact Or.inr h
    · intro hex
      by_cases hin : ∃ t ∈ ts, t.ID = id
      · obtain ⟨t, hm, hid, hr⟩ := a2 hin
        exact ⟨t, List.mem_cons_of_mem _ hm, hid, hr⟩
      · have hno : ∀ t ∈ ts, t.ID ≠ id := fun t ht e => hin ⟨t, ht, e⟩
        obtain ⟨t, hm, hid⟩ := hex
        rcases List.mem_cons.1 hm with rfl | hm
        · exact ⟨t, List.mem_cons_self _ _, hid, by rw [a3 hno]; simp [hid]⟩
        · exact absurd hid (hno t hm)
    · intro hno
      rw [a3 fun t ht => hno t (List.mem_cons_of_mem _ ht)]
      simp [hno u (List.mem_cons_self _ _)]

theorem findOrgTeam_some {ts : List Team} {id : String} {t : Team}
    (h : findOrgTeam ts id = some t) : t ∈ ts ∧ t.ID = id := by
  rcases (findOrgTeam_foldl id ts none).1 t h with h | h
  · exact h
  · cases h

theorem findOrgTeam_nodup {ts : List Team} (hn : (ts.map Team.ID).Nodup) {t : Team}
    (ht : t ∈ ts) : findOrgTeam ts t.ID = some t := by
  obtain ⟨u, hu, hid, hr⟩ := (findOrgTeam_foldl t.ID ts none).2.1 ⟨t, ht, rfl⟩
  have : u = t := List.inj_on_of_nodup_map hn hu ht hid
  subst this
  exact hr

theorem createdKeys_refl (gh : GithubState) : CreatedKeys gh gh :=
  ⟨fun _ _ _ h => Or.inl h, fun _ k hk hs => by simp [hk] at hs⟩

theorem createdKeys_trans {a b d : GithubState} (s1 : CreateStep a b) (h1 : CreatedKeys a b)
    (h2 : CreatedKeys b d) (s2 : CreateStep b d) : CreatedKeys a d := by
  obtain ⟨⟨cd, co, cg, _, _⟩, _, hp, _, _, _⟩ := s1
  refine ⟨?_, ?_⟩
  · intro hd k g hg
    rcases h2.1 (by rw [cd]; exact hd) k g hg with h | ⟨t, ht, hk, x, hx, hgx⟩
    · exact h1.1 hd k g h
    · exact Or.inr ⟨t, by rw [← co]; exact ht, hk, x, Nat.le_trans hp hx, hgx⟩
  · intro hd k hk hs
    by_cases hb : (mget b.teams k).isSome
    · obtain ⟨t, ht, hkt, pid, hc⟩ := h1.2 hd k hk hb
      exact ⟨t, ht, hkt, pid, callsAdded_mem s2.2.2.2.1 hc⟩
    · have hb' : mget b.teams k = none := by
        cases h : mget b.teams k with
        | none => rfl
        | some v => simp [h] at hb
      obtain ⟨t, ht, hkt, pid, hc⟩ := h2.2 (by rw [cd]; exact hd) k hb' hs
      exact ⟨t, by rw [← co]; exact ht, hkt, pid, by rw [← cg]; exact hc⟩

theorem createOrEdit_created (c : Client) (t : Team) (pid : Option Int) (gh : GithubState)
    (h : gh.dry = true ∨ Echoes c) (ht : t ∈ gh.orgTeams) :
    CreatedKeys gh (createOrEdit c t pid gh).2 := by
  rcases createOrEdit_cases c t pid gh with ⟨pre, hg, he, _⟩ | ⟨pre, p, err, hg, _, _, _, _, he⟩ |
    ⟨pre, p, ans, hg, hd, _, _, hans, he⟩ | ⟨hg, hd, he⟩ | ⟨err, hg, _, _, he⟩ |
    ⟨ans, hg, hd, hans, he⟩
  · rw [he]; exact createdKeys_refl gh
  · rw [he]
    exact ⟨fun _ _ _ h => Or.inl h, fun _ k hk hs => by simp [hk] at hs⟩
  · rw [he]
    refine ⟨fun hd' => (by rw [hd] at hd'; cases hd'), fun _ k hk hs => ?_⟩
    have hname : ans.GetName = t.Github := by
      rcases h with h | h
      · rw [hd] at h; cases h
      · have := h.2 _ _ _ _ hans
        simp [GhTeam.GetName, this, newTeamFor]
    simp only [hname, mget_mset] at hs
    by_cases hk' : t.Github = k
    · rw [← hk', hg] at hk; cases hk
    · simp [hk', hk] at hs
  · rw [he]
    refine ⟨fun _ k g hkg => ?_, fun hd' => by rw [hd] at hd'; cases hd'⟩
    simp only [mget_mset] at hkg
    by_cases hk' : t.Github = k
    · simp only [hk', if_true, Option.some.injEq] at hkg
      exact Or.inr ⟨t, ht, hk', gh.heap, Nat.le_refl _, hkg.symm⟩
    · simp only [hk', if_false] at hkg
      exact Or.inl hkg
  · rw [he]
    exact ⟨fun _ _ _ h => Or.inl h, fun _ k hk hs => by simp [hk] at hs⟩
  · rw [he]
    refine ⟨fun hd' => (by rw [hd] at hd'; cases hd'), fun _ k hk hs => ?_⟩
    have hname : ans.GetName = t.Github := by
      rcases h with h | h
      · rw [hd] at h; cases h
      · have := h.1 _ _ _ _ hans
        simp [GhTeam.GetName, this, newTeamFor]
    simp only [hname, mget_mset] at hs
    by_cases hk' : t.Github = k
    · exact ⟨t, ht, hk', pid, by simp⟩
    · simp [hk', hk] at hs

/-- The recursion of `createTeamByIDIfNotExists`, one level unfolded: the outcome and state
in terms of the parent's invocation. -/
theorem createTeamByIDIfNotExists_succ (c : Client) (fuel : Nat) (teamID : String)
    (gh : GithubState) (t : Team) (hf : findOrgTeam gh.orgTeams teamID = some t) :
    createTeamByIDIfNotExists c (fuel + 1) teamID gh =
      if t.ParentID = "" then createOrEdit c t none gh
      else
        match (createTeamByIDIfNotExists c fuel t.ParentID gh).1 with
        | Outcome.ok parentTeam =>
          createOrEdit c t parentTeam.ID (createTeamByIDIfNotExists c fuel t.ParentID gh).2
        | Outcome.error err =>
          (Outcome.error err, (createTeamByIDIfNotExists c fuel t.ParentID gh).2)
        | Outcome.nilDeref => (Outcome.nilDeref, (createTeamByIDIfNotExists c fuel t.ParentID gh).2)
        | Outcome.overflow => (Outcome.overflow, (createTeamByIDIfNotExists c fuel t.ParentID gh).2) := by
  rw [createTeamByIDIfNotExists]
  simp only [hf]
  by_cases hp : t.ParentID = ""
  · simp [hp]
  · simp only [hp, ne_eq, not_false_eq_true, if_true, if_false]
    rcases hrec : createTeamByIDIfNotExists c fuel t.ParentID gh with ⟨o, gh1⟩
    cases o <;> rfl

theorem createTeamByIDIfNotExists_none (c : Client) (fuel : Nat) (teamID : String)
    (gh : GithubState) (hf : findOrgTeam gh.orgTeams teamID = none) :
    createTeamByIDIfNotExists c (fuel + 1) teamID gh =
      (Outcome.error ("could not find org team " ++ teamID ++ " for creation"), gh) := by
  rw [createTeamByIDIfNotExists]
  simp only [hf]

theorem createTeamByIDIfNotExists_step (c : Client) (fuel : Nat) :
    ∀ (teamID : String) (gh : GithubState),
      CreateStep gh (createTeamByIDIfNotExists c fuel teamID gh).2 := by
  induction fuel with
  | zero => intro teamID gh; exact createStep_refl gh
  | succ n ih =>
    intro teamID gh
    rcases hf : findOrgTeam gh.orgTeams teamID with _ | t
    · rw [createTeamByIDIfNotExists_none c n teamID gh hf]
      exact createStep_refl gh
    · rw [createTeamByIDIfNotExists_succ c n teamID gh t hf]
      by_cases hp : t.ParentID = ""
      · simp only [hp, if_true]
        exact createOrEdit_step c t none gh
      · simp only [hp, if_false]
        have hrec := ih t.ParentID gh
        rcases ho : (createTeamByIDIfNotExists c n t.ParentID gh).1 with p | e | _ | _
        · exact createStep_trans hrec (createOrEdit_step c t p.ID _)
        all_goals exact hrec

theorem createTeamByIDIfNotExists_created (c : Client) (fuel : Nat) :
    ∀ (teamID : String) (gh : GithubState), gh.dry = true ∨ Echoes c →
      CreatedKeys gh (createTeamByIDIfNotExists c fuel teamID gh).2 := by
  induction fuel with
  | zero => intro teamID gh _; exact createdKeys_refl gh
  | succ n ih =>
    intro teamID gh h
    rcases hf : findOrgTeam gh.orgTeams teamID with _ | t
    · rw [createTeamByIDIfNotExists_none c n teamID gh hf]
      exact createdKeys_refl gh
    · rw [createTeamByIDIfNotExists_succ c n teamID gh t hf]
      have ht := (findOrgTeam_some hf).1
      by_cases hp : t.ParentID = ""
      · simp only [hp, if_true]
        exact createOrEdit_created c t none gh h ht
      · simp only [hp, if_false]
        have hrec := ih t.ParentID gh h
        have hstep := createTeamByIDIfNotExists_step c n t.ParentID gh
        rcases ho : (createTeamByIDIfNotExists c n t.ParentID gh).1 with p | e | _ | _
        · have hcfg := hstep.1
          exact createdKeys_trans hstep hrec
            (createOrEdit_created c t p.ID _ (by rw [hcfg.1]; exact h)
              (by rw [hcfg.2.1]; exact ht))
            (createOrEdit_step c t p.ID _)
        all_goals exact hrec

/-- Enough fuel gives a result: in a dry run, or on a platform that echoes names and whose
calls succeed, a team whose parent chain resolves within the fuel is returned, and its
platform-team name is bound afterwards. -/
theorem createTeamByIDIfNotExists_ok (c : Client) (fuel : Nat) :
    ∀ (teamID : String) (gh : GithubState), gh.dry = true ∨ (Echoes c ∧ CreatesSucceed c) →
      chainResolves gh.orgTeams fuel teamID = true →
      ∃ p t, (createTeamByIDIfNotExists c fuel teamID gh).1 = Outcome.ok p ∧
        findOrgTeam gh.orgTeams teamID = some t ∧
        (mget (createTeamByIDIfNotExists c fuel teamID gh).2.teams t.Github).isSome := by
  induction fuel with
  | zero => intro teamID gh _ hr; simp [chainResolves] at hr
  | succ n ih =>
    intro teamID gh h hr
    rcases hf : findOrgTeam gh.orgTeams teamID with _ | t
    · simp [chainResolves, hf] at hr
    · rw [createTeamByIDIfNotExists_succ c n teamID gh t hf]
      have hfin : ∀ (pid : Option Int) (gh1 : GithubState), gh1.dry = gh.dry →
          ∃ p, (createOrEdit c t pid gh1).1 = Outcome.ok p ∧
            (mget (createOrEdit c t pid gh1).2.teams t.Github).isSome := by
        intro pid gh1 hd
        obtain ⟨p, hp⟩ := createOrEdit_succeeds c t pid gh1
          (by rw [hd]; exact h.imp id fun x => x.2)
        exact ⟨p, hp, (createOrEdit_named c t pid gh1
          (by rw [hd]; exact h.imp id fun x => x.1)).2 p hp⟩
      by_cases hp : t.ParentID = ""
      · simp only [hp, if_true]
        obtain ⟨p, h1, h2⟩ := hfin none gh rfl
        exact ⟨p, t, h1, rfl, h2⟩
      · simp only [hp, if_false]
        simp only [chainResolves, hf, hp, if_false] at hr
        obtain ⟨q, u, hq, _, _⟩ := ih t.ParentID gh h hr
        have hstep := createTeamByIDIfNotExists_step c n t.ParentID gh
        simp only [hq]
        obtain ⟨p, h1, h2⟩ := hfin q.ID _ hstep.1.1
        exact ⟨p, t, h1, rfl, h2⟩

/-- One round of the creation loop of `SyncTeams`. -/
theorem createMissing_cons (c : Client) (fuel : Nat) (t : Team) (l : List Team)
    (gh : GithubState) :
    createMissing c fuel (t :: l) gh =
      match (createTeamByIDIfNotExists c fuel t.ID gh).1 with
      | Outcome.ok _ => createMissing c fuel l (createTeamByIDIfNotExists c fuel t.ID gh).2
      | Outcome.error err => (Outcome.error err, (createTeamByIDIfNotExists c fuel t.ID gh).2)
      | Outcome.nilDeref => (Outcome.nilDeref, (createTeamByIDIfNotExists c fuel t.ID gh).2)
      | Outcome.overflow => (Outcome.overflow, (createTeamByIDIfNotExists c fuel t.ID gh).2) := by
  rw [createMissing]
  rcases hrec : createTeamByIDIfNotExists c fuel t.ID gh with ⟨o, gh1⟩
  cases o <;> rfl

theorem createMissing_step (c : Client) (fuel : Nat) (l : List Team) :
    ∀ gh : GithubState, CreateStep gh (createMissing c fuel l gh).2 := by
  induction l with
  | nil => intro gh; exact createStep_refl gh
  | cons t l ih =>
    intro gh
    rw [createMissing_cons]
    have h1 := createTeamByIDIfNotExists_step c fuel t.ID gh
    rcases ho : (createTeamByIDIfNotExists c fuel t.ID gh).1 with p | e | _ | _
    · exact createStep_trans h1 (ih _)
    all_goals exact h1

theorem createMissing_created (c : Client) (fuel : Nat) (l : List Team) :
    ∀ gh : GithubState, gh.dry = true ∨ Echoes c →
      CreatedKeys gh (createMissing c fuel l gh).2 := by
  induction l with
  | nil => intro gh _; exact createdKeys_refl gh
  | cons t l ih =>
    intro gh h
    rw [createMissing_cons]
    have h1 := createTeamByIDIfNotExists_step c fuel t.ID gh
    have h2 := createTeamByIDIfNotExists_created c fuel t.ID gh h
    rcases ho : (createTeamByIDIfNotExists c fuel t.ID gh).1 with p | e | _ | _
    · exact createdKeys_trans h1 h2 (ih _ (by rw [h1.1.1]; exact h)) (createMissing_step c fuel l _)
    all_goals exact h2

/-- Enough fuel gives a result: in a dry run, or on a platform that echoes names and whose
calls succeed, the creation loop ends without error when the parent chain of every listed
team resolves within the fuel, and the platform-team name of the chart team found under
each listed ID is bound afterwards. -/
theorem createMissing_ok (c : Client) (fuel : Nat) (l : List Team) :
    ∀ gh : GithubState, gh.dry = true ∨ (Echoes c ∧ CreatesSucceed c) →
      (∀ t ∈ l, chainResolves gh.orgTeams fuel t.ID = true) →
      (createMissing c fuel l gh).1 = Outcome.ok () ∧
      ∀ t ∈ l, ∃ u, findOrgTeam gh.orgTeams t.ID = some u ∧
        (mget (createMissing c fuel l gh).2.teams u.Github).isSome := by
  induction l with
  | nil => intro gh _ _; exact ⟨rfl, by simp⟩
  | cons t l ih =>
    intro gh h hr
    rw [createMissing_cons]
    have h1 := createTeamByIDIfNotExists_step c fuel t.ID gh
    obtain ⟨p, u, hp, hu, hb⟩ :=
      createTeamByIDIfNotExists_ok c fuel t.ID gh h (hr t (List.mem_cons_self _ _))
    simp only [hp]
    obtain ⟨i1, i2⟩ := ih (createTeamByIDIfNotExists c fuel t.ID gh).2
      (by rw [h1.1.1]; exact h)
      (by rw [h1.1.2.1]; exact fun v hv => hr v (List.mem_cons_of_mem _ hv))
    refine ⟨i1, ?_⟩
    intro v hv
    rcases List.mem_cons.1 hv with rfl | hv
    · exact ⟨u, hu, (createMissing_step c fuel l _).2.2.2.2.1 _ hb⟩
    · have := i2 v hv
      rw [h1.1.2.1] at this
      exact this

/-! ## The phases of SyncTeams -/

theorem afterStale_spec (c : Client) (chart : OrgChart) (gh : GithubState) :
    ∃ r1, removeStale c (githubTeamsNotInOrgchart chart (syncStart chart gh))
        (syncStart chart gh) = (Outcome.ok (), afterStale c chart gh) ∧
      (afterStale c chart gh).syncResult = some r1 := by
  obtain ⟨gh1, r1, hrun, _, _, hs, _⟩ :=
    removeStale_spec c (githubTeamsNotInOrgchart chart (syncStart chart gh)) (syncStart chart gh)
      _ rfl
  refine ⟨r1, ?_, ?_⟩
  · rw [afterStale, hrun]
  · rw [afterStale, hrun]; exact hs

theorem afterRoots_spec (c : Client) (chart : OrgChart) (gh : GithubState) :
    ∃ r2, resetRoots c chart.Teams (afterStale c chart gh) =
        (Outcome.ok (), afterRoots c chart gh) ∧
      (afterRoots c chart gh).syncResult = some r2 := by
  obtain ⟨r1, _, hs1⟩ := afterStale_spec c chart gh
  obtain ⟨gh2, r2, hrun, _, _, hs, _⟩ := resetRoots_spec c chart.Teams _ r1 hs1
  refine ⟨r2, ?_, ?_⟩
  · rw [afterRoots, hrun]
  · rw [afterRoots, hrun]; exact hs

/-- The method `SyncTeams` in terms of its phases: the two removal loops never fail; the run stops
with the outcome of the creation loop or of the planner when that is not a value, and
otherwise ends with the application of the plan. -/
theorem SyncTeams_eq (c : Client) (range : MapRange) (fuel : Nat) (chart : OrgChart)
    (gh : GithubState) :
    SyncTeams c range fuel chart gh =
      match (creation c fuel chart gh).1 with
      | Outcome.ok _ =>
        (match (planning c fuel chart gh).1 with
        | Outcome.ok syncData => applyPlan c (range.order syncData) (planning c fuel chart gh).2
        | Outcome.error err => (Outcome.error err, (planning c fuel chart gh).2)
        | Outcome.nilDeref => (Outcome.nilDeref, (planning c fuel chart gh).2)
        | Outcome.overflow => (Outcome.overflow, (planning c fuel chart gh).2))
      | Outcome.error err => (Outcome.error err, (creation c fuel chart gh).2)
      | Outcome.nilDeref => (Outcome.nilDeref, (creation c fuel chart gh).2)
      | Outcome.overflow => (Outcome.overflow, (creation c fuel chart gh).2) := by
  obtain ⟨r1, h1, _⟩ := afterStale_spec c chart gh
  obtain ⟨r2, h2, _⟩ := afterRoots_spec c chart gh
  rw [SyncTeams]
  simp only [h1, h2]
  rcases h3 : creation c fuel chart gh with ⟨o3, gh3⟩
  have h3' : createMissing c fuel (teamsNotInGithub chart (afterRoots c chart gh))
      (afterRoots c chart gh) = (o3, gh3) := h3
  rw [h3']
  cases o3 with
  | ok u =>
    simp only []
    rcases h4 : planning c fuel chart gh with ⟨o4, gh4⟩
    have h4' : teamMembersSyncData chart gh3 = (o4, gh4) := by
      have : (creation c fuel chart gh).2 = gh3 := by rw [h3]
      rw [← this]; exact h4
    rw [h4']
    cases o4 <;> rfl
  | error e => rfl
  | nilDeref => rfl
  | overflow => rfl

/-- The state `SyncTeams` leaves is the state after creation, after planning, or after
the application of the computed plan to the state after planning. -/
theorem SyncTeams_final (c : Client) (range : MapRange) (fuel : Nat) (chart : OrgChart)
    (gh : GithubState) :
    ((SyncTeams c range fuel chart gh).2 = (creation c fuel chart gh).2 ∧
      (SyncTeams c range fuel chart gh).1 ≠ Outcome.ok ()) ∨
    ((SyncTeams c range fuel chart gh).2 = (planning c fuel chart gh).2 ∧
      (SyncTeams c range fuel chart gh).1 ≠ Outcome.ok () ∧
      (creation c fuel chart gh).1 = Outcome.ok ()) ∨
    (∃ syncData, (planning c fuel chart gh).1 = Outcome.ok syncData ∧
      (creation c fuel chart gh).1 = Outcome.ok () ∧
      SyncTeams c range fuel chart gh =
        applyPlan c (range.order syncData) (planning c fuel chart gh).2) := by
  rw [SyncTeams_eq]
  rcases h3 : (creation c fuel chart gh).1 with u | e | _ | _
  · rcases h4 : (planning c fuel chart gh).1 with p | e | _ | _
    · exact Or.inr (Or.inr ⟨p, rfl, rfl, rfl⟩)
    all_goals exact Or.inr (Or.inl ⟨rfl, by simp, rfl⟩)
  all_goals exact Or.inl ⟨rfl, by simp⟩

/-! ## Planner and applier -/

theorem mem_mset {κ ν : Type} [DecidableEq κ] (m : List (κ × ν)) (k : κ) (v : ν) (p : κ × ν)
    (h : p ∈ mset m k v) : p ∈ m ∨ p = (k, v) := by
  induction m with
  | nil => simp [mset] at h; exact Or.inr h
  | cons q m ih =>
    obtain ⟨a, b⟩ := q
    by_cases hak : a = k
    · simp only [mset, hak, if_true, List.mem_cons] at h
      rcases h with h | h
      · exact Or.inr h
      · exact Or.inl (List.mem_cons_of_mem _ h)
    · simp only [mset, hak, if_false, List.mem_cons] at h
      rcases h with h | h
      · exact Or.inl (by rw [h]; exact List.mem_cons_self _ _)
      · rcases ih h with h | h
        · exact Or.inl (List.mem_cons_of_mem _ h)
        · exact Or.inr h

theorem ensureEntry_nonEmpty (plan : List (GhTeam × TeamMembershipSync)) (team : GhTeam)
    (h : HandlesNonEmpty plan) : HandlesNonEmpty (ensureEntry plan team) := by
  unfold ensureEntry
  split
  · exact h
  · intro e he
    rcases mem_mset _ _ _ _ he with he | he
    · exact h e he
    · subst he; simp

theorem addMember_nonEmpty (plan : List (GhTeam × TeamMembershipSync)) (team : GhTeam)
    (handle : String) (hh : handle ≠ "") (h : HandlesNonEmpty plan) :
    HandlesNonEmpty (addMember plan team handle) := by
  unfold addMember
  split
  · rename_i entry hentry
    intro e he
    rcases mem_mset _ _ _ _ he with he | he
    · exact h e he
    · subst he
      have := h _ (mget_mem _ _ _ hentry)
      refine ⟨?_, this.2⟩
      simp only [List.mem_append, List.mem_singleton, not_or]
      exact ⟨this.1, fun e => hh e.symm⟩
  · exact h

theorem addMaintainer_nonEmpty (plan : List (GhTeam × TeamMembershipSync)) (team : GhTeam)
    (handle : String) (hh : handle ≠ "") (h : HandlesNonEmpty plan) :
    HandlesNonEmpty (addMaintainer plan team handle) := by
  unfold addMaintainer
  split
  · rename_i entry hentry
    intro e he
    rcases mem_mset _ _ _ _ he with he | he
    · exact h e he
    · subst he
      have := h _ (mget_mem _ _ _ hentry)
      refine ⟨this.1, ?_⟩
      simp only [List.mem_append, List.mem_singleton, not_or]
      exact ⟨this.2, fun e => hh e.symm⟩
  · exact h

/-- The employee loop of the planner changes nothing but `unableToCreateMembership`, to
which it appends handle-less employees of the list, all of them when it ends with a plan;
it puts no empty handle in the plan. -/
theorem planEmployees_spec (chart : OrgChart) (l : List Employee) :
    ∀ (plan : List (GhTeam × TeamMembershipSync)) (gh : GithubState) (r : GithubSyncResult),
      gh.syncResult = some r →
      ∃ done, (planEmployees chart l plan gh).2 = withResult gh (moreMembership r done) ∧
        (∀ p, (planEmployees chart l plan gh).1 = Outcome.ok p →
          done = l.filter (fun e => decide (e.Github = "")) ∧
          (HandlesNonEmpty plan → HandlesNonEmpty p)) := by
  induction l with
  | nil =>
    intro plan gh r hs
    refine ⟨[], ?_, ?_⟩
    · simp [planEmployees, withResult, moreMembership, ← hs]
    · intro p hp
      simp only [planEmployees, Outcome.ok.injEq] at hp
      subst hp
      exact ⟨rfl, id⟩
  | cons e l ih =>
    intro plan gh r hs
    have hself : gh = withResult gh (moreMembership r []) := by
      simp [withResult, moreMembership, ← hs]
    unfold planEmployees
    by_cases he : e.Github = ""
    · simp only [he, if_true, hs]
      obtain ⟨done, h1, h2⟩ := ih plan (withResult gh (moreMembership r [e]))
        (moreMembership r [e]) rfl
      refine ⟨e :: done, ?_, ?_⟩
      · exact h1.trans (by simp [withResult, moreMembership])
      · intro p hp
        obtain ⟨h3, h4⟩ := h2 p hp
        exact ⟨by simp [he, h3], h4⟩
    · simp only [he, if_false]
      rcases ht : (e.Team.bind fun i => chart.Teams.get? i) with _ | eTeam
      · exact ⟨[], hself, fun p hp => by simp at hp⟩
      · simp only []
        rcases hg : mget gh.teams eTeam.Github with _ | team
        · exact ⟨[], hself, fun p hp => by simp at hp⟩
        · simp only []
          obtain ⟨done, h1, h2⟩ := ih (addMember (ensureEntry plan team) team e.Github) gh r hs
          refine ⟨done, h1, ?_⟩
          intro p hp
          obtain ⟨h3, h4⟩ := h2 p hp
          refine ⟨by simp [he, h3], fun hpl => h4 ?_⟩
          exact addMember_nonEmpty _ _ _ he (ensureEntry_nonEmpty _ _ hpl)

/-- The team loop of the planner changes nothing but `unableToCreateMaintainer`, to which
it appends employees, and puts no empty handle in the plan. -/
theorem planTeams_spec (chart : OrgChart) (l : List Team) :
    ∀ (plan : List (GhTeam × TeamMembershipSync)) (gh : GithubState) (r : GithubSyncResult),
      gh.syncResult = some r →
      ∃ done, (planTeams chart l plan gh).2 = withResult gh (moreMaintainer r done) ∧
        (∀ p, (planTeams chart l plan gh).1 = Outcome.ok p →
          (HandlesNonEmpty plan → HandlesNonEmpty p)) := by
  induction l with
  | nil =>
    intro plan gh r hs
    refine ⟨[], ?_, ?_⟩
    · simp [planTeams, withResult, moreMaintainer, ← hs]
    · intro p hp
      simp only [planTeams, Outcome.ok.injEq] at hp
      subst hp
      exact id
  | cons t l ih =>
    intro plan gh r hs
    have stop : ∀ (o : Outcome (List (GhTeam × TeamMembershipSync))), (∀ p, o ≠ Outcome.ok p) →
        ∃ done, ((o, gh) : _ × GithubState).2 = withResult gh (moreMaintainer r done) ∧
          (∀ p, ((o, gh) : _ × GithubState).1 = Outcome.ok p →
            (HandlesNonEmpty plan → HandlesNonEmpty p)) := by
      intro o ho
      refine ⟨[], ?_, fun p hp => absurd hp (ho p)⟩
      simp [withResult, moreMaintainer, ← hs]
    have rec0 : ∀ plan1, (HandlesNonEmpty plan → HandlesNonEmpty plan1) →
        ∃ done, (planTeams chart l plan1 gh).2 = withResult gh (moreMaintainer r done) ∧
          (∀ p, (planTeams chart l plan1 gh).1 = Outcome.ok p →
            (HandlesNonEmpty plan → HandlesNonEmpty p)) := by
      intro plan1 h1
      obtain ⟨done, e1, e2⟩ := ih plan1 gh r hs
      exact ⟨done, e1, fun p hp hpl => e2 p hp (h1 hpl)⟩
    have rec1 : ∀ plan1 x, (HandlesNonEmpty plan → HandlesNonEmpty plan1) →
        ∃ done, (planTeams chart l plan1 (withResult gh (moreMaintainer r [x]))).2 =
            withResult gh (moreMaintainer r done) ∧
          (∀ p, (planTeams chart l plan1 (withResult gh (moreMaintainer r [x]))).1 =
              Outcome.ok p → (HandlesNonEmpty plan → HandlesNonEmpty p)) := by
      intro plan1 x h1
      obtain ⟨done, e1, e2⟩ := ih plan1 (withResult gh (moreMaintainer r [x]))
        (moreMaintainer r [x]) rfl
      refine ⟨x :: done, ?_, fun p hp hpl => e2 p hp (h1 hpl)⟩
      exact e1.trans (by simp [withResult, moreMaintainer])
    unfold planTeams
    rcases hg : mget gh.teams t.Github with _ | team
    · exact stop _ (by simp)
    · simp only [hs]
      have hprod : ∀ plan1 msg, (HandlesNonEmpty plan → HandlesNonEmpty plan1) →
          ∃ done,
            (if t.ProductLeadID ≠ "" then
              match employeeByID chart t.ProductLeadID with
              | none => (Outcome.error msg, gh)
              | some none => (Outcome.nilDeref, gh)
              | some (some productLead) =>
                if productLead.Github = "" then
                  planTeams chart l plan1 (withResult gh (moreMaintainer r [productLead]))
                else planTeams chart l (addMaintainer plan1 team productLead.Github) gh
            else planTeams chart l plan1 gh).2 = withResult gh (moreMaintainer r done) ∧
            (∀ p,
              (if t.ProductLeadID ≠ "" then
                match employeeByID chart t.ProductLeadID with
                | none => (Outcome.error msg, gh)
                | some none => (Outcome.nilDeref, gh)
                | some (some productLead) =>
                  if productLead.Github = "" then
                    planTeams chart l plan1 (withResult gh (moreMaintainer r [productLead]))
                  else planTeams chart l (addMaintainer plan1 team productLead.Github) gh
              else planTeams chart l plan1 gh).1 = Outcome.ok p →
              (HandlesNonEmpty plan → HandlesNonEmpty p)) := by
        intro plan1 msg h1
        by_cases hpl : t.ProductLeadID = ""
        · simp only [hpl, ne_eq, not_true_eq_false, if_false]
          exact rec0 plan1 h1
        · simp only [hpl, ne_eq, not_false_eq_true, if_true]
          rcases hq : employeeByID chart t.ProductLeadID with _ | _ | productLead
          · exact stop _ (by simp)
          · exact stop _ (by simp)
          · simp only []
            by_cases hh : productLead.Github = ""
            · simp only [hh, if_true]
              exact rec1 plan1 productLead h1
            · simp only [hh, if_false]
              exact rec0 _ fun hp => addMaintainer_nonEmpty _ _ _ hh (h1 hp)
      by_cases htl : t.TeachLeadID = ""
      · simp only [htl, ne_eq, not_true_eq_false, if_false]
        exact hprod (ensureEntry plan team) _ (ensureEntry_nonEmpty _ _)
      · simp only [htl, ne_eq, not_false_eq_true, if_true]
        rcases hq : employeeByID chart t.TeachLeadID with _ | _ | techLead
        · exact stop _ (by simp)
        · exact stop _ (by simp)
        · simp only []
          by_cases hh : techLead.Github = ""
          · simp only [hh, if_true]
            exact rec1 _ techLead (ensureEntry_nonEmpty _ _)
          · simp only [hh, if_false]
            exact hprod (addMaintainer (ensureEntry plan team) team techLead.Github) _ fun hp =>
              addMaintainer_nonEmpty _ _ _ hh (ensureEntry_nonEmpty _ _ hp)

/-- The planner changes nothing but the two `unableTo…` lists of the result; when it ends
with a plan, the employees it appended to `unableToCreateMembership` are the handle-less
employees of the chart, in chart order, and no handle of the plan is empty. -/
theorem teamMembersSyncData_spec (chart : OrgChart) (gh : GithubState) (r : GithubSyncResult)
    (hs : gh.syncResult = some r) :
    ∃ d1 d2, (teamMembersSyncData chart gh).2 =
        withResult gh (moreMaintainer (moreMembership r d1) d2) ∧
      (∀ p, (teamMembersSyncData chart gh).1 = Outcome.ok p →
        d1 = chart.Employees.filter (fun e => decide (e.Github = "")) ∧ HandlesNonEmpty p) := by
  obtain ⟨d1, e1, f1⟩ := planEmployees_spec chart chart.Employees [] gh r hs
  have hempty : HandlesNonEmpty ([] : List (GhTeam × TeamMembershipSync)) := by
    intro e he; cases he
  unfold teamMembersSyncData
  rcases h1 : planEmployees chart chart.Employees [] gh with ⟨o1, gh1⟩
  rw [h1] at e1 f1
  simp only at e1 f1
  cases o1 with
  | ok plan =>
    simp only []
    obtain ⟨hd1, hpl⟩ := f1 plan rfl
    obtain ⟨d2, e2, f2⟩ := planTeams_spec chart chart.Teams plan gh1 (moreMembership r d1)
      (by rw [e1]; rfl)
    refine ⟨d1, d2, ?_, ?_⟩
    · rw [e2, e1]; rfl
    · intro p hp
      exact ⟨hd1, f2 p hp (hpl hempty)⟩
  | error e =>
    exact ⟨d1, [], by simp [e1, withResult, moreMaintainer], fun p hp => by simp at hp⟩
  | nilDeref =>
    exact ⟨d1, [], by simp [e1, withResult, moreMaintainer], fun p hp => by simp at hp⟩
  | overflow =>
    exact ⟨d1, [], by simp [e1, withResult, moreMaintainer], fun p hp => by simp at hp⟩

theorem grantAll_spec (c : Client) (teamID : Int) (role : Option String) (users : List String) :
    ∀ gh : GithubState, ∃ new, (grantAll c teamID role users gh).2 = withCalls gh new ∧
      ∀ call ∈ new, ∃ user ∈ users, call = Call.addTeamMembership teamID user role := by
  induction users with
  | nil => intro gh; exact ⟨[], by simp [grantAll, withCalls], by simp⟩
  | cons u us ih =>
    intro gh
    unfold grantAll
    simp only []
    rcases hc : c.AddTeamMembership gh.calls teamID u role with _ | err
    · simp only []
      obtain ⟨new, e1, f1⟩ := ih (withCalls gh [Call.addTeamMembership teamID u role])
      refine ⟨Call.addTeamMembership teamID u role :: new, ?_, ?_⟩
      · exact e1.trans (by simp [withCalls])
      · intro call hcall
        rcases List.mem_cons.1 hcall with rfl | h
        · exact ⟨u, List.mem_cons_self _ _, rfl⟩
        · obtain ⟨v, hv, hcv⟩ := f1 call h
          exact ⟨v, List.mem_cons_of_mem _ hv, hcv⟩
    · exact ⟨[Call.addTeamMembership teamID u role], rfl,
        fun call hcall => ⟨u, List.mem_cons_self _ _, List.mem_singleton.1 hcall⟩⟩

theorem syncTeamMembers_spec (c : Client) (team : GhTeam) (members maintainers : List String)
    (gh : GithubState) :
    ∃ new, (syncTeamMembers c team members maintainers gh).2 = withCalls gh new ∧
      ∀ call ∈ new, ∃ user role, (user ∈ members ∨ user ∈ maintainers) ∧
        call = Call.addTeamMembership team.GetID user role := by
  unfold syncTeamMembers
  by_cases hd : gh.dry = true
  · refine ⟨[], ?_, by simp⟩
    rw [if_pos hd]
    simp [withCalls]
  · simp only [hd, Bool.false_eq_true, if_false]
    obtain ⟨n1, e1, f1⟩ := grantAll_spec c team.GetID none members gh
    rcases h1 : grantAll c team.GetID none members gh with ⟨o1, gh1⟩
    rw [h1] at e1
    simp only at e1
    have g1 : ∀ call ∈ n1, ∃ user role, (user ∈ members ∨ user ∈ maintainers) ∧
        call = Call.addTeamMembership team.GetID user role := by
      intro call hcall
      obtain ⟨u, hu, hcu⟩ := f1 call hcall
      exact ⟨u, none, Or.inl hu, hcu⟩
    cases o1 with
    | ok u =>
      simp only []
      obtain ⟨n2, e2, f2⟩ := grantAll_spec c team.GetID (some "maintainer") maintainers gh1
      refine ⟨n1 ++ n2, ?_, ?_⟩
      · rw [e2, e1]; simp [withCalls]
      · intro call hcall
        rcases List.mem_append.1 hcall with h | h
        · exact g1 call h
        · obtain ⟨u, hu, hcu⟩ := f2 call h
          exact ⟨u, _, Or.inr hu, hcu⟩
    | error e => exact ⟨n1, e1, g1⟩
    | nilDeref => exact ⟨n1, e1, g1⟩
    | overflow => exact ⟨n1, e1, g1⟩

/-- Applying a plan changes nothing but the call log, to which it appends
`AddTeamMembership` calls for handles of the plan. -/
theorem applyPlan_spec (c : Client) (l : List (GhTeam × TeamMembershipSync)) :
    ∀ gh : GithubState, ∃ new, (applyPlan c l gh).2 = withCalls gh new ∧
      ∀ call ∈ new, ∃ e ∈ l, ∃ user role, (user ∈ e.2.Members ∨ user ∈ e.2.Maintainers) ∧
        call = Call.addTeamMembership e.1.GetID user role := by
  induction l with
  | nil => intro gh; exact ⟨[], by simp [applyPlan, withCalls], by simp⟩
  | cons e l ih =>
    intro gh
    obtain ⟨team, m⟩ := e
    unfold applyPlan
    obtain ⟨n1, e1, f1⟩ := syncTeamMembers_spec c team m.Members m.Maintainers gh
    rcases h1 : syncTeamMembers c team m.Members m.Maintainers gh with ⟨o1, gh1⟩
    rw [h1] at e1
    simp only at e1
    have g1 : ∀ call ∈ n1, ∃ e ∈ (team, m) :: l, ∃ user role,
        (user ∈ e.2.Members ∨ user ∈ e.2.Maintainers) ∧
          call = Call.addTeamMembership e.1.GetID user role := by
      intro call hcall
      obtain ⟨u, role, hu, hcu⟩ := f1 call hcall
      exact ⟨(team, m), List.mem_cons_self _ _, u, role, hu, hcu⟩
    cases o1 with
    | ok u =>
      simp only []
      obtain ⟨n2, e2, f2⟩ := ih gh1
      refine ⟨n1 ++ n2, ?_, ?_⟩
      · rw [e2, e1]; simp [withCalls]
      · intro call hcall
        rcases List.mem_append.1 hcall with h | h
        · exact g1 call h
        · obtain ⟨e, he, rest⟩ := f2 call h
          exact ⟨e, List.mem_cons_of_mem _ he, rest⟩
    | error e => exact ⟨n1, e1, g1⟩
    | nilDeref => exact ⟨n1, e1, g1⟩
    | overflow => exact ⟨n1, e1, g1⟩

/-- Everything `removeStale_spec` says, about the first phase of `SyncTeams`. -/
theorem afterStale_facts (c : Client) (chart : OrgChart) (gh : GithubState) :
    ∃ r1, SameConfig (syncStart chart gh) (afterStale c chart gh) ∧
      (afterStale c chart gh).heap = gh.heap ∧
      (afterStale c chart gh).syncResult = some r1 ∧
      r1.unableToCreateMembership = [] ∧ r1.unableToCreateMaintainer = [] ∧
      CallsAdded Call.IsDelete gh (afterStale c chart gh) ∧
      (∀ k, (∀ g ∈ githubTeamsNotInOrgchart chart gh, g.GetName ≠ k) →
        mget (afterStale c chart gh).teams k = mget gh.teams k) ∧
      (∀ k, mget gh.teams k = none → mget (afterStale c chart gh).teams k = none) ∧
      (∀ g ∈ githubTeamsNotInOrgchart chart gh,
        (gh.dry = true ∨ ∀ log, c.DeleteTeam log g.GetID = none) →
          g ∈ r1.removedTeams ∧ mget (afterStale c chart gh).teams g.GetName = none) ∧
      (gh.dry = false → ∀ g ∈ githubTeamsNotInOrgchart chart gh,
        Call.deleteTeam g.GetID ∈ (afterStale c chart gh).calls) ∧
      ((gh.dry = true ∨ ∀ log id, c.DeleteTeam log id = none) →
        r1.removedTeams = githubTeamsNotInOrgchart chart gh) := by
  obtain ⟨gh1, r1, hrun, hcfg, hheap, hs, hro, hadd, hkeep, hnone, hrec, hdel, hex⟩ :=
    removeStale_spec c (githubTeamsNotInOrgchart chart (syncStart chart gh)) (syncStart chart gh)
      _ rfl
  have e : afterStale c chart gh = gh1 := by rw [afterStale, hrun]
  rw [e]
  exact ⟨r1, hcfg, hheap, hs, hro.2.1, hro.2.2, hadd, hkeep, hnone, hrec, hdel,
    fun h => by simpa using hex h⟩

/-- Everything `resetRoots_spec` says, about the second phase of `SyncTeams`. -/
theorem afterRoots_facts (c : Client) (chart : OrgChart) (gh : GithubState) :
    ∃ r1 r2, (afterStale c chart gh).syncResult = some r1 ∧
      SameConfig (syncStart chart gh) (afterRoots c chart gh) ∧
      (afterRoots c chart gh).heap = gh.heap ∧
      (afterRoots c chart gh).syncResult = some r2 ∧ RemovedOnly r1 r2 ∧
      r2.unableToCreateMembership = [] ∧ r2.unableToCreateMaintainer = [] ∧
      CallsAdded Call.IsDelete gh (afterRoots c chart gh) ∧
      CallsAdded Call.IsDelete (afterStale c chart gh) (afterRoots c chart gh) ∧
      (∀ k, mget (afterStale c chart gh).teams k = none →
        mget (afterRoots c chart gh).teams k = none) := by
  obtain ⟨r1, hcfg1, hheap1, hs1, hm1, hmt1, hadd1, _⟩ := afterStale_facts c chart gh
  obtain ⟨gh2, r2, hrun, hcfg, hheap, hs, hro, hadd, hnone⟩ :=
    resetRoots_spec c chart.Teams (afterStale c chart gh) r1 hs1
  have e : afterRoots c chart gh = gh2 := by rw [afterRoots, hrun]
  rw [e]
  exact ⟨r1, r2, hs1, sameConfig_trans hcfg1 hcfg, hheap.trans hheap1, hs, hro, hro.2.1.trans hm1,
    hro.2.2.trans hmt1, callsAdded_trans hadd1 hadd, hadd, hnone⟩

/-- The creation phase of `SyncTeams` is a creation step away from the state after the
root loop. -/
theorem creation_step (c : Client) (fuel : Nat) (chart : OrgChart) (gh : GithubState) :
    CreateStep (afterRoots c chart gh) (creation c fuel chart gh).2 :=
  createMissing_step c fuel _ _

theorem isDelete_not_empty_grant (call : Call) (h : call.IsDelete) :
    ∀ id role, call ≠ Call.addTeamMembership id "" role := by
  intro id role e
  subst e
  exact h

theorem isTeamWrite_not_empty_grant (call : Call) (h : call.IsTeamWrite) :
    ∀ id role, call ≠ Call.addTeamMembership id "" role := by
  intro id role e
  subst e
  exact h

/-- C10. Handle-less employees are reported, not granted: when `SyncTeams` returns without
error, `unableToCreateMembership` of the result is the list of the chart's employees with
an empty handle, in chart order; the run has computed a plan and applied it, no `Members`
or `Maintainers` list of that plan holds the empty handle, and no `AddTeamMembership` call
issued by the run is for the empty handle. -/
theorem handle_less_employees_reported (c : Client) (range : MapRange) (fuel : Nat)
    (chart : OrgChart) (gh : GithubState)
    (hok : (SyncTeams c range fuel chart gh).1 = Outcome.ok ()) :
    (SyncTeams c range fuel chart gh).2.syncResult.map (fun r => r.unableToCreateMembership) =
      some (chart.Employees.filter fun e => decide (e.Github = "")) ∧
    (∃ plan, (planning c fuel chart gh).1 = Outcome.ok plan ∧
      SyncTeams c range fuel chart gh =
        applyPlan c (range.order plan) (planning c fuel chart gh).2 ∧
      ∀ e ∈ plan, "" ∉ e.2.Members ∧ "" ∉ e.2.Maintainers) ∧
    (∀ call ∈ (SyncTeams c range fuel chart gh).2.calls,
      call ∈ gh.calls ∨ ∀ id role, call ≠ Call.addTeamMembership id "" role) := by
  rcases SyncTeams_final c range fuel chart gh with ⟨_, h⟩ | ⟨_, h, _⟩ | ⟨plan, hplan, _, hrun⟩
  · exact absurd hok h
  · exact absurd hok h
  · obtain ⟨r1, r2, _, hcfg2, _, hs2, _, hm2, _, hadd2, _, _⟩ := afterRoots_facts c chart gh
    have hstep := creation_step c fuel chart gh
    have hs3 : (creation c fuel chart gh).2.syncResult = some r2 := hstep.2.1.trans hs2
    obtain ⟨d1, d2, e4, f4⟩ := teamMembersSyncData_spec chart _ r2 hs3
    obtain ⟨hd1, hne⟩ := f4 plan hplan
    obtain ⟨new, e5, f5⟩ := applyPlan_spec c (range.order plan) (planning c fuel chart gh).2
    have e4' : (planning c fuel chart gh).2 =
        withResult (creation c fuel chart gh).2 (moreMaintainer (moreMembership r2 d1) d2) := e4
    have hfinal : (SyncTeams c range fuel chart gh).2 =
        withCalls (withResult (creation c fuel chart gh).2
          (moreMaintainer (moreMembership r2 d1) d2)) new := by
      rw [hrun, e5, e4']
    refine ⟨?_, ⟨plan, hplan, hrun, hne⟩, ?_⟩
    · rw [hfinal]
      simp [withCalls, withResult, moreMaintainer, moreMembership, hm2, hd1]
    · intro call hcall
      rw [hfinal] at hcall
      simp only [withCalls, withResult, List.mem_append] at hcall
      rcases hcall with hcall | hcall
      · obtain ⟨n2, en2, fn2⟩ := hadd2
        obtain ⟨n3, en3, fn3⟩ := hstep.2.2.2.1
        rw [en3, en2, List.mem_append, List.mem_append] at hcall
        rcases hcall with (hcall | hcall) | hcall
        · exact Or.inl hcall
        · exact Or.inr (isDelete_not_empty_grant call (fn2 call hcall))
        · exact Or.inr (isTeamWrite_not_empty_grant call (fn3 call hcall))
      · right
        obtain ⟨e, he, user, role, hu, hcu⟩ := f5 call hcall
        have hmem : e ∈ plan := (range.perm plan).subset he
        have hnon := hne e hmem
        intro id role' hcontra
        rw [hcu] at hcontra
        injection hcontra with _ h2 _
        subst h2
        rcases hu with hu | hu
        · exact hnon.1 hu
        · exact hnon.2 hu

/-- C10 at the sample chart on a live run: the run returns without error and Bob, the one
employee without a handle, is the one entry of `unableToCreateMembership`. -/
theorem handle_less_employees_reported_witness :
    (SyncTeams sampleClient sampleRange 3 sampleChart (sampleState false)).1 = Outcome.ok () ∧
    (SyncTeams sampleClient sampleRange 3 sampleChart (sampleState false)).2.syncResult.map
        (fun r => r.unableToCreateMembership) =
      some (sampleChart.Employees.filter fun e => decide (e.Github = "")) :=
  ⟨by decide,
   (handle_less_employees_reported sampleClient sampleRange 3 sampleChart (sampleState false)
      (by decide)).1⟩

/-- After the creation phase nothing changes but the two `unableTo…` lists of the result
and the call log, which grows by `AddTeamMembership` calls. -/
theorem SyncTeams_after_creation (c : Client) (range : MapRange) (fuel : Nat)
    (chart : OrgChart) (gh : GithubState) :
    ∃ r3 d1 d2 new, (creation c fuel chart gh).2.syncResult = some r3 ∧
      (SyncTeams c range fuel chart gh).2 =
        withCalls (withResult (creation c fuel chart gh).2
          (moreMaintainer (moreMembership r3 d1) d2)) new ∧
      ∀ call ∈ new, ∃ id user role, call = Call.addTeamMembership id user role := by
  obtain ⟨r1, r2, _, _, _, hs2, _⟩ := afterRoots_facts c chart gh
  have hs3 : (creation c fuel chart gh).2.syncResult = some r2 :=
    (creation_step c fuel chart gh).2.1.trans hs2
  obtain ⟨d1, d2, e4, _⟩ := teamMembersSyncData_spec chart _ r2 hs3
  have e4' : (planning c fuel chart gh).2 =
      withResult (creation c fuel chart gh).2 (moreMaintainer (moreMembership r2 d1) d2) := e4
  rcases SyncTeams_final c range fuel chart gh with ⟨h, _⟩ | ⟨h, _, _⟩ | ⟨plan, _, _, hrun⟩
  · refine ⟨r2, [], [], [], hs3, ?_, by simp⟩
    rw [h]
    simp [withCalls, withResult, moreMaintainer, moreMembership, ← hs3]
  · refine ⟨r2, d1, d2, [], hs3, ?_, by simp⟩
    rw [h, e4']
    simp [withCalls]
  · obtain ⟨new, e5, f5⟩ := applyPlan_spec c (range.order plan) (planning c fuel chart gh).2
    refine ⟨r2, d1, d2, new, hs3, ?_, ?_⟩
    · rw [hrun, e5, e4']
    · intro call hcall
      obtain ⟨e, _, user, role, _, hcu⟩ := f5 call hcall
      exact ⟨_, user, role, hcu⟩

/-- A key that is free after the root loop and is the name of no chart team is free at
the end of a run that is dry or whose platform echoes names. -/
theorem SyncTeams_free_key (c : Client) (range : MapRange) (fuel : Nat) (chart : OrgChart)
    (gh : GithubState) (k : String) (hk : mget (afterRoots c chart gh).teams k = none)
    (hname : ∀ t ∈ chart.Teams, t.Github ≠ k) (h : gh.dry = true ∨ Echoes c) :
    mget (SyncTeams c range fuel chart gh).2.teams k = none := by
  obtain ⟨r3, d1, d2, new, _, hfin, _⟩ := SyncTeams_after_creation c range fuel chart gh
  obtain ⟨_, _, _, hcfg2, _⟩ := afterRoots_facts c chart gh
  have hdry : (afterRoots c chart gh).dry = gh.dry := hcfg2.1
  have horg : (afterRoots c chart gh).orgTeams = chart.Teams := hcfg2.2.1
  have hcr : CreatedKeys (afterRoots c chart gh) (creation c fuel chart gh).2 :=
    createMissing_created c fuel _ _ (by rw [hdry]; exact h)
  have hteams : (SyncTeams c range fuel chart gh).2.teams = (creation c fuel chart gh).2.teams := by
    rw [hfin]; rfl
  rw [hteams]
  rcases hv : mget (creation c fuel chart gh).2.teams k with _ | v
  · rfl
  · exfalso
    by_cases hd : gh.dry = true
    · rcases hcr.1 (by rw [hdry]; exact hd) k v hv with h1 | ⟨t, ht, htk, _⟩
      · rw [hk] at h1; cases h1
      · exact hname t (by rw [← horg]; exact ht) htk
    · have hd' : gh.dry = false := by simpa using hd
      obtain ⟨t, ht, htk, _⟩ := hcr.2 (by rw [hdry]; exact hd') k hk (by rw [hv]; rfl)
      exact hname t (by rw [← horg]; exact ht) htk

/-- C6, as stated, fails when the delete call fails: on the sample chart and snapshot, with
a platform that refuses every delete, the stale team `org-old` is in the initial snapshot,
no chart team has its name, and after `SyncTeams` it is not in `removedTeams` and its name
is still a key of the index. -/
theorem stale_team_survives_failed_delete :
    staleGhTeam ∈ (sampleState false).teams.map Prod.snd ∧
    (∀ t ∈ sampleChart.Teams, t.Github ≠ staleGhTeam.GetName) ∧
    (SyncTeams failingDeleteClient sampleRange 3 sampleChart (sampleState false)).2.syncResult.map
      (fun r => r.removedTeams) = some [] ∧
    mget (SyncTeams failingDeleteClient sampleRange 3 sampleChart (sampleState false)).2.teams
      staleGhTeam.GetName = some staleGhTeam := by
  decide

/-- The stale-team loop over a list in two parts: the second part starts in the state the
first part leaves. -/
theorem removeStale_append (c : Client) (l1 l2 : List GhTeam) :
    ∀ (gh : GithubState) (r : GithubSyncResult), gh.syncResult = some r →
      removeStale c (l1 ++ l2) gh = removeStale c l2 (removeStale c l1 gh).2 := by
  induction l1 with
  | nil => intro gh r _; rfl
  | cons g l1 ih =>
    intro gh r hs
    obtain ⟨ghm, hrun, _, _, _, hcase⟩ := removeTeam_spec c g gh r hs
    have hsm : ∃ rm, ghm.syncResult = some rm := by
      rcases hcase with ⟨h, _⟩ | ⟨h, _⟩
      · exact ⟨_, h⟩
      · exact ⟨_, h⟩
    obtain ⟨rm, hrm⟩ := hsm
    simp only [List.cons_append, removeStale, hrun]
    exact ih ghm rm hrm

/-- The round of the stale-team loop for the team `g` that stands after `pre` in the list:
in a live run the delete call for `g` is appended to the log the rounds for `pre` leave;
when the run is dry or that call does not fail, `g` is in `removedTeams` and its name is
free when the loop ends. -/
theorem removeStale_round (c : Client) (pre post : List GhTeam) (g : GhTeam)
    (gh : GithubState) (r : GithubSyncResult) (hs : gh.syncResult = some r) :
    (gh.dry = false →
      (removeStale c (pre ++ [g]) gh).2.calls =
        (removeStale c pre gh).2.calls ++ [Call.deleteTeam g.GetID]) ∧
    ((gh.dry = true ∨ c.DeleteTeam (removeStale c pre gh).2.calls g.GetID = none) →
      ∃ r1, (removeStale c (pre ++ g :: post) gh).2.syncResult = some r1 ∧
        g ∈ r1.removedTeams ∧
        mget (removeStale c (pre ++ g :: post) gh).2.teams g.GetName = none) := by
  obtain ⟨ghp, rp, hrunp, hcfgp, _, hsp, _⟩ := removeStale_spec c pre gh r hs
  have hdryp : ghp.dry = gh.dry := hcfgp.1
  obtain ⟨ghm, hrunm, _, _, hcallsm, hcase⟩ := removeTeam_spec c g ghp rp hsp
  have hpre : (removeStale c pre gh).2 = ghp := by rw [hrunp]
  have hone : removeStale c (pre ++ [g]) gh = (Outcome.ok (), ghm) := by
    rw [removeStale_append c pre [g] gh r hs, hpre]
    simp only [removeStale, hrunm]
  have hall : removeStale c (pre ++ g :: post) gh = removeStale c post ghm := by
    rw [removeStale_append c pre (g :: post) gh r hs, hpre]
    simp only [removeStale, hrunm]
  rw [hpre, hone, hall]
  refine ⟨?_, ?_⟩
  · intro hd
    show ghm.calls = _
    rw [hcallsm, hdryp, hd]
    simp
  · intro hor
    rcases hcase with ⟨h1, h2, _⟩ | ⟨_, _, h3, h4⟩
    · obtain ⟨ghf, rf, hrunf, _, _, hsf, hro, _, _, hnone, _⟩ :=
        removeStale_spec c post ghm _ h1
      rw [hrunf]
      refine ⟨rf, hsf, hro.1.subset (by simp), hnone _ ?_⟩
      rw [h2, mget_mdel]
      simp
    · exfalso
      rcases hor with hd | hdel
      · rw [hdryp, hd] at h3; cases h3
      · rw [hdel] at h4; cases h4

/-- C6, amended. A platform team of the initial snapshot whose name is the platform-team
name of no chart team is in the list the stale-team loop of `SyncTeams` goes through, and
is handed to `removeTeam` at every place it has in that list: when the run is not dry a
delete call is issued for it, after the calls of the rounds before it; when the run is dry
or that delete call does not fail, it is in `removedTeams` of the result, whatever the
outcome of the run, its name is not a key of the index when the stale-team loop ends, nor
at the end of a run that is dry or whose platform names created and edited teams as
requested. -/
theorem stale_teams_removed (c : Client) (range : MapRange) (fuel : Nat) (chart : OrgChart)
    (gh : GithubState) (g : GhTeam) (hg : g ∈ gh.teams.map Prod.snd)
    (hstale : ∀ t ∈ chart.Teams, t.Github ≠ g.GetName) :
    (∃ pre post, githubTeamsNotInOrgchart chart gh = pre ++ g :: post) ∧
    (gh.dry = false → Call.deleteTeam g.GetID ∈ (SyncTeams c range fuel chart gh).2.calls) ∧
    (∀ pre post, githubTeamsNotInOrgchart chart gh = pre ++ g :: post →
      (gh.dry = false →
        (removeStale c (pre ++ [g]) (syncStart chart gh)).2.calls =
          (removeStale c pre (syncStart chart gh)).2.calls ++ [Call.deleteTeam g.GetID]) ∧
      ((gh.dry = true ∨
          c.DeleteTeam (removeStale c pre (syncStart chart gh)).2.calls g.GetID = none) →
        (∃ res, (SyncTeams c range fuel chart gh).2.syncResult = some res ∧
          g ∈ res.removedTeams) ∧
        mget (afterStale c chart gh).teams g.GetName = none ∧
        (gh.dry = true ∨ Echoes c →
          mget (SyncTeams c range fuel chart gh).2.teams g.GetName = none))) := by
  have hmem : g ∈ githubTeamsNotInOrgchart chart gh := by
    rw [mem_githubTeamsNotInOrgchart]
    exact ⟨hg, fun ⟨t, ht, he⟩ => hstale t ht he⟩
  obtain ⟨r1, _, _, hs1, _, _, hadd1, _, _, _, hdel1, _⟩ := afterStale_facts c chart gh
  obtain ⟨r1', r2, hs1', _, _, hs2, hro2, _, _, _, hadd2, hnone2⟩ := afterRoots_facts c chart gh
  have hr : r1' = r1 := by rw [hs1] at hs1'; cases hs1'; rfl
  subst hr
  obtain ⟨r3, d1, d2, new, hs3, hfin, _⟩ := SyncTeams_after_creation c range fuel chart gh
  have hstep := creation_step c fuel chart gh
  have hr3 : r3 = r2 := by
    have := hstep.2.1.trans hs2
    rw [hs3] at this; cases this; rfl
  subst hr3
  refine ⟨List.append_of_mem hmem, ?_, ?_⟩
  · intro hd
    have h1 := hdel1 hd g hmem
    have h2 := callsAdded_mem hstep.2.2.2.1 (callsAdded_mem hadd2 h1)
    rw [hfin]
    exact List.mem_append_left _ h2
  · intro pre post hlist
    have hlist0 : githubTeamsNotInOrgchart chart (syncStart chart gh) = pre ++ g :: post := hlist
    have hdry0 : (syncStart chart gh).dry = gh.dry := rfl
    obtain ⟨hcall, hrem⟩ := removeStale_round c pre post g (syncStart chart gh) _ rfl
    refine ⟨fun hd => hcall (by rw [hdry0]; exact hd), ?_⟩
    intro hor
    obtain ⟨rs, hrs, hgin, hfree⟩ := hrem (by rw [hdry0]; exact hor)
    rw [← hlist0] at hrs hfree
    have hrs' : (afterStale c chart gh).syncResult = some rs := hrs
    have hfree' : mget (afterStale c chart gh).teams g.GetName = none := hfree
    rw [hs1] at hrs'
    cases hrs'
    refine ⟨⟨moreMaintainer (moreMembership r3 d1) d2, by rw [hfin]; rfl, hro2.1.subset hgin⟩,
      hfree', ?_⟩
    intro he
    exact SyncTeams_free_key c range fuel chart gh _ (hnone2 _ hfree') hstale he

/-- C6 (amended) at the sample chart on a live run with a platform that refuses every delete
but one made before any other call: the delete call for the stale team `org-old` is the
first call of the run, it does not fail, and the team is removed. -/
theorem stale_teams_removed_witness :
    flakyDeleteClient.DeleteTeam [Call.deleteTeam 7] 7 = some "delete refused" ∧
    (∃ res, (SyncTeams flakyDeleteClient sampleRange 3 sampleChart
        (sampleState false)).2.syncResult = some res ∧ staleGhTeam ∈ res.removedTeams) ∧
    mget (SyncTeams flakyDeleteClient sampleRange 3 sampleChart (sampleState false)).2.teams
      staleGhTeam.GetName = none :=
  have h := (stale_teams_removed flakyDeleteClient sampleRange 3 sampleChart
    (sampleState false) staleGhTeam (by decide) (by decide)).2.2 [] [] (by decide)
  have h2 := h.2 (Or.inr (by decide))
  ⟨by decide, h2.1, h2.2.2 (Or.inr ⟨fun _ _ _ _ e => by cases e; rfl,
    fun _ _ _ _ e => by cases e; rfl⟩)⟩

/-- C4, as stated, fails for a second root team: in a chart with two root teams that both
exist on the platform, the platform team of the second one is bound in the index after the
stale-team loop, and yet the run removes the first one only: dry, `removedTeams` is the
first root's platform team alone; live, no delete call is issued for the second. -/
theorem second_root_not_removed :
    otherRoot ∈ twoRootChart.Teams ∧ otherRoot.ParentID = "" ∧
    mget (afterStale sampleClient twoRootChart (twoRootState true)).teams otherRoot.Github =
      some otherGhTeam ∧
    (SyncTeams sampleClient sampleRange 3 twoRootChart (twoRootState true)).2.syncResult.map
      (fun r => r.removedTeams) = some [rootGhTeam] ∧
    (SyncTeams sampleClient sampleRange 3 twoRootChart (twoRootState false)).2.syncResult.map
      (fun r => r.removedTeams) = some [rootGhTeam] ∧
    Call.deleteTeam otherGhTeam.GetID ∉
      (SyncTeams sampleClient sampleRange 3 twoRootChart (twoRootState false)).2.calls := by
  decide

/-- The root loop of `SyncTeams` when the first root team of the chart is bound in the
index after the stale-team loop: the bound team goes through `removeTeam` and the index is
emptied. -/
theorem afterRoots_first (c : Client) (chart : OrgChart) (gh : GithubState) (r : Team)
    (g : GhTeam) (hfirst : chart.Teams.find? (fun t => decide (t.ParentID = "")) = some r)
    (hpresent : mget (afterStale c chart gh).teams r.Github = some g) :
    ∃ (r1 : GithubSyncResult) (ghm : GithubState), (afterStale c chart gh).syncResult = some r1 ∧
      afterRoots c chart gh = { ghm with teams := [] } ∧
      ghm.calls = (if gh.dry then (afterStale c chart gh).calls
        else (afterStale c chart gh).calls ++ [Call.deleteTeam g.GetID]) ∧
      ((ghm.syncResult = some { r1 with removedTeams := r1.removedTeams ++ [g] } ∧
          (gh.dry = true ∨ c.DeleteTeam (afterStale c chart gh).calls g.GetID = none)) ∨
        (ghm.syncResult = some r1 ∧ gh.dry = false ∧
          (c.DeleteTeam (afterStale c chart gh).calls g.GetID).isSome)) := by
  obtain ⟨r1, hcfg1, _, hs1, _⟩ := afterStale_facts c chart gh
  have hdry1 : (afterStale c chart gh).dry = gh.dry := hcfg1.1
  obtain ⟨ghm, hrun, _, _, hcalls, hcase⟩ := removeTeam_spec c g (afterStale c chart gh) r1 hs1
  refine ⟨r1, ghm, hs1, ?_, by rw [hcalls, hdry1], ?_⟩
  · rw [afterRoots, resetRoots_first c chart.Teams _ r g hfirst hpresent, hrun]
  · rw [hdry1] at hcase
    rcases hcase with ⟨h1, _, h3⟩ | ⟨h1, _, h3, h4⟩
    · exact Or.inl ⟨h1, h3⟩
    · exact Or.inr ⟨h1, h3, h4⟩

/-- C4, amended. The root-reset rule covers the first root team of the chart: when the
platform-team name of the first chart team with an empty `ParentID` is bound in the index
after the stale-team loop, `SyncTeams` hands the bound platform team to `removeTeam` and
empties the index.  When the run is not dry a delete call is issued for that team, after
the calls of the stale-team loop; when the run is dry or that delete call does not fail,
`removedTeams` of the result is the list left by the stale-team loop followed by that team,
and in every case it holds no other team beyond that list — no other root team is
removed. -/
theorem root_reset_first_root (c : Client) (range : MapRange) (fuel : Nat) (chart : OrgChart)
    (gh : GithubState) (r : Team) (g : GhTeam)
    (hfirst : chart.Teams.find? (fun t => decide (t.ParentID = "")) = some r)
    (hpresent : mget (afterStale c chart gh).teams r.Github = some g) :
    (afterRoots c chart gh).teams = [] ∧
    (gh.dry = false →
      (afterRoots c chart gh).calls =
        (afterStale c chart gh).calls ++ [Call.deleteTeam g.GetID] ∧
      Call.deleteTeam g.GetID ∈ (SyncTeams c range fuel chart gh).2.calls) ∧
    (∃ r1 res, (afterStale c chart gh).syncResult = some r1 ∧
      (SyncTeams c range fuel chart gh).2.syncResult = some res ∧
      (res.removedTeams = r1.removedTeams ++ [g] ∨ res.removedTeams = r1.removedTeams) ∧
      ((gh.dry = true ∨ c.DeleteTeam (afterStale c chart gh).calls g.GetID = none) →
        res.removedTeams = r1.removedTeams ++ [g])) := by
  obtain ⟨r1, ghm, hs1, hroots, hcalls, hcase⟩ := afterRoots_first c chart gh r g hfirst hpresent
  obtain ⟨r3, d1, d2, new, hs3, hfin, _⟩ := SyncTeams_after_creation c range fuel chart gh
  have hstep := creation_step c fuel chart gh
  have hs3' : ghm.syncResult = some r3 := by
    have := hstep.2.1
    rw [hs3, hroots] at this
    exact this.symm
  have hres : (SyncTeams c range fuel chart gh).2.syncResult =
      some (moreMaintainer (moreMembership r3 d1) d2) := by rw [hfin]; rfl
  refine ⟨by rw [hroots], ?_, r1, _, hs1, hres, ?_, ?_⟩
  · intro hd
    have h0 : (afterRoots c chart gh).calls =
        (afterStale c chart gh).calls ++ [Call.deleteTeam g.GetID] := by
      rw [hroots]
      show ghm.calls = _
      rw [hcalls, hd]
      simp
    have h1 : Call.deleteTeam g.GetID ∈ (afterRoots c chart gh).calls := by
      rw [h0]
      simp
    have h2 := callsAdded_mem hstep.2.2.2.1 h1
    refine ⟨h0, ?_⟩
    rw [hfin]
    exact List.mem_append_left _ h2
  · rcases hcase with ⟨h1, _⟩ | ⟨h1, _, _⟩
    · rw [hs3'] at h1
      cases h1
      exact Or.inl rfl
    · rw [hs3'] at h1
      cases h1
      exact Or.inr rfl
  · intro hor
    rcases hcase with ⟨h1, _⟩ | ⟨h1, h3, h4⟩
    · rw [hs3'] at h1
      cases h1
      rfl
    · exfalso
      rcases hor with hd | hall
      · rw [hd] at h3; cases h3
      · rw [hall] at h4; cases h4

/-- C4 (amended) at the two-root chart on a live run with a platform that refuses every
delete but one made before any other call: the delete call for the first root's platform
team is the first call of the run, it does not fail, the team is removed and the index
emptied. -/
theorem root_reset_first_root_witness :
    flakyDeleteClient.DeleteTeam [Call.deleteTeam 1] 1 = some "delete refused" ∧
    (afterRoots flakyDeleteClient twoRootChart (twoRootState false)).teams = [] ∧
    ∃ r1 res,
      (afterStale flakyDeleteClient twoRootChart (twoRootState false)).syncResult = some r1 ∧
      (SyncTeams flakyDeleteClient sampleRange 3 twoRootChart
        (twoRootState false)).2.syncResult = some res ∧
      res.removedTeams = r1.removedTeams ++ [rootGhTeam] :=
  have h := root_reset_first_root flakyDeleteClient sampleRange 3 twoRootChart
    (twoRootState false) plainRoot rootGhTeam (by decide) (by decide)
  ⟨by decide, h.1, by
    obtain ⟨r1, res, h1, h2, _, h4⟩ := h.2.2
    exact ⟨r1, res, h1, h2, h4 (Or.inr (by decide))⟩⟩

theorem find?_of_filter_cons {α : Type} (p : α → Bool) (r : α) (rest : List α) :
    ∀ l : List α, l.filter p = r :: rest → l.find? p = some r := by
  intro l
  induction l with
  | nil => intro h; simp at h
  | cons x l ih =>
    intro h
    by_cases hx : p x = true
    · simp only [List.filter_cons, hx, if_true, List.cons.injEq] at h
      obtain ⟨h1, _⟩ := h
      subst h1
      simp [List.find?, hx]
    · simp only [List.filter_cons, hx, if_false] at h
      simp only [List.find?, hx]
      exact ih h

theorem teamsNotInGithub_empty (chart : OrgChart) (gh : GithubState) (h : gh.teams = []) :
    teamsNotInGithub chart gh = chart.Teams := by
  rw [teamsNotInGithub_eq, h]
  simp [ghNameFound]

/-- The stale-team loop leaves the binding of every chart team's name as it was. -/
theorem afterStale_chart_name (c : Client) (chart : OrgChart) (gh : GithubState) (t : Team)
    (ht : t ∈ chart.Teams) :
    mget (afterStale c chart gh).teams t.Github = mget gh.teams t.Github := by
  obtain ⟨_, _, _, _, _, _, _, hkeep, _⟩ := afterStale_facts c chart gh
  apply hkeep
  intro g hg he
  rw [mem_githubTeamsNotInOrgchart] at hg
  exact hg.2 ⟨t, ht, he.symm⟩

theorem planEmployees_returns (chart : OrgChart) (l : List Employee) :
    ∀ (plan : List (GhTeam × TeamMembershipSync)) (gh : GithubState),
      (planEmployees chart l plan gh).1 ≠ Outcome.overflow := by
  induction l with
  | nil => intro plan gh; simp [planEmployees]
  | cons e l ih =>
    intro plan gh
    unfold planEmployees
    repeat' split
    all_goals first | exact ih _ _ | simp

theorem planTeams_returns (chart : OrgChart) (l : List Team) :
    ∀ (plan : List (GhTeam × TeamMembershipSync)) (gh : GithubState),
      (planTeams chart l plan gh).1 ≠ Outcome.overflow := by
  induction l with
  | nil => intro plan gh; simp [planTeams]
  | cons t l ih =>
    intro plan gh
    unfold planTeams
    split
    · simp
    · simp only []
      repeat' split
      all_goals first | exact ih _ _ | simp

theorem teamMembersSyncData_returns (chart : OrgChart) (gh : GithubState) :
    (teamMembersSyncData chart gh).1 ≠ Outcome.overflow := by
  unfold teamMembersSyncData
  have h1 := planEmployees_returns chart chart.Employees [] gh
  rcases h : planEmployees chart chart.Employees [] gh with ⟨o, gh1⟩
  rw [h] at h1
  cases o with
  | ok p => exact planTeams_returns chart chart.Teams p gh1
  | error e => simp
  | nilDeref => simp
  | overflow => exact absurd rfl h1

theorem grantAll_returns (c : Client) (teamID : Int) (role : Option String)
    (users : List String) :
    ∀ gh : GithubState, (grantAll c teamID role users gh).1 ≠ Outcome.overflow := by
  induction users with
  | nil => intro gh; simp [grantAll]
  | cons u us ih =>
    intro gh
    unfold grantAll
    simp only []
    split
    · simp
    · exact ih _

theorem applyPlan_returns (c : Client) (l : List (GhTeam × TeamMembershipSync)) :
    ∀ gh : GithubState, (applyPlan c l gh).1 ≠ Outcome.overflow := by
  induction l with
  | nil => intro gh; simp [applyPlan]
  | cons e l ih =>
    intro gh
    obtain ⟨team, m⟩ := e
    unfold applyPlan
    have h1 : (syncTeamMembers c team m.Members m.Maintainers gh).1 ≠ Outcome.overflow := by
      unfold syncTeamMembers
      split
      · simp
      · have h2 := grantAll_returns c team.GetID none m.Members gh
        rcases h : grantAll c team.GetID none m.Members gh with ⟨o, gh1⟩
        rw [h] at h2
        cases o with
        | ok u => exact grantAll_returns c team.GetID (some "maintainer") m.Maintainers gh1
        | error e => simp
        | nilDeref => simp
        | overflow => exact absurd rfl h2
    rcases h : syncTeamMembers c team m.Members m.Maintainers gh with ⟨o, gh1⟩
    rw [h] at h1
    cases o with
    | ok u => exact ih gh1
    | error e => simp
    | nilDeref => simp
    | overflow => exact absurd rfl h1

/-- The method `SyncTeams` returns whenever its creation loop does. -/
theorem SyncTeams_returns (c : Client) (range : MapRange) (fuel : Nat) (chart : OrgChart)
    (gh : GithubState) (h : (creation c fuel chart gh).1 ≠ Outcome.overflow) :
    (SyncTeams c range fuel chart gh).1 ≠ Outcome.overflow := by
  rw [SyncTeams_eq]
  rcases h3 : (creation c fuel chart gh).1 with u | e | _ | _
  · have h4 : (planning c fuel chart gh).1 ≠ Outcome.overflow := teamMembersSyncData_returns _ _
    rcases h5 : (planning c fuel chart gh).1 with p | e | _ | _
    · exact applyPlan_returns c _ _
    · simp
    · simp
    · exact absurd h5 h4
  · simp
  · simp
  · exact absurd h3 h

theorem sampleClient_echoes : Echoes sampleClient :=
  ⟨fun _ _ _ _ h => by cases h; rfl, fun _ _ _ _ h => by cases h; rfl⟩

theorem sampleClient_creates : CreatesSucceed sampleClient :=
  ⟨fun _ _ _ => ⟨_, rfl⟩, fun _ _ _ => ⟨_, rfl⟩⟩

/-- The team `createOrEdit` returns is recorded in the index it leaves. -/
theorem createOrEdit_recorded (c : Client) (t : Team) (pid : Option Int) (gh : GithubState)
    (p : GhTeam) (h : (createOrEdit c t pid gh).1 = Outcome.ok p) :
    Recorded c (createOrEdit c t pid gh).2 p := by
  rcases createOrEdit_cases c t pid gh with ⟨pre, hg, he, _⟩ | ⟨pre, q, err, _, _, _, _, _, he⟩ |
    ⟨pre, q, ans, hg, _, _, _, hans, he⟩ | ⟨_, _, he⟩ | ⟨err, _, _, _, he⟩ | ⟨ans, _, _, _, he⟩
  · rw [he] at h ⊢
    cases h
    exact Or.inl ⟨_, hg⟩
  · rw [he] at h; cases h
  · rw [he] at h ⊢
    cases h
    refine Or.inr ⟨gh.calls, newTeamFor t pid, ans, { ans with addr := gh.heap }, rfl, hans, ?_, rfl⟩
    simp [mget_mset]
  · rw [he] at h ⊢
    cases h
    exact Or.inl ⟨t.Github, by simp [mget_mset]⟩
  · rw [he] at h; cases h
  · rw [he] at h ⊢
    cases h
    exact Or.inl ⟨ans.GetName, by simp [mget_mset]⟩

/-- The calls of `createOrEdit`: none, or one create or edit call carrying the request for
the team with the given parent ID. -/
theorem createOrEdit_calls (c : Client) (t : Team) (pid : Option Int) (gh : GithubState) :
    (createOrEdit c t pid gh).2.calls = gh.calls ∨
    (createOrEdit c t pid gh).2.calls =
      gh.calls ++ [Call.createTeam gh.organisation (newTeamFor t pid)] ∨
    ∃ id, (createOrEdit c t pid gh).2.calls = gh.calls ++ [Call.editTeam id (newTeamFor t pid)] := by
  rcases createOrEdit_cases c t pid gh with ⟨pre, _, he, _⟩ | ⟨pre, q, err, _, _, _, _, _, he⟩ |
    ⟨pre, q, ans, _, _, _, _, _, he⟩ | ⟨_, _, he⟩ | ⟨err, _, _, _, he⟩ | ⟨ans, _, _, _, he⟩
  · rw [he]; exact Or.inl rfl
  · rw [he]; exact Or.inr (Or.inr ⟨_, rfl⟩)
  · rw [he]; exact Or.inr (Or.inr ⟨_, rfl⟩)
  · rw [he]; exact Or.inl rfl
  · rw [he]; exact Or.inr (Or.inl rfl)
  · rw [he]; exact Or.inr (Or.inl rfl)

/-- The team `createTeamByIDIfNotExists` returns is recorded in the index it leaves. -/
theorem createTeamByIDIfNotExists_recorded (c : Client) (fuel : Nat) (teamID : String)
    (gh : GithubState) (p : GhTeam)
    (h : (createTeamByIDIfNotExists c fuel teamID gh).1 = Outcome.ok p) :
    Recorded c (createTeamByIDIfNotExists c fuel teamID gh).2 p := by
  cases fuel with
  | zero => simp [createTeamByIDIfNotExists] at h
  | succ n =>
    rcases hf : findOrgTeam gh.orgTeams teamID with _ | t
    · rw [createTeamByIDIfNotExists_none c n teamID gh hf] at h
      cases h
    · rw [createTeamByIDIfNotExists_succ c n teamID gh t hf] at h ⊢
      by_cases hp : t.ParentID = ""
      · simp only [hp, if_true] at h ⊢
        exact createOrEdit_recorded c t none gh p h
      · simp only [hp, if_false] at h ⊢
        rcases ho : (createTeamByIDIfNotExists c n t.ParentID gh).1 with q | e | _ | _
        · simp only [ho] at h ⊢
          exact createOrEdit_recorded c t q.ID _ p h
        all_goals (rw [ho] at h; cases h)

/-- On an empty index the two removal loops of `SyncTeams` do nothing. -/
theorem afterRoots_of_empty (c : Client) (chart : OrgChart) (gh : GithubState)
    (hempty : gh.teams = []) : afterRoots c chart gh = syncStart chart gh := by
  have h1 : afterStale c chart gh = syncStart chart gh := by
    simp [afterStale, githubTeamsNotInOrgchart, syncStart, hempty, githubTeamsNotInOrgchartLoop,
      removeStale]
  rw [afterRoots, h1, resetRoots_empty c chart.Teams _ (by simp [syncStart, hempty])]

/-- Scenario A, creation phase: root and child on an empty platform, in either chart order. -/
theorem scenarioA_creation (c : Client) (n : Nat) (chart : OrgChart) (gh : GithubState)
    (root child : Team)
    (hteams : chart.Teams = [root, child] ∨ chart.Teams = [child, root])
    (hr : root.ParentID = "") (hc : child.ParentID = root.ID) (hcp : child.ParentID ≠ "")
    (hne : root.ID ≠ child.ID) (hname : root.Github ≠ child.Github)
    (hempty : gh.teams = []) (hlog : gh.calls = []) (hlive : gh.dry = false)
    (hplat : ∀ log org req, ∃ ans, c.CreateTeam log org req = .ok ans ∧
      ans.Name = some req.Name ∧ (req.ParentTeamID = none → ans.Parent = none)) :
    ∃ ans, c.CreateTeam [] gh.organisation (newTeamFor root none) = .ok ans ∧
      (creation c (n + 2) chart gh).1 = Outcome.ok () ∧
      (creation c (n + 2) chart gh).2.calls =
        [Call.createTeam gh.organisation (newTeamFor root none),
         Call.createTeam gh.organisation (newTeamFor child ans.ID)] := by
  obtain ⟨ans, hans, hansn, hansp⟩ := hplat [] gh.organisation (newTeamFor root none)
  obtain ⟨ans2, hans2, hansn2, _⟩ := hplat [Call.createTeam gh.organisation (newTeamFor root none)]
    gh.organisation (newTeamFor child ans.ID)
  have hansp' : ans.Parent = none := hansp rfl
  have hn1 : ans.GetName = root.Github := by simp [GhTeam.GetName, hansn, newTeamFor]
  have hn2 : ans2.GetName = child.Github := by simp [GhTeam.GetName, hansn2, newTeamFor]
  have hne' : ¬ child.ID = root.ID := fun e => hne e.symm
  have hname' : ¬ child.Github = root.Github := fun e => hname e.symm
  have hcp' : ¬ root.ID = "" := by rw [← hc]; exact hcp
  refine ⟨ans, hans, ?_⟩
  have hcre : creation c (n + 2) chart gh =
      createMissing c (n + 2) chart.Teams (syncStart chart gh) := by
    rw [creation, afterRoots_of_empty c chart gh hempty,
      teamsNotInGithub_empty _ _ (by simp [syncStart, hempty])]
  rw [hcre]
  simp only [newTeamFor] at hans hans2 hansn hansn2
  rcases hteams with ht | ht
  · simp [ht, createMissing, createTeamByIDIfNotExists, syncStart, findOrgTeam, hne, hne', hr, hc,
      hcp', createOrEdit, hempty, hlog, hlive, mget, mset, hans, hans2, newTeamFor, hn1, hn2,
      hansp', hname, hname', GhTeam.GetName, hansn, hansn2]
  · simp [ht, createMissing, createTeamByIDIfNotExists, syncStart, findOrgTeam, hne, hne', hr, hc,
      hcp', createOrEdit, hempty, hlog, hlive, mget, mset, hans, hans2, newTeamFor, hn1, hn2,
      hansp', hname, hname', GhTeam.GetName, hansn, hansn2]

/-- C2. Parent-before-child.  An invocation of `createTeamByIDIfNotExists` for a team with a
non-empty `ParentID` first runs the invocation for the parent, whose calls extend the log.
When that invocation fails, the state is left as the parent's invocation left it and no
call is issued for the child.  When it returns the platform team `p`, then `p` is recorded
in the index at that moment (as a value of the index, or, if `p` was edited by the last
call, through the platform's answer to that edit), and the calls of the child's invocation
are the calls of the parent's invocation followed by at most one call, a create or an edit
for the child that passes `p.ID` as the parent ID.
Scenario A: for a chart made of a root and a child of it, in either order, with different
IDs and platform-team names, on an empty platform with an empty log, live, when create
calls succeed, echo the requested name and record no parent if none was requested, the log
`SyncTeams` leaves starts with the create call for the root without parent followed by the
create call for the child with the ID the platform returned for the root, and holds
nothing else but `AddTeamMembership` calls. -/
theorem parent_before_child (c : Client) :
    (∀ (fuel : Nat) (gh : GithubState) (teamID : String) (t : Team),
      findOrgTeam gh.orgTeams teamID = some t → t.ParentID ≠ "" →
      (∃ calls, (createTeamByIDIfNotExists c fuel t.ParentID gh).2.calls = gh.calls ++ calls) ∧
      (∀ p, (createTeamByIDIfNotExists c fuel t.ParentID gh).1 = Outcome.ok p →
        Recorded c (createTeamByIDIfNotExists c fuel t.ParentID gh).2 p ∧
        ((createTeamByIDIfNotExists c (fuel + 1) teamID gh).2.calls =
            (createTeamByIDIfNotExists c fuel t.ParentID gh).2.calls ∨
          (createTeamByIDIfNotExists c (fuel + 1) teamID gh).2.calls =
            (createTeamByIDIfNotExists c fuel t.ParentID gh).2.calls ++
              [Call.createTeam gh.organisation (newTeamFor t p.ID)] ∨
          ∃ id, (createTeamByIDIfNotExists c (fuel + 1) teamID gh).2.calls =
            (createTeamByIDIfNotExists c fuel t.ParentID gh).2.calls ++
              [Call.editTeam id (newTeamFor t p.ID)])) ∧
      ((∀ p, (createTeamByIDIfNotExists c fuel t.ParentID gh).1 ≠ Outcome.ok p) →
        (createTeamByIDIfNotExists c (fuel + 1) teamID gh).2 =
            (createTeamByIDIfNotExists c fuel t.ParentID gh).2 ∧
          ∀ p, (createTeamByIDIfNotExists c (fuel + 1) teamID gh).1 ≠ Outcome.ok p)) ∧
    (∀ (range : MapRange) (n : Nat) (chart : OrgChart) (gh : GithubState) (root child : Team),
      (chart.Teams = [root, child] ∨ chart.Teams = [child, root]) →
      root.ParentID = "" → child.ParentID = root.ID → child.ParentID ≠ "" →
      root.ID ≠ child.ID → root.Github ≠ child.Github →
      gh.teams = [] → gh.calls = [] → gh.dry = false →
      (∀ log org req, ∃ ans, c.CreateTeam log org req = .ok ans ∧
        ans.Name = some req.Name ∧ (req.ParentTeamID = none → ans.Parent = none)) →
      ∃ ans new, c.CreateTeam [] gh.organisation (newTeamFor root none) = .ok ans ∧
        (SyncTeams c range (n + 2) chart gh).2.calls =
          [Call.createTeam gh.organisation (newTeamFor root none),
           Call.createTeam gh.organisation (newTeamFor child ans.ID)] ++ new ∧
        ∀ call ∈ new, ∃ id user role, call = Call.addTeamMembership id user role) := by
  refine ⟨?_, ?_⟩
  · intro fuel gh teamID t hf hp
    have hstep := createTeamByIDIfNotExists_step c fuel t.ParentID gh
    have horg : (createTeamByIDIfNotExists c fuel t.ParentID gh).2.organisation =
        gh.organisation := hstep.1.2.2.1
    have hsucc := createTeamByIDIfNotExists_succ c fuel teamID gh t hf
    simp only [hp, if_false] at hsucc
    refine ⟨?_, ?_, ?_⟩
    · obtain ⟨new, hnew, _⟩ := hstep.2.2.2.1
      exact ⟨new, hnew⟩
    · intro p hpar
      refine ⟨createTeamByIDIfNotExists_recorded c fuel t.ParentID gh p hpar, ?_⟩
      rw [hsucc, hpar]
      simp only []
      rw [← horg]
      exact createOrEdit_calls c t p.ID _
    · intro hno
      rw [hsucc]
      rcases ho : (createTeamByIDIfNotExists c fuel t.ParentID gh).1 with q | e | _ | _
      · exact absurd ho (hno q)
      all_goals exact ⟨rfl, by simp⟩
  · intro range n chart gh root child hteams hr hc hcp hne hname hempty hlog hlive hplat
    obtain ⟨ans, hans, _, hcalls⟩ :=
      scenarioA_creation c n chart gh root child hteams hr hc hcp hne hname hempty hlog hlive hplat
    obtain ⟨r3, d1, d2, new, _, hfin, hnew⟩ := SyncTeams_after_creation c range (n + 2) chart gh
    refine ⟨ans, new, hans, ?_, hnew⟩
    rw [hfin]
    show (creation c (n + 2) chart gh).2.calls ++ new = _
    rw [hcalls]

/-- C2 at the chart that lists the child before the root, on the sample platform: the
hypotheses of Scenario A hold there. -/
theorem parent_before_child_witness :
    ∃ ans new,
      sampleClient.CreateTeam [] (emptyState false).organisation (newTeamFor plainRoot none) =
        .ok ans ∧
      (SyncTeams sampleClient sampleRange 2 childFirstChart (emptyState false)).2.calls =
        [Call.createTeam (emptyState false).organisation (newTeamFor plainRoot none),
         Call.createTeam (emptyState false).organisation (newTeamFor plainChild ans.ID)] ++ new ∧
      ∀ call ∈ new, ∃ id user role, call = Call.addTeamMembership id user role :=
  (parent_before_child sampleClient).2 sampleRange 0 childFirstChart (emptyState false)
    plainRoot plainChild (Or.inr rfl) rfl rfl (by decide) (by decide) (by decide) rfl rfl rfl
    (fun _ _ req => ⟨_, rfl, rfl, fun h => by simp [h]⟩)

/-- C3 at the failing input.  On an empty live platform, a first call for the child creates
the root and then the child, and the platform team of the child records its parent `org-root`.
A second call for the child on the state the first one left returns the same platform team
but issues an `EditTeam` call: the log grows, because the recorded parent's name `org-root`
is compared with the chart ID `root`. -/
theorem second_call_issues_edit :
    (∃ p, (createTeamByIDIfNotExists namingClient 3 "child" idempotenceStart).1 = Outcome.ok p ∧
      p.Parent = some { ID := some 100, Name := some "org-root" } ∧
      (createTeamByIDIfNotExists namingClient 3 "child"
        (createTeamByIDIfNotExists namingClient 3 "child" idempotenceStart).2).1 = Outcome.ok p) ∧
    (createTeamByIDIfNotExists namingClient 3 "child" idempotenceStart).2.calls =
      [Call.createTeam "acme" (newTeamFor plainRoot none),
       Call.createTeam "acme" (newTeamFor plainChild (some 100))] ∧
    (createTeamByIDIfNotExists namingClient 3 "child"
      (createTeamByIDIfNotExists namingClient 3 "child" idempotenceStart).2).2.calls =
      [Call.createTeam "acme" (newTeamFor plainRoot none),
       Call.createTeam "acme" (newTeamFor plainChild (some 100)),
       Call.editTeam 101 (newTeamFor plainChild (some 100))] := by
  refine ⟨⟨_, rfl, ?_, ?_⟩, ?_, ?_⟩ <;> decide

/-! ## Parent chains -/

theorem findOrgTeam_none {ts : List Team} {id : String} (h : findOrgTeam ts id = none) :
    ∀ t ∈ ts, t.ID ≠ id := by
  intro t ht hid
  obtain ⟨u, _, _, hr⟩ := (findOrgTeam_foldl id ts none).2.1 ⟨t, ht, hid⟩
  rw [findOrgTeam] at h
  rw [h] at hr
  cases hr

theorem findOrgTeam_eq_none {ts : List Team} {id : String} (h : ∀ t ∈ ts, t.ID ≠ id) :
    findOrgTeam ts id = none :=
  (findOrgTeam_foldl id ts none).2.2 h

/-- A chain that gets to an unknown ID within `n` teams gets to the same one within more. -/
theorem unknownAncestor_mono (teams : List Team) (n : Nat) :
    ∀ (id m : String), unknownAncestor teams n id = some m →
      ∀ k, unknownAncestor teams (n + k) id = some m := by
  induction n with
  | zero => intro id m h; simp [unknownAncestor] at h
  | succ n ih =>
    intro id m h k
    have e : n + 1 + k = (n + k) + 1 := by omega
    rw [e]
    simp only [unknownAncestor] at h ⊢
    rcases hf : findOrgTeam teams id with _ | t
    · simpa [hf] using h
    · simp only [hf] at h ⊢
      by_cases hp : t.ParentID = ""
      · simp [hp] at h
      · simp only [hp, if_false] at h ⊢
        exact ih _ _ h k

theorem unknownAncestor_unknown (teams : List Team) (n : Nat) :
    ∀ (id m : String), unknownAncestor teams n id = some m → ∀ t ∈ teams, t.ID ≠ m := by
  induction n with
  | zero => intro id m h; simp [unknownAncestor] at h
  | succ n ih =>
    intro id m h
    simp only [unknownAncestor] at h
    rcases hf : findOrgTeam teams id with _ | t
    · simp only [hf, Option.some.injEq] at h
      subst h
      exact findOrgTeam_none hf
    · simp only [hf] at h
      by_cases hp : t.ParentID = ""
      · simp [hp] at h
      · simp only [hp, if_false] at h
        exact ih _ _ h

/-- A chain that gets to an unknown ID makes `createTeamByIDIfNotExists` fail with the
not-found error for that ID, in the state it was called in. -/
theorem createTeamByIDIfNotExists_unknown (c : Client) (n : Nat) :
    ∀ (id m : String) (gh : GithubState), unknownAncestor gh.orgTeams n id = some m →
      createTeamByIDIfNotExists c n id gh =
        (Outcome.error ("could not find org team " ++ m ++ " for creation"), gh) := by
  induction n with
  | zero => intro id m gh h; simp [unknownAncestor] at h
  | succ n ih =>
    intro id m gh h
    simp only [unknownAncestor] at h
    rcases hf : findOrgTeam gh.orgTeams id with _ | t
    · simp only [hf, Option.some.injEq] at h
      subst h
      exact createTeamByIDIfNotExists_none c n id gh hf
    · simp only [hf] at h
      by_cases hp : t.ParentID = ""
      · simp [hp] at h
      · simp only [hp, if_false] at h
        rw [createTeamByIDIfNotExists_succ c n id gh t hf, if_neg hp, ih _ _ gh h]

/-- C14. Unknown team IDs fail atomically.  When `teamID` is the ID of no chart team,
`createTeamByIDIfNotExists` returns the not-found error for `teamID`; when following the
non-empty parent IDs from `teamID` gets, within the recursion depth, to an ID that is the
ID of no chart team, it returns the not-found error for that ID, at that depth and at
every larger one.  In both cases the state is the one it was called in: no call has been
issued and the team index is unchanged. -/
theorem unknown_team_fails_atomically (c : Client) (gh : GithubState) (teamID : String) :
    (∀ n, (∀ t ∈ gh.orgTeams, t.ID ≠ teamID) →
      createTeamByIDIfNotExists c (n + 1) teamID gh =
        (Outcome.error ("could not find org team " ++ teamID ++ " for creation"), gh)) ∧
    (∀ n missing, unknownAncestor gh.orgTeams n teamID = some missing →
      (∀ t ∈ gh.orgTeams, t.ID ≠ missing) ∧
      ∀ k, createTeamByIDIfNotExists c (n + k) teamID gh =
        (Outcome.error ("could not find org team " ++ missing ++ " for creation"), gh)) := by
  refine ⟨?_, ?_⟩
  · intro n h
    exact createTeamByIDIfNotExists_none c n teamID gh (findOrgTeam_eq_none h)
  · intro n missing h
    refine ⟨unknownAncestor_unknown _ n _ _ h, fun k => ?_⟩
    exact createTeamByIDIfNotExists_unknown c (n + k) _ _ gh (unknownAncestor_mono _ n _ _ h k)

/-- C14 at a team whose parent is unknown: the call fails with the not-found error for the
parent and leaves the state as it was. -/
theorem unknown_team_fails_atomically_witness :
    unknownAncestor chainStart.orgTeams 2 "orphan" = some "nowhere" ∧
    createTeamByIDIfNotExists sampleClient 5 "orphan" chainStart =
      (Outcome.error ("could not find org team " ++ "nowhere" ++ " for creation"), chainStart) :=
  ⟨by decide,
   ((unknown_team_fails_atomically sampleClient chainStart "orphan").2 2 "nowhere"
      (by decide)).2 3⟩

theorem chainEnds_mono (teams : List Team) (n : Nat) :
    ∀ id, chainEnds teams n id = true → ∀ k, chainEnds teams (n + k) id = true := by
  induction n with
  | zero => intro id h; simp [chainEnds] at h
  | succ n ih =>
    intro id h k
    have e : n + 1 + k = (n + k) + 1 := by omega
    rw [e]
    simp only [chainEnds] at h ⊢
    rcases hf : findOrgTeam teams id with _ | t
    · rfl
    · simp only [hf] at h ⊢
      by_cases hp : t.ParentID = ""
      · simp [hp]
      · simp only [hp, if_false] at h ⊢
        exact ih _ h k

/-- The recursion returns (with a team or an error) when the parent chain ends within the
recursion depth. -/
theorem createTeamByIDIfNotExists_returns (c : Client) (n : Nat) :
    ∀ (id : String) (gh : GithubState), chainEnds gh.orgTeams n id = true →
      (createTeamByIDIfNotExists c n id gh).1 ≠ Outcome.overflow := by
  have hce : ∀ (t : Team) (pid : Option Int) (gh : GithubState),
      (createOrEdit c t pid gh).1 ≠ Outcome.overflow := by
    intro t pid gh
    rcases createOrEdit_cases c t pid gh with ⟨pre, _, he, _⟩ | ⟨pre, p, err, _, _, _, _, _, he⟩ |
      ⟨pre, p, ans, _, _, _, _, _, he⟩ | ⟨_, _, he⟩ | ⟨err, _, _, _, he⟩ | ⟨ans, _, _, _, he⟩ <;>
    rw [he] <;> simp
  induction n with
  | zero => intro id gh h; simp [chainEnds] at h
  | succ n ih =>
    intro id gh h
    simp only [chainEnds] at h
    rcases hf : findOrgTeam gh.orgTeams id with _ | t
    · rw [createTeamByIDIfNotExists_none c n id gh hf]; simp
    · simp only [hf] at h
      rw [createTeamByIDIfNotExists_succ c n id gh t hf]
      by_cases hp : t.ParentID = ""
      · simp only [hp, if_true]
        exact hce _ _ _
      · simp only [hp, if_false] at h ⊢
        have hrec := ih t.ParentID gh h
        rcases ho : (createTeamByIDIfNotExists c n t.ParentID gh).1 with p | e | _ | _
        · exact hce _ _ _
        · simp
        · simp
        · exact absurd ho hrec

/-- The recursion runs out of every depth within which the parent chain does not end, before
any call and any change of the state. -/
theorem createTeamByIDIfNotExists_overflow (c : Client) (n : Nat) :
    ∀ (id : String) (gh : GithubState), chainEnds gh.orgTeams n id = false →
      createTeamByIDIfNotExists c n id gh = (Outcome.overflow, gh) := by
  induction n with
  | zero => intro id gh _; rfl
  | succ n ih =>
    intro id gh h
    simp only [chainEnds] at h
    rcases hf : findOrgTeam gh.orgTeams id with _ | t
    · simp [hf] at h
    · simp only [hf] at h
      by_cases hp : t.ParentID = ""
      · simp [hp] at h
      · simp only [hp, if_false] at h
        rw [createTeamByIDIfNotExists_succ c n id gh t hf, if_neg hp, ih _ gh h]

/-- A chain that ends within `n` teams and has a `k`-th ancestor ends within `n - k` teams
from that ancestor, and `k < n`. -/
theorem chainEnds_ancestor (teams : List Team) (k : Nat) :
    ∀ (n : Nat) (id id1 : String), ancestorID teams k id = some id1 →
      chainEnds teams n id = true → k < n ∧ chainEnds teams (n - k) id1 = true := by
  induction k with
  | zero =>
    intro n id id1 ha hc
    simp only [ancestorID, Option.some.injEq] at ha
    subst ha
    refine ⟨?_, by simpa using hc⟩
    cases n with
    | zero => simp [chainEnds] at hc
    | succ n => omega
  | succ k ih =>
    intro n id id1 ha hc
    cases n with
    | zero => simp [chainEnds] at hc
    | succ n =>
      simp only [ancestorID] at ha
      simp only [chainEnds] at hc
      rcases hf : findOrgTeam teams id with _ | t
      · simp [hf] at ha
      · simp only [hf] at ha hc
        by_cases hp : t.ParentID = ""
        · simp [hp] at ha
        · simp only [hp, if_false] at ha hc
          obtain ⟨h1, h2⟩ := ih n _ _ ha hc
          refine ⟨by omega, ?_⟩
          have e : n + 1 - (k + 1) = n - k := by omega
          rw [e]
          exact h2

/-- The parent chain of a team on a cycle never ends. -/
theorem chainEnds_cycle (teams : List Team) (id : String) (k : Nat) (hk : 0 < k)
    (hcyc : ancestorID teams k id = some id) : ∀ n, chainEnds teams n id = false := by
  intro n
  induction n using Nat.strong_induction_on with
  | _ n ih =>
    rcases hc : chainEnds teams n id with _ | _
    · rfl
    · obtain ⟨h1, h2⟩ := chainEnds_ancestor teams k n id id hcyc hc
      have := ih (n - k) (by omega)
      rw [this] at h2
      cases h2

/-- C16, as stated, fails on a cycle: the team `loop` names itself as its parent, and at no
recursion depth does `createTeamByIDIfNotExists` return for it, neither an error nor a
team. -/
theorem self_parent_never_returns :
    ancestorID chainStart.orgTeams 1 "loop" = some "loop" ∧
    ¬ ∃ fuel, (createTeamByIDIfNotExists sampleClient fuel "loop" chainStart).1 ≠
      Outcome.overflow := by
  refine ⟨by decide, ?_⟩
  rintro ⟨fuel, h⟩
  apply h
  rw [createTeamByIDIfNotExists_overflow sampleClient fuel "loop" chainStart
    (chainEnds_cycle _ "loop" 1 (by decide) (by decide) fuel)]

/-- C16, amended. When the parent chain of the team ends within `n` teams, at a root team
or at an ID that is the ID of no chart team, `createTeamByIDIfNotExists` returns (a team
or an error) at recursion depth `n` and at every larger one.  For a team on a cycle of the
parent relation it does not return at any depth: there is no cycle detection, the
recursion runs on before any call is issued, and no error comes back. -/
theorem acyclic_chains_terminate (c : Client) (gh : GithubState) (teamID : String) :
    (∀ n, chainEnds gh.orgTeams n teamID = true →
      ∀ k, (createTeamByIDIfNotExists c (n + k) teamID gh).1 ≠ Outcome.overflow) ∧
    (∀ k, 0 < k → ancestorID gh.orgTeams k teamID = some teamID →
      ∀ fuel, createTeamByIDIfNotExists c fuel teamID gh = (Outcome.overflow, gh)) := by
  refine ⟨?_, ?_⟩
  · intro n h k
    exact createTeamByIDIfNotExists_returns c (n + k) teamID gh (chainEnds_mono _ n _ h k)
  · intro k hk hcyc fuel
    exact createTeamByIDIfNotExists_overflow c fuel teamID gh
      (chainEnds_cycle _ teamID k hk hcyc fuel)

/-- C16 (amended) at the child of the sample root: its chain ends at the root, and the call
returns. -/
theorem acyclic_chains_terminate_witness :
    chainEnds chainStart.orgTeams 2 "child" = true ∧
    (createTeamByIDIfNotExists sampleClient 2 "child" chainStart).1 ≠ Outcome.overflow :=
  ⟨by decide, (acyclic_chains_terminate sampleClient chainStart "child").1 2 (by decide) 0⟩

/-! ## Existing teams -/

/-- The method `createTeamByIDIfNotExists` as the parent part followed by `createOrEdit`. -/
theorem createTeamByIDIfNotExists_parent (c : Client) (fuel : Nat) (teamID : String)
    (gh : GithubState) (t : Team) (hf : findOrgTeam gh.orgTeams teamID = some t) :
    createTeamByIDIfNotExists c (fuel + 1) teamID gh =
      match (ensureParent c fuel t gh).1 with
      | Outcome.ok pid => createOrEdit c t pid (ensureParent c fuel t gh).2
      | Outcome.error err => (Outcome.error err, (ensureParent c fuel t gh).2)
      | Outcome.nilDeref => (Outcome.nilDeref, (ensureParent c fuel t gh).2)
      | Outcome.overflow => (Outcome.overflow, (ensureParent c fuel t gh).2) := by
  rw [createTeamByIDIfNotExists_succ c fuel teamID gh t hf, ensureParent]
  by_cases hp : t.ParentID = ""
  · simp [hp]
  · simp only [hp, if_false, ne_eq, not_false_eq_true, if_true]
    rcases hrec : createTeamByIDIfNotExists c fuel t.ParentID gh with ⟨o, gh1⟩
    cases o <;> rfl

/-- The parent part is a creation step, and keeps the dry flag. -/
theorem ensureParent_step (c : Client) (fuel : Nat) (t : Team) (gh : GithubState) :
    CreateStep gh (ensureParent c fuel t gh).2 := by
  rw [ensureParent]
  by_cases hp : t.ParentID = ""
  · simp only [hp, ne_eq, not_true_eq_false, if_false]
    exact createStep_refl gh
  · simp only [hp, ne_eq, not_false_eq_true, if_true]
    have h := createTeamByIDIfNotExists_step c fuel t.ParentID gh
    rcases hrec : createTeamByIDIfNotExists c fuel t.ParentID gh with ⟨o, gh1⟩
    rw [hrec] at h
    cases o <;> exact h

/-- What `createOrEdit` does for a team whose name is bound: no create call, at most the
edit call for the bound team; nothing at all when the run is dry or the bound team records
no parent; the bound team is returned unless the edit fails; and no new key is bound when
the run is dry or the platform echoes names. -/
theorem createOrEdit_existing (c : Client) (t : Team) (pid : Option Int) (gh : GithubState)
    (pre : GhTeam) (hpre : mget gh.teams t.Github = some pre) :
    ((createOrEdit c t pid gh).2.calls = gh.calls ∨
      (createOrEdit c t pid gh).2.calls =
        gh.calls ++ [Call.editTeam pre.GetID (newTeamFor t pid)]) ∧
    (gh.dry = true → createOrEdit c t pid gh = (Outcome.ok pre, gh)) ∧
    (pre.Parent = none → createOrEdit c t pid gh = (Outcome.ok pre, gh)) ∧
    ((createOrEdit c t pid gh).1 = Outcome.ok pre ∨
      ∃ err, (createOrEdit c t pid gh).1 = Outcome.error ("editing team: " ++ err)) ∧
    (gh.dry = true ∨ Echoes c →
      ∀ k, (mget (createOrEdit c t pid gh).2.teams k).isSome → (mget gh.teams k).isSome) := by
  rcases createOrEdit_cases c t pid gh with ⟨pre1, hg, he, _⟩ |
    ⟨pre1, p, err, hg, hd, hp, _, _, he⟩ | ⟨pre1, p, ans, hg, hd, hp, _, hans, he⟩ |
    ⟨hg, _, _⟩ | ⟨err, hg, _, _, _⟩ | ⟨ans, hg, _, _, _⟩
  · rw [hpre] at hg; cases hg
    rw [he]
    exact ⟨Or.inl rfl, fun _ => rfl, fun _ => rfl, Or.inl rfl, fun _ k h => h⟩
  · rw [hpre] at hg; cases hg
    rw [he]
    refine ⟨Or.inr rfl, fun h => ?_, fun h => ?_, Or.inr ⟨err, rfl⟩, fun _ k h => h⟩
    · rw [hd] at h; cases h
    · rw [hp] at h; cases h
  · rw [hpre] at hg; cases hg
    rw [he]
    refine ⟨Or.inr rfl, fun h => ?_, fun h => ?_, Or.inl rfl, ?_⟩
    · rw [hd] at h; cases h
    · rw [hp] at h; cases h
    · intro hor k hk
      have hname : ans.GetName = t.Github := by
        rcases hor with h | h
        · rw [hd] at h; cases h
        · have := h.2 _ _ _ _ hans
          simp [GhTeam.GetName, this, newTeamFor]
      simp only [hname, mget_mset] at hk
      by_cases hkk : t.Github = k
      · rw [← hkk, hpre]; rfl
      · simpa [hkk] using hk
  · rw [hpre] at hg; cases hg
  · rw [hpre] at hg; cases hg
  · rw [hpre] at hg; cases hg

/-- C18, as stated, fails when the parent is missing: the child's name is bound in the index
and the root's is not; the call for the child then issues a create call for the root and
binds the root's name. -/
theorem existing_child_creates_parent :
    mget (correctionState false childGhTeam).teams plainChild.Github = some childGhTeam ∧
    mget (correctionState false childGhTeam).teams plainRoot.Github = none ∧
    Call.createTeam "acme" (newTeamFor plainRoot none) ∈
      (createTeamByIDIfNotExists sampleClient 3 "child"
        (correctionState false childGhTeam)).2.calls ∧
    (mget (createTeamByIDIfNotExists sampleClient 3 "child"
        (correctionState false childGhTeam)).2.teams plainRoot.Github).isSome = true := by
  decide

/-- C18, amended. When the platform-team name of the team with the given ID is bound in the
index, `createTeamByIDIfNotExists` still ensures the parent first, as on every call: for a
root team there is nothing to do, for another team the recursive call may create or edit
ancestors and bind their names, and its failure is the failure of the call.  After it, the
name is still bound, no create call is issued for the team itself and at most one edit call,
no new key is bound when the run is dry or the platform echoes names, and the team then
bound to the name is returned unless the edit call fails. -/
theorem existing_team_not_created (c : Client) (fuel : Nat) (gh : GithubState)
    (teamID : String) (t : Team) (hf : findOrgTeam gh.orgTeams teamID = some t)
    (hex : (mget gh.teams t.Github).isSome = true) :
    (t.ParentID = "" → ensureParent c fuel t gh = (Outcome.ok none, gh)) ∧
    (∀ pid gh1, ensureParent c fuel t gh = (Outcome.ok pid, gh1) →
      ∃ pre, mget gh1.teams t.Github = some pre ∧
        ((createTeamByIDIfNotExists c (fuel + 1) teamID gh).1 = Outcome.ok pre ∨
          ∃ err, (createTeamByIDIfNotExists c (fuel + 1) teamID gh).1 =
            Outcome.error ("editing team: " ++ err)) ∧
        ((createTeamByIDIfNotExists c (fuel + 1) teamID gh).2.calls = gh1.calls ∨
          (createTeamByIDIfNotExists c (fuel + 1) teamID gh).2.calls =
            gh1.calls ++ [Call.editTeam pre.GetID (newTeamFor t pid)]) ∧
        (gh.dry = true ∨ Echoes c →
          ∀ k, (mget (createTeamByIDIfNotExists c (fuel + 1) teamID gh).2.teams k).isSome →
            (mget gh1.teams k).isSome)) ∧
    ((∀ pid, (ensureParent c fuel t gh).1 ≠ Outcome.ok pid) →
      (createTeamByIDIfNotExists c (fuel + 1) teamID gh).2 = (ensureParent c fuel t gh).2 ∧
      ∀ p, (createTeamByIDIfNotExists c (fuel + 1) teamID gh).1 ≠ Outcome.ok p) := by
  have hstep := ensureParent_step c fuel t gh
  have hsplit := createTeamByIDIfNotExists_parent c fuel teamID gh t hf
  refine ⟨?_, ?_, ?_⟩
  · intro hp
    simp [ensureParent, hp]
  · intro pid gh1 hpar
    rw [hpar] at hstep hsplit
    simp only at hsplit
    have hb : (mget gh1.teams t.Github).isSome = true := hstep.2.2.2.2.1 _ hex
    obtain ⟨pre, hpre⟩ := Option.isSome_iff_exists.1 hb
    obtain ⟨h1, _, _, h4, h5⟩ := createOrEdit_existing c t pid gh1 pre hpre
    rw [hsplit]
    exact ⟨pre, hpre, h4, h1, fun hor => h5 (by rw [hstep.1.1]; exact hor)⟩
  · intro hno
    rw [hsplit]
    rcases ho : (ensureParent c fuel t gh).1 with pid | e | _ | _
    · exact absurd ho (hno pid)
    all_goals exact ⟨rfl, by simp⟩

/-- C18 (amended) at the child, with both teams on the platform: the child's platform team
is returned. -/
theorem existing_team_not_created_witness :
    ∃ pre, mget (correctionState true looseChildGhTeam).teams plainChild.Github = some pre ∧
      ((createTeamByIDIfNotExists sampleClient 3 "child"
          (correctionState true looseChildGhTeam)).1 = Outcome.ok pre ∨
        ∃ err, (createTeamByIDIfNotExists sampleClient 3 "child"
          (correctionState true looseChildGhTeam)).1 = Outcome.error ("editing team: " ++ err)) :=
  have h := (existing_team_not_created sampleClient 2 (correctionState true looseChildGhTeam)
    "child" plainChild (by decide) (by decide)).2.1 (some 1)
    (correctionState true looseChildGhTeam) (by decide)
  h.imp fun _ hp => ⟨hp.1, hp.2.1⟩

/-! ## Grants -/

theorem untilFailure_append (c : Client) (a b : List Call) :
    ∀ log, untilFailure c log (a ++ b) =
      match untilFailure c log a with
      | (Outcome.ok _, log1) => untilFailure c log1 b
      | r => r := by
  induction a with
  | nil => intro log; rfl
  | cons call a ih =>
    intro log
    simp only [List.cons_append, untilFailure]
    rcases grantAnswer c log call with _ | err
    · exact ih _
    · rfl

/-- One loop of `syncTeamMembers` issues its calls up to the first failure. -/
theorem grantAll_untilFailure (c : Client) (teamID : Int) (role : Option String)
    (users : List String) :
    ∀ gh : GithubState,
      grantAll c teamID role users gh =
        ((untilFailure c gh.calls
            (users.map fun user => Call.addTeamMembership teamID user role)).1,
          { gh with calls := (untilFailure c gh.calls
            (users.map fun user => Call.addTeamMembership teamID user role)).2 }) := by
  induction users with
  | nil => intro gh; rfl
  | cons u us ih =>
    intro gh
    simp only [grantAll, List.map_cons, untilFailure, grantAnswer]
    rcases c.AddTeamMembership gh.calls teamID u role with _ | err
    · simp only []
      rw [ih]
    · rfl

/-- The live `syncTeamMembers` issues the calls of `grantCalls` up to the first failure. -/
theorem syncTeamMembers_untilFailure (c : Client) (team : GhTeam)
    (members maintainers : List String) (gh : GithubState) (hd : gh.dry = false) :
    syncTeamMembers c team members maintainers gh =
      ((untilFailure c gh.calls (grantCalls team.GetID members maintainers)).1,
        { gh with calls :=
            (untilFailure c gh.calls (grantCalls team.GetID members maintainers)).2 }) := by
  rw [syncTeamMembers, grantCalls, untilFailure_append, grantAll_untilFailure]
  simp only [hd, Bool.false_eq_true, if_false]
  rcases h1 : untilFailure c gh.calls
      (members.map fun user => Call.addTeamMembership team.GetID user none) with ⟨o, log1⟩
  cases o with
  | ok u =>
    simp only []
    rw [grantAll_untilFailure]
  | error e => rfl
  | nilDeref => rfl
  | overflow => rfl

/-- What issuing calls up to the first failure means: the log grows by the first `k` calls
of the list; all of them but the last were answered without error; when the outcome is a
value, `k` is the length of the list and the last call was answered without error too;
when it is an error, it is the answer to the `k`-th call. -/
theorem untilFailure_spec (c : Client) (l : List Call) :
    ∀ log, ∃ k, k ≤ l.length ∧ (untilFailure c log l).2 = log ++ l.take k ∧
      (∀ i call, i + 1 < k → l.get? i = some call →
        grantAnswer c (log ++ l.take i) call = none) ∧
      ((untilFailure c log l).1 = Outcome.ok () ∧ k = l.length ∧
          (∀ i call, i + 1 = k → l.get? i = some call →
            grantAnswer c (log ++ l.take i) call = none) ∨
        ∃ err call, (untilFailure c log l).1 = Outcome.error err ∧ 0 < k ∧
          l.get? (k - 1) = some call ∧
          grantAnswer c (log ++ l.take (k - 1)) call = some err) := by
  induction l with
  | nil =>
    intro log
    exact ⟨0, Nat.le_refl _, by simp [untilFailure], by simp, Or.inl ⟨rfl, rfl, by simp⟩⟩
  | cons call l ih =>
    intro log
    simp only [untilFailure]
    rcases ha : grantAnswer c log call with _ | err
    · obtain ⟨k, hk, hlog, hA, hB⟩ := ih (log ++ [call])
      have shift : ∀ i call1, (call :: l).get? (i + 1) = some call1 → l.get? i = some call1 := by
        intro i call1 h; simpa using h
      refine ⟨k + 1, by simp [hk], by simp [hlog], ?_, ?_⟩
      · intro i call1 hi hget
        cases i with
        | zero =>
          simp only [List.get?_cons_zero, Option.some.injEq] at hget
          subst hget
          simpa using ha
        | succ j =>
          have := hA j call1 (by omega) (shift j call1 hget)
          simpa using this
      · rcases hB with ⟨h1, h2, h3⟩ | ⟨err, call1, h1, h2, h3, h4⟩
        · refine Or.inl ⟨h1, by simp [h2], ?_⟩
          intro i call1 hi hget
          cases i with
          | zero =>
            simp only [List.get?_cons_zero, Option.some.injEq] at hget
            subst hget
            simpa using ha
          | succ j =>
            have := h3 j call1 (by omega) (shift j call1 hget)
            simpa using this
        · refine Or.inr ⟨err, call1, h1, by omega, ?_, ?_⟩
          · obtain ⟨j, rfl⟩ : ∃ j, k = j + 1 := ⟨k - 1, by omega⟩
            simpa using h3
          · obtain ⟨j, rfl⟩ : ∃ j, k = j + 1 := ⟨k - 1, by omega⟩
            simpa using h4
    · refine ⟨1, by simp, by simp, ?_, Or.inr ⟨err, call, rfl, by omega, by simp, by simpa using ha⟩⟩
      intro i call1 hi
      omega

/-- Once an entry of the plan fails, `applyPlan` stops there with its error. -/
theorem applyPlan_error (c : Client) (pre : List (GhTeam × TeamMembershipSync)) :
    ∀ (gh gh5 gh6 : GithubState) (g : GhTeam) (m : TeamMembershipSync)
      (post : List (GhTeam × TeamMembershipSync)) (e : String),
      applyPlan c pre gh = (Outcome.ok (), gh5) →
      syncTeamMembers c g m.Members m.Maintainers gh5 = (Outcome.error e, gh6) →
      applyPlan c (pre ++ (g, m) :: post) gh = (Outcome.error e, gh6) := by
  induction pre with
  | nil =>
    intro gh gh5 gh6 g m post e h1 h2
    simp only [applyPlan, Prod.mk.injEq, true_and] at h1
    subst h1
    simp only [List.nil_append, applyPlan, h2]
  | cons x pre ih =>
    intro gh gh5 gh6 g m post e h1 h2
    obtain ⟨g0, m0⟩ := x
    simp only [List.cons_append, applyPlan] at h1 ⊢
    rcases hs : syncTeamMembers c g0 m0.Members m0.Maintainers gh with ⟨o, gh1⟩
    rw [hs] at h1
    cases o with
    | ok u =>
      simp only [] at h1 ⊢
      exact ih gh1 gh5 gh6 g m post e h1 h2
    | error e1 => simp at h1
    | nilDeref => simp at h1
    | overflow => simp at h1

/-- C15. Grant failure aborts and propagates.  On a live snapshot `syncTeamMembers` issues
the calls of `grantCalls` (a default-role call per member handle in order, then a
`maintainer` call per maintainer handle in order) up to the first that fails: the log grows
by the first `k` of them, all but the last were answered without error, and either all were
issued and the outcome is a value, or the outcome is the error that answered the `k`-th,
after which no call was issued.  When, in `SyncTeams`, the entries of the plan before an
entry were applied without error and that entry fails with `e`, the run returns `e` in
the state the failing `syncTeamMembers` left, whose log ends with the failing call, and
the result of that state is not nil. -/
theorem grant_failure_aborts (c : Client) :
    (∀ (team : GhTeam) (members maintainers : List String) (gh : GithubState),
      gh.dry = false →
      ∃ k, k ≤ (grantCalls team.GetID members maintainers).length ∧
        (syncTeamMembers c team members maintainers gh).2 =
          withCalls gh ((grantCalls team.GetID members maintainers).take k) ∧
        (∀ i call, i + 1 < k →
          (grantCalls team.GetID members maintainers).get? i = some call →
          grantAnswer c (gh.calls ++ (grantCalls team.GetID members maintainers).take i) call =
            none) ∧
        ((syncTeamMembers c team members maintainers gh).1 = Outcome.ok () ∧
            k = (grantCalls team.GetID members maintainers).length ∧
            (∀ i call, i + 1 = k →
              (grantCalls team.GetID members maintainers).get? i = some call →
              grantAnswer c
                (gh.calls ++ (grantCalls team.GetID members maintainers).take i) call = none) ∨
          ∃ err call, (syncTeamMembers c team members maintainers gh).1 = Outcome.error err ∧
            0 < k ∧ (grantCalls team.GetID members maintainers).get? (k - 1) = some call ∧
            grantAnswer c
              (gh.calls ++ (grantCalls team.GetID members maintainers).take (k - 1)) call =
                some err)) ∧
    (∀ (range : MapRange) (fuel : Nat) (chart : OrgChart) (gh gh5 gh6 : GithubState)
      (syncData pre post : List (GhTeam × TeamMembershipSync)) (g : GhTeam)
      (m : TeamMembershipSync) (e : String),
      (creation c fuel chart gh).1 = Outcome.ok () →
      (planning c fuel chart gh).1 = Outcome.ok syncData →
      range.order syncData = pre ++ (g, m) :: post →
      applyPlan c pre (planning c fuel chart gh).2 = (Outcome.ok (), gh5) →
      syncTeamMembers c g m.Members m.Maintainers gh5 = (Outcome.error e, gh6) →
      SyncTeams c range fuel chart gh = (Outcome.error e, gh6) ∧
        (∃ r, gh6.syncResult = some r) ∧
        ∃ k call, 0 < k ∧
          gh6.calls = gh5.calls ++ (grantCalls g.GetID m.Members m.Maintainers).take k ∧
          (grantCalls g.GetID m.Members m.Maintainers).get? (k - 1) = some call ∧
          grantAnswer c
            (gh5.calls ++ (grantCalls g.GetID m.Members m.Maintainers).take (k - 1)) call =
              some e) := by
  have live : ∀ (team : GhTeam) (members maintainers : List String) (gh : GithubState),
      gh.dry = false →
      ∃ k, k ≤ (grantCalls team.GetID members maintainers).length ∧
        (syncTeamMembers c team members maintainers gh).2 =
          withCalls gh ((grantCalls team.GetID members maintainers).take k) ∧
        (∀ i call, i + 1 < k →
          (grantCalls team.GetID members maintainers).get? i = some call →
          grantAnswer c (gh.calls ++ (grantCalls team.GetID members maintainers).take i) call =
            none) ∧
        ((syncTeamMembers c team members maintainers gh).1 = Outcome.ok () ∧
            k = (grantCalls team.GetID members maintainers).length ∧
            (∀ i call, i + 1 = k →
              (grantCalls team.GetID members maintainers).get? i = some call →
              grantAnswer c
                (gh.calls ++ (grantCalls team.GetID members maintainers).take i) call = none) ∨
          ∃ err call, (syncTeamMembers c team members maintainers gh).1 = Outcome.error err ∧
            0 < k ∧ (grantCalls team.GetID members maintainers).get? (k - 1) = some call ∧
            grantAnswer c
              (gh.calls ++ (grantCalls team.GetID members maintainers).take (k - 1)) call =
                some err) := by
    intro team members maintainers gh hd
    obtain ⟨k, hk, hlog, hA, hB⟩ :=
      untilFailure_spec c (grantCalls team.GetID members maintainers) gh.calls
    rw [syncTeamMembers_untilFailure c team members maintainers gh hd]
    refine ⟨k, hk, ?_, hA, hB⟩
    simp only [withCalls, hlog]
  refine ⟨live, ?_⟩
  intro range fuel chart gh gh5 gh6 syncData pre post g m e hcre hplan hord hpre hfail
  have hrun : SyncTeams c range fuel chart gh = (Outcome.error e, gh6) := by
    rw [SyncTeams_eq, hcre]
    simp only [hplan, hord]
    exact applyPlan_error c pre _ gh5 gh6 g m post e hpre hfail
  have hd5 : gh5.dry = false := by
    rcases hd : gh5.dry with _ | _
    · rfl
    · rw [syncTeamMembers, hd] at hfail
      simp at hfail
  refine ⟨hrun, ?_, ?_⟩
  · obtain ⟨r3, d1, d2, new, _, hfin, _⟩ := SyncTeams_after_creation c range fuel chart gh
    rw [hrun] at hfin
    have hfin6 : gh6 = withCalls (withResult (creation c fuel chart gh).2
        (moreMaintainer (moreMembership r3 d1) d2)) new := hfin
    exact ⟨_, by rw [hfin6]; rfl⟩
  · obtain ⟨k, _, hlog, _, hB⟩ := live g m.Members m.Maintainers gh5 hd5
    rw [hfail] at hlog hB
    rcases hB with ⟨h1, _⟩ | ⟨err, call, h1, hk, hget, hans⟩
    · simp at h1
    · simp only [Outcome.error.injEq] at h1
      subst h1
      refine ⟨k, call, hk, ?_, hget, hans⟩
      have : gh6 = withCalls gh5 ((grantCalls g.GetID m.Members m.Maintainers).take k) := hlog
      rw [this]; rfl

/-- C15 on a platform that refuses every grant to `ada`: at the sample chart the run
returns that error, and for a team with the members `ada` and `bob` and the maintainer
`eve` the log grows by an initial segment of the calls of `grantCalls`. -/
theorem grant_failure_aborts_witness :
    (SyncTeams failingGrantClient sampleRange 3 sampleChart (sampleState false)).1 =
        Outcome.error "grant refused" ∧
      (∃ k, (syncTeamMembers failingGrantClient rootGhTeam ["ada", "bob"] ["eve"]
          (emptyState false)).2 =
        withCalls (emptyState false)
          ((grantCalls rootGhTeam.GetID ["ada", "bob"] ["eve"]).take k)) := by
  refine ⟨by decide, ?_⟩
  obtain ⟨k, _, h, _⟩ :=
    (grant_failure_aborts failingGrantClient).1 rootGhTeam ["ada", "bob"] ["eve"]
      (emptyState false) rfl
  exact ⟨k, h⟩

/-! ## The membership plan -/

theorem ensureEntry_get (plan : List (GhTeam × TeamMembershipSync)) (team g : GhTeam) :
    mget (ensureEntry plan team) g =
      if team = g then some ((mget plan team).getD { Maintainers := [], Members := [] })
      else mget plan g := by
  unfold ensureEntry
  rcases h : mget plan team with _ | entry
  · simp only [mget_mset, Option.getD_none]
  · by_cases hg : team = g
    · subst hg; simp [h]
    · simp [hg]

theorem addMember_get (plan : List (GhTeam × TeamMembershipSync)) (team g : GhTeam)
    (handle : String) :
    mget (addMember plan team handle) g =
      if team = g then
        (mget plan team).map fun entry => { entry with Members := entry.Members ++ [handle] }
      else mget plan g := by
  unfold addMember
  rcases h : mget plan team with _ | entry
  · by_cases hg : team = g
    · subst hg; simp [h]
    · simp [hg]
  · simp only [mget_mset, Option.map_some']

theorem addMaintainer_get (plan : List (GhTeam × TeamMembershipSync)) (team g : GhTeam)
    (handle : String) :
    mget (addMaintainer plan team handle) g =
      if team = g then
        (mget plan team).map fun entry =>
          { entry with Maintainers := entry.Maintainers ++ [handle] }
      else mget plan g := by
  unfold addMaintainer
  rcases h : mget plan team with _ | entry
  · by_cases hg : team = g
    · subst hg; simp [h]
    · simp [hg]
  · simp only [mget_mset, Option.map_some']

/-- What `ensureEntry` followed by `addMember` does to the plan, entry by entry. -/
theorem addMember_view (plan : List (GhTeam × TeamMembershipSync)) (team g : GhTeam)
    (handle : String) :
    membersOf (addMember (ensureEntry plan team) team handle) g =
        membersOf plan g ++ (if team = g then [handle] else []) ∧
      maintainersOf (addMember (ensureEntry plan team) team handle) g = maintainersOf plan g ∧
      ((mget (addMember (ensureEntry plan team) team handle) g).isSome =
        ((mget plan g).isSome || decide (team = g))) := by
  simp only [membersOf, maintainersOf, addMember_get, ensureEntry_get, if_true]
  by_cases hg : team = g
  · subst hg
    rcases h : mget plan team with _ | entry <;> simp
  · rcases h : mget plan g with _ | entry <;> simp [hg]

/-- What `ensureEntry` does to the plan, entry by entry. -/
theorem ensureEntry_view (plan : List (GhTeam × TeamMembershipSync)) (team g : GhTeam) :
    membersOf (ensureEntry plan team) g = membersOf plan g ∧
      maintainersOf (ensureEntry plan team) g = maintainersOf plan g ∧
      ((mget (ensureEntry plan team) g).isSome = ((mget plan g).isSome || decide (team = g))) := by
  simp only [membersOf, maintainersOf, ensureEntry_get]
  by_cases hg : team = g
  · subst hg
    rcases h : mget plan team with _ | entry <;> simp
  · rcases h : mget plan g with _ | entry <;> simp [hg]

/-- What a sequence of `addMaintainer` for one team does to the plan, entry by entry. -/
theorem addMaintainer_view (team g : GhTeam) (handles : List String) :
    ∀ plan : List (GhTeam × TeamMembershipSync), (mget plan team).isSome →
      membersOf (handles.foldl (fun pl h => addMaintainer pl team h) plan) g =
          membersOf plan g ∧
        maintainersOf (handles.foldl (fun pl h => addMaintainer pl team h) plan) g =
          maintainersOf plan g ++ (if team = g then handles else []) ∧
        ((mget (handles.foldl (fun pl h => addMaintainer pl team h) plan) g).isSome =
          (mget plan g).isSome) := by
  induction handles with
  | nil => intro plan _; simp
  | cons h hs ih =>
    intro plan hplan
    obtain ⟨entry, hentry⟩ := Option.isSome_iff_exists.1 hplan
    have hnext : (mget (addMaintainer plan team h) team).isSome := by
      simp [addMaintainer_get, hentry]
    obtain ⟨i1, i2, i3⟩ := ih (addMaintainer plan team h) hnext
    simp only [List.foldl_cons]
    rw [i1, i2, i3]
    simp only [membersOf, maintainersOf, addMaintainer_get]
    by_cases hg : team = g
    · subst hg
      simp [hentry]
    · simp [hg]

theorem planEmployees_teams (chart : OrgChart) (l : List Employee) :
    ∀ (plan : List (GhTeam × TeamMembershipSync)) (gh : GithubState),
      (planEmployees chart l plan gh).2.teams = gh.teams := by
  induction l with
  | nil => intro plan gh; rfl
  | cons e l ih =>
    intro plan gh
    unfold planEmployees
    by_cases he : e.Github = ""
    · simp only [he, if_true]
      rcases hs : gh.syncResult with _ | res
      · rfl
      · simp only []
        rw [ih]
    · simp only [he, if_false]
      rcases ht : (e.Team.bind fun i => chart.Teams.get? i) with _ | eTeam
      · rfl
      · simp only []
        rcases hg : mget gh.teams eTeam.Github with _ | team
        · rfl
        · simp only []
          rw [ih]

/-- The plan the employee loop ends with: the `Members` list of a team has grown by the
handles of the employees with a handle whose team's name is bound to it, in list order;
the `Maintainers` lists are as they were; the teams with an entry are those that had one
and those of the employees with a handle. -/
theorem planEmployees_plan (chart : OrgChart) (l : List Employee) :
    ∀ (plan p : List (GhTeam × TeamMembershipSync)) (gh : GithubState),
      (planEmployees chart l plan gh).1 = Outcome.ok p →
      ∀ g, membersOf p g = membersOf plan g ++ memberHandles chart gh.teams g l ∧
        maintainersOf p g = maintainersOf plan g ∧
        ((mget p g).isSome ↔ (mget plan g).isSome ∨
          ∃ e ∈ l, e.Github ≠ "" ∧ employeeGhTeam chart gh.teams e = some g) := by
  induction l with
  | nil =>
    intro plan p gh hp g
    simp only [planEmployees, Outcome.ok.injEq] at hp
    subst hp
    simp [memberHandles]
  | cons e l ih =>
    intro plan p gh hp g
    unfold planEmployees at hp
    by_cases he : e.Github = ""
    · simp only [he, if_true] at hp
      rcases hs : gh.syncResult with _ | res
      · rw [hs] at hp; simp at hp
      · rw [hs] at hp
        simp only [] at hp
        obtain ⟨i1, i2, i3⟩ := ih plan p _ hp g
        refine ⟨?_, i2, ?_⟩
        · rw [i1]; simp [memberHandles, he]
        · rw [i3]; simp [he]
    · simp only [he, if_false] at hp
      rcases ht : (e.Team.bind fun i => chart.Teams.get? i) with _ | eTeam
      · rw [ht] at hp; simp at hp
      · rw [ht] at hp
        simp only [] at hp
        rcases hg : mget gh.teams eTeam.Github with _ | team
        · rw [hg] at hp; simp at hp
        · rw [hg] at hp
          simp only [] at hp
          obtain ⟨i1, i2, i3⟩ := ih _ p gh hp g
          obtain ⟨v1, v2, v3⟩ := addMember_view plan team g e.Github
          have hteam : employeeGhTeam chart gh.teams e = some team := by
            unfold employeeGhTeam teamOf
            rw [ht]
            exact hg
          refine ⟨?_, i2.trans v2, ?_⟩
          · rw [i1, v1]
            by_cases htg : team = g
            · simp [memberHandles, he, hteam, htg]
            · simp [memberHandles, he, hteam, htg]
          · rw [i3, v3]
            by_cases htg : team = g
            · simp [he, hteam, htg]
            · simp [he, hteam, htg]

theorem planTeams_no_result (chart : OrgChart) (l : List Team) :
    ∀ (plan : List (GhTeam × TeamMembershipSync)) (gh : GithubState),
      gh.syncResult = none → (planTeams chart l plan gh).2 = gh := by
  induction l with
  | nil => intro plan gh _; rfl
  | cons t l ih =>
    intro plan gh hs
    unfold planTeams
    rcases hg : mget gh.teams t.Github with _ | team
    · rfl
    · simp only [hs]
      have hprod : ∀ plan1 msg,
          (if t.ProductLeadID ≠ "" then
            match employeeByID chart t.ProductLeadID with
            | none => (Outcome.error msg, gh)
            | some none => (Outcome.nilDeref, gh)
            | some (some productLead) =>
              if productLead.Github = "" then (Outcome.nilDeref, gh)
              else planTeams chart l (addMaintainer plan1 team productLead.Github) gh
          else planTeams chart l plan1 gh).2 = gh := by
        intro plan1 msg
        by_cases hpl : t.ProductLeadID = ""
        · simp only [hpl, ne_eq, not_true_eq_false, if_false]
          exact ih _ _ hs
        · simp only [hpl, ne_eq, not_false_eq_true, if_true]
          rcases hq : employeeByID chart t.ProductLeadID with _ | _ | productLead
          · rfl
          · rfl
          · simp only []
            by_cases hh : productLead.Github = ""
            · simp only [hh, if_true]
            · simp only [hh, if_false]
              exact ih _ _ hs
      by_cases htl : t.TeachLeadID = ""
      · simp only [htl, ne_eq, not_true_eq_false, if_false]
        exact hprod _ _
      · simp only [htl, ne_eq, not_false_eq_true, if_true]
        rcases hq : employeeByID chart t.TeachLeadID with _ | _ | techLead
        · rfl
        · rfl
        · simp only []
          by_cases hh : techLead.Github = ""
          · simp only [hh, if_true]
          · simp only [hh, if_false]
            exact hprod _ _

/-- The planner never writes to the team index. -/
theorem planTeams_teams (chart : OrgChart) (l : List Team)
    (plan : List (GhTeam × TeamMembershipSync)) (gh : GithubState) :
    (planTeams chart l plan gh).2.teams = gh.teams := by
  rcases hs : gh.syncResult with _ | r
  · rw [planTeams_no_result chart l plan gh hs]
  · obtain ⟨done, h, _⟩ := planTeams_spec chart l plan gh r hs
    rw [h]; rfl

theorem teamMembersSyncData_teams (chart : OrgChart) (gh : GithubState) :
    (teamMembersSyncData chart gh).2.teams = gh.teams := by
  have h1 := planEmployees_teams chart chart.Employees [] gh
  unfold teamMembersSyncData
  rcases h : planEmployees chart chart.Employees [] gh with ⟨o, gh1⟩
  rw [h] at h1
  cases o with
  | ok plan =>
    simp only []
    rw [planTeams_teams]
    exact h1
  | error e => exact h1
  | nilDeref => exact h1
  | overflow => exact h1

/-- One round of the team loop of the planner that does not stop the loop: the name of the
team is bound, the plan gets an entry for the platform team and the handles of
`leadHandles` as its maintainers, the result gets the leads of `unableLeads`, and the loop
goes on with the rest. -/
theorem planTeams_cons (chart : OrgChart) (t : Team) (rest : List Team)
    (plan p : List (GhTeam × TeamMembershipSync)) (gh : GithubState) (r : GithubSyncResult)
    (hs : gh.syncResult = some r)
    (hp : (planTeams chart (t :: rest) plan gh).1 = Outcome.ok p) :
    ∃ team, mget gh.teams t.Github = some team ∧
      planTeams chart (t :: rest) plan gh =
        planTeams chart rest
          ((leadHandles chart t).foldl (fun pl h => addMaintainer pl team h)
            (ensureEntry plan team))
          (withResult gh (moreMaintainer r (unableLeads chart t))) := by
  have hself : withResult gh (moreMaintainer r []) = gh := by
    simp [withResult, moreMaintainer, ← hs]
  unfold planTeams at hp
  rcases hg : mget gh.teams t.Github with _ | team
  · rw [hg] at hp; simp at hp
  · rw [hg] at hp
    refine ⟨team, rfl, ?_⟩
    conv_lhs => unfold planTeams
    simp only [hg, hs] at hp ⊢
    by_cases htl : t.TeachLeadID = ""
    · simp only [htl, ne_eq, not_true_eq_false, if_false] at hp ⊢
      by_cases hpl : t.ProductLeadID = ""
      · simp only [hpl, ne_eq, not_true_eq_false, if_false] at hp ⊢
        simp [leadHandles, unableLeads, productLeadHandles, unableProductLead, htl, hpl, hself]
      · simp only [hpl, ne_eq, not_false_eq_true, if_true] at hp ⊢
        rcases hq : employeeByID chart t.ProductLeadID with _ | _ | productLead
        · rw [hq] at hp; simp at hp
        · rw [hq] at hp; simp at hp
        · simp only []
          by_cases hh : productLead.Github = ""
          · simp [leadHandles, unableLeads, productLeadHandles, unableProductLead, htl, hpl,
              hq, hh, withResult, moreMaintainer]
          · simp [leadHandles, unableLeads, productLeadHandles, unableProductLead, htl, hpl,
              hq, hh, hself]
    · simp only [htl, ne_eq, not_false_eq_true, if_true] at hp ⊢
      rcases hq : employeeByID chart t.TeachLeadID with _ | _ | techLead
      · rw [hq] at hp; simp at hp
      · rw [hq] at hp; simp at hp
      · rw [hq] at hp
        simp only [] at hp ⊢
        by_cases hh : techLead.Github = ""
        · simp [leadHandles, unableLeads, htl, hq, hh, withResult, moreMaintainer]
        · simp only [hh, if_false] at hp ⊢
          by_cases hpl : t.ProductLeadID = ""
          · simp only [hpl, ne_eq, not_true_eq_false, if_false] at hp ⊢
            simp [leadHandles, unableLeads, productLeadHandles, unableProductLead, htl, hpl,
              hq, hh, hself]
          · simp only [hpl, ne_eq, not_false_eq_true, if_true] at hp ⊢
            rcases hq2 : employeeByID chart t.ProductLeadID with _ | _ | productLead
            · rw [hq2] at hp; simp at hp
            · rw [hq2] at hp; simp at hp
            · simp only []
              by_cases hh2 : productLead.Github = ""
              · simp [leadHandles, unableLeads, productLeadHandles, unableProductLead, htl,
                  hpl, hq, hq2, hh, hh2, withResult, moreMaintainer]
              · simp [leadHandles, unableLeads, productLeadHandles, unableProductLead, htl,
                  hpl, hq, hq2, hh, hh2, hself]

/-- The team loop of the planner, when it ends with a plan: the name of every team of the
list is bound; the result has grown by the leads of `unableLeads`, team by team; the
`Members` lists are as they were; the `Maintainers` list of a platform team has grown by the
handles of `leadHandles` of the teams whose name is bound to it, team by team; the teams
with an entry are those that had one and those bound to the name of a team of the list. -/
theorem planTeams_plan (chart : OrgChart) (l : List Team) :
    ∀ (plan p : List (GhTeam × TeamMembershipSync)) (gh gh1 : GithubState)
      (r : GithubSyncResult), gh.syncResult = some r →
      planTeams chart l plan gh = (Outcome.ok p, gh1) →
      gh1 = withResult gh (moreMaintainer r (l.flatMap (unableLeads chart))) ∧
      (∀ t ∈ l, (mget gh.teams t.Github).isSome) ∧
      ∀ g, membersOf p g = membersOf plan g ∧
        maintainersOf p g = maintainersOf plan g ++
          (l.filter fun t => decide (mget gh.teams t.Github = some g)).flatMap (leadHandles chart) ∧
        ((mget p g).isSome ↔
          (mget plan g).isSome ∨ ∃ t ∈ l, mget gh.teams t.Github = some g) := by
  induction l with
  | nil =>
    intro plan p gh gh1 r hs hp
    simp only [planTeams, Prod.mk.injEq, Outcome.ok.injEq] at hp
    obtain ⟨rfl, rfl⟩ := hp
    refine ⟨?_, by simp, fun g => by simp⟩
    simp [withResult, moreMaintainer, ← hs]
  | cons t l ih =>
    intro plan p gh gh1 r hs hp
    obtain ⟨team, hteam, hstep⟩ := planTeams_cons chart t l plan p gh r hs (by rw [hp])
    rw [hstep] at hp
    obtain ⟨i1, i2, i3⟩ := ih _ p (withResult gh (moreMaintainer r (unableLeads chart t))) gh1
      (moreMaintainer r (unableLeads chart t)) rfl hp
    have hteams : (withResult gh (moreMaintainer r (unableLeads chart t))).teams = gh.teams := rfl
    rw [hteams] at i2 i3
    refine ⟨?_, ?_, ?_⟩
    · rw [i1]
      simp [withResult, moreMaintainer]
    · intro t1 ht1
      rcases List.mem_cons.1 ht1 with rfl | h
      · rw [hteam]; rfl
      · exact i2 t1 h
    · intro g
      obtain ⟨j1, j2, j3⟩ := i3 g
      obtain ⟨e1, e2, e3⟩ := ensureEntry_view plan team g
      have hentry : (mget (ensureEntry plan team) team).isSome := by
        rw [(ensureEntry_view plan team team).2.2]; simp
      obtain ⟨a1, a2, a3⟩ := addMaintainer_view team g (leadHandles chart t) _ hentry
      refine ⟨?_, ?_, ?_⟩
      · rw [j1, a1, e1]
      · rw [j2, a2, e2]
        by_cases htg : team = g
        · subst htg
          simp [hteam, List.filter_cons]
        · have : ¬ mget gh.teams t.Github = some g := by
            rw [hteam]; simpa using htg
          simp [htg, this, List.filter_cons]
      · rw [j3, a3, e3]
        by_cases htg : team = g
        · subst htg
          simp [hteam]
        · have : ¬ mget gh.teams t.Github = some g := by
            rw [hteam]; simpa using htg
          simp [htg, this]

/-- The plan and the result `teamMembersSyncData` ends with, when it ends with a plan. -/
theorem teamMembersSyncData_plan (chart : OrgChart) (gh gh1 : GithubState)
    (p : List (GhTeam × TeamMembershipSync)) (r : GithubSyncResult)
    (hs : gh.syncResult = some r)
    (hp : teamMembersSyncData chart gh = (Outcome.ok p, gh1)) :
    gh1 = withResult gh
        (moreMaintainer
          (moreMembership r (chart.Employees.filter fun e => decide (e.Github = "")))
          (chart.Teams.flatMap (unableLeads chart))) ∧
      (∀ t ∈ chart.Teams, (mget gh.teams t.Github).isSome) ∧
      ∀ g, membersOf p g = memberHandles chart gh.teams g chart.Employees ∧
        maintainersOf p g =
          (chart.Teams.filter fun t => decide (mget gh.teams t.Github = some g)).flatMap
            (leadHandles chart) ∧
        ((mget p g).isSome ↔
          (∃ e ∈ chart.Employees, e.Github ≠ "" ∧ employeeGhTeam chart gh.teams e = some g) ∨
            ∃ t ∈ chart.Teams, mget gh.teams t.Github = some g) := by
  unfold teamMembersSyncData at hp
  obtain ⟨done, hst, hdone⟩ := planEmployees_spec chart chart.Employees [] gh r hs
  have hview := fun q => planEmployees_plan chart chart.Employees [] q gh
  rcases h1 : planEmployees chart chart.Employees [] gh with ⟨o1, gh0⟩
  rw [h1] at hp hst hdone
  cases o1 with
  | ok plan =>
    simp only [] at hp hst
    obtain ⟨hd, _⟩ := hdone plan rfl
    subst hd
    have hs0 : gh0.syncResult = some
        (moreMembership r (chart.Employees.filter fun e => decide (e.Github = ""))) := by
      rw [hst]; rfl
    have ht0 : gh0.teams = gh.teams := by rw [hst]; rfl
    obtain ⟨i1, i2, i3⟩ := planTeams_plan chart chart.Teams plan p gh0 gh1 _ hs0 hp
    rw [ht0] at i2 i3
    refine ⟨?_, i2, ?_⟩
    · rw [i1, hst]; rfl
    · intro g
      obtain ⟨j1, j2, j3⟩ := i3 g
      obtain ⟨k1, k2, k3⟩ := hview plan (by rw [h1]) g
      refine ⟨?_, ?_, ?_⟩
      · rw [j1, k1]; simp [membersOf, mget]
      · rw [j2, k2]; simp [maintainersOf, mget]
      · rw [j3, k3]; simp [mget]
  | error e => simp at hp
  | nilDeref => simp at hp
  | overflow => simp at hp

/-- The plan the team loop ends with does not depend on the result record: a run that
ends with a plan although the snapshot has no result record ends with the same plan when
it has one. -/
theorem planTeams_transfer (chart : OrgChart) (r0 : GithubSyncResult) (l : List Team) :
    ∀ (plan p : List (GhTeam × TeamMembershipSync)) (gh : GithubState),
      gh.syncResult = none → (planTeams chart l plan gh).1 = Outcome.ok p →
      (planTeams chart l plan (withResult gh r0)).1 = Outcome.ok p := by
  induction l with
  | nil => intro plan p gh _ hp; exact hp
  | cons t l ih =>
    intro plan p gh hs hp
    unfold planTeams at hp ⊢
    have hteams : (withResult gh r0).teams = gh.teams := rfl
    rw [hteams]
    rcases hg : mget gh.teams t.Github with _ | team
    · rw [hg] at hp; simp at hp
    · rw [hg] at hp
      simp only [hs] at hp
      simp only []
      by_cases htl : t.TeachLeadID = ""
      · simp only [htl, ne_eq, not_true_eq_false, if_false] at hp ⊢
        by_cases hpl : t.ProductLeadID = ""
        · simp only [hpl, ne_eq, not_true_eq_false, if_false] at hp ⊢
          exact ih _ _ _ hs hp
        · simp only [hpl, ne_eq, not_false_eq_true, if_true] at hp ⊢
          rcases hq : employeeByID chart t.ProductLeadID with _ | _ | productLead
          · rw [hq] at hp; simp at hp
          · rw [hq] at hp; simp at hp
          · rw [hq] at hp
            simp only [] at hp ⊢
            by_cases hh : productLead.Github = ""
            · simp [hh] at hp
            · simp only [hh, if_false] at hp ⊢
              exact ih _ _ _ hs hp
      · simp only [htl, ne_eq, not_false_eq_true, if_true] at hp ⊢
        rcases hq : employeeByID chart t.TeachLeadID with _ | _ | techLead
        · rw [hq] at hp; simp at hp
        · rw [hq] at hp; simp at hp
        · rw [hq] at hp
          simp only [] at hp ⊢
          by_cases hh : techLead.Github = ""
          · simp [hh] at hp
          · simp only [hh, if_false] at hp ⊢
            by_cases hpl : t.ProductLeadID = ""
            · simp only [hpl, ne_eq, not_true_eq_false, if_false] at hp ⊢
              exact ih _ _ _ hs hp
            · simp only [hpl, ne_eq, not_false_eq_true, if_true] at hp ⊢
              rcases hq2 : employeeByID chart t.ProductLeadID with _ | _ | productLead
              · rw [hq2] at hp; simp at hp
              · rw [hq2] at hp; simp at hp
              · rw [hq2] at hp
                simp only [] at hp ⊢
                by_cases hh2 : productLead.Github = ""
                · simp [hh2] at hp
                · simp only [hh2, if_false] at hp ⊢
                  exact ih _ _ _ hs hp

/-- The entries of the plan the team loop ends with, whatever the result record. -/
theorem planTeams_entries (chart : OrgChart) (l : List Team)
    (plan p : List (GhTeam × TeamMembershipSync)) (gh : GithubState)
    (hp : (planTeams chart l plan gh).1 = Outcome.ok p) :
    (∀ t ∈ l, (mget gh.teams t.Github).isSome) ∧
      ∀ g, membersOf p g = membersOf plan g ∧
        maintainersOf p g = maintainersOf plan g ++
          (l.filter fun t => decide (mget gh.teams t.Github = some g)).flatMap
            (leadHandles chart) ∧
        ((mget p g).isSome ↔
          (mget plan g).isSome ∨ ∃ t ∈ l, mget gh.teams t.Github = some g) := by
  rcases hs : gh.syncResult with _ | r
  · have h := planTeams_transfer chart
      { removedTeams := [], unableToCreateMembership := [], unableToCreateMaintainer := [] }
      l plan p gh hs hp
    rcases hrun : planTeams chart l plan (withResult gh
      { removedTeams := [], unableToCreateMembership := [], unableToCreateMaintainer := [] })
      with ⟨o, gh1⟩
    rw [hrun] at h
    simp only at h
    subst h
    exact (planTeams_plan chart l plan p _ gh1 _ rfl hrun).2
  · rcases hrun : planTeams chart l plan gh with ⟨o, gh1⟩
    rw [hrun] at hp
    simp only at hp
    subst hp
    exact (planTeams_plan chart l plan p gh gh1 r hs hrun).2

/-- The entries of the plan `teamMembersSyncData` ends with, whatever the result record:
the name of every chart team is bound; the `Members` list of a platform team holds the
handles of the employees with a handle whose team's name is bound to it, in chart order;
its `Maintainers` list holds the handles of `leadHandles` of the teams whose name is bound
to it, in chart order; the teams with an entry are those of the employees with a handle
and those of the chart teams. -/
theorem teamMembersSyncData_entries (chart : OrgChart) (gh : GithubState)
    (p : List (GhTeam × TeamMembershipSync))
    (hp : (teamMembersSyncData chart gh).1 = Outcome.ok p) :
    (∀ t ∈ chart.Teams, (mget gh.teams t.Github).isSome) ∧
      ∀ g, membersOf p g = memberHandles chart gh.teams g chart.Employees ∧
        maintainersOf p g =
          (chart.Teams.filter fun t => decide (mget gh.teams t.Github = some g)).flatMap
            (leadHandles chart) ∧
        ((mget p g).isSome ↔
          (∃ e ∈ chart.Employees, e.Github ≠ "" ∧ employeeGhTeam chart gh.teams e = some g) ∨
            ∃ t ∈ chart.Teams, mget gh.teams t.Github = some g) := by
  unfold teamMembersSyncData at hp
  have hview := fun q => planEmployees_plan chart chart.Employees [] q gh
  have ht0 := planEmployees_teams chart chart.Employees [] gh
  rcases h1 : planEmployees chart chart.Employees [] gh with ⟨o1, gh0⟩
  rw [h1] at hp ht0
  cases o1 with
  | ok plan =>
    simp only [] at hp ht0
    obtain ⟨i2, i3⟩ := planTeams_entries chart chart.Teams plan p gh0 hp
    rw [ht0] at i2 i3
    refine ⟨i2, ?_⟩
    intro g
    obtain ⟨j1, j2, j3⟩ := i3 g
    obtain ⟨k1, k2, k3⟩ := hview plan (by rw [h1]) g
    refine ⟨?_, ?_, ?_⟩
    · rw [j1, k1]; simp [membersOf, mget]
    · rw [j2, k2]; simp [maintainersOf, mget]
    · rw [j3, k3]; simp [mget]
  | error e => simp at hp
  | nilDeref => simp at hp
  | overflow => simp at hp

/-- Under an index keyed by name, an employee's team is bound to a platform team of the
index exactly when its name is the name of the platform team. -/
theorem employeeGhTeam_by_name (chart : OrgChart) (teams : List (String × GhTeam))
    (hkey : ∀ k g, mget teams k = some g → g.GetName = k) (g : GhTeam) (k : String)
    (hg : mget teams k = some g) (e : Employee) :
    employeeGhTeam chart teams e = some g ↔
      ((teamOf chart e).any fun t => decide (t.Github = g.GetName)) = true := by
  have hname : mget teams g.GetName = some g := by rw [hkey k g hg]; exact hg
  unfold employeeGhTeam
  rcases teamOf chart e with _ | t
  · simp
  · simp only [Option.some_bind, Option.any_some, decide_eq_true_eq]
    constructor
    · intro h; exact (hkey _ _ h).symm
    · intro h; rw [h]; exact hname

/-- C12. Membership plan: when `teamMembersSyncData` ends with a plan, the name of every
chart team is bound to a platform team that has an entry in the plan (whether or not the
team has employees or leads); the `Members` list of every entry is the list, in chart
order, of the handles of the employees with a non-empty handle whose team's name is bound
to the entry's platform team, which, for an index keyed by name, are the employees with a
non-empty handle whose team's name is the name of the entry's platform team; and the
planner leaves the team index as it was. -/
theorem membership_plan (chart : OrgChart) (gh : GithubState)
    (p : List (GhTeam × TeamMembershipSync))
    (hp : (teamMembersSyncData chart gh).1 = Outcome.ok p) :
    (∀ t ∈ chart.Teams, ∃ g, mget gh.teams t.Github = some g ∧ (mget p g).isSome) ∧
    (∀ g m, mget p g = some m →
      m.Members = memberHandles chart gh.teams g chart.Employees) ∧
    ((∀ k g, mget gh.teams k = some g → g.GetName = k) →
      ∀ g m, mget p g = some m →
        m.Members = memberHandlesByName chart g.GetName chart.Employees) ∧
    (teamMembersSyncData chart gh).2.teams = gh.teams := by
  obtain ⟨hbound, hview⟩ := teamMembersSyncData_entries chart gh p hp
  have hmem : ∀ g m, mget p g = some m →
      m.Members = memberHandles chart gh.teams g chart.Employees := by
    intro g m hm
    rw [← (hview g).1]
    simp [membersOf, hm]
  refine ⟨?_, hmem, ?_, teamMembersSyncData_teams chart gh⟩
  · intro t ht
    obtain ⟨g, hg⟩ := Option.isSome_iff_exists.1 (hbound t ht)
    exact ⟨g, hg, ((hview g).2.2).2 (Or.inr ⟨t, ht, hg⟩)⟩
  · intro hkey g m hm
    rw [hmem g m hm]
    have hval : ∃ k, mget gh.teams k = some g := by
      rcases ((hview g).2.2).1 (by rw [hm]; rfl) with ⟨e, _, _, he⟩ | ⟨t, _, ht⟩
      · unfold employeeGhTeam at he
        rcases hte : teamOf chart e with _ | t
        · rw [hte] at he; simp at he
        · rw [hte] at he
          exact ⟨t.Github, he⟩
      · exact ⟨t.Github, ht⟩
    obtain ⟨k, hk⟩ := hval
    unfold memberHandles memberHandlesByName
    congr 1
    apply List.filter_congr
    intro e _
    have := employeeGhTeam_by_name chart gh.teams hkey g k hk e
    by_cases h1 : employeeGhTeam chart gh.teams e = some g
    · simp [h1, this.1 h1]
    · have h2 : ¬ ((teamOf chart e).any fun t => decide (t.Github = g.GetName)) = true :=
        fun h => h1 (this.2 h)
      simp only [Bool.not_eq_true] at h2
      simp [h1, h2]

/-- C12 at the sample chart with both teams on the platform: the planner ends with a plan
in which the root team has the one member `ada` and the child team, whose one employee has
no handle, has an entry without members. -/
theorem membership_plan_witness :
    (teamMembersSyncData sampleChart plannerState).1 =
        Outcome.ok [(rootGhTeam, { Maintainers := ["ada"], Members := ["ada"] }),
          (childGhTeam, { Maintainers := [], Members := [] })] ∧
      (∀ t ∈ sampleChart.Teams, ∃ g, mget plannerState.teams t.Github = some g ∧
        (mget [(rootGhTeam, ({ Maintainers := ["ada"], Members := ["ada"] } :
            TeamMembershipSync)),
          (childGhTeam, { Maintainers := [], Members := [] })] g).isSome) :=
  ⟨by decide, (membership_plan sampleChart plannerState _ (by decide)).1⟩

/-! ## Leads -/

/-- When `SyncTeams` returns without error, `unableToCreateMaintainer` of its result is the
list of the leads of `unableLeads`, team by team in chart order. -/
theorem SyncTeams_unable_leads (c : Client) (range : MapRange) (fuel : Nat)
    (chart : OrgChart) (gh : GithubState)
    (hok : (SyncTeams c range fuel chart gh).1 = Outcome.ok ()) :
    (SyncTeams c range fuel chart gh).2.syncResult.map (fun r => r.unableToCreateMaintainer) =
      some (chart.Teams.flatMap (unableLeads chart)) := by
  rcases SyncTeams_final c range fuel chart gh with ⟨_, h⟩ | ⟨_, h, _⟩ | ⟨plan, hplan, _, hrun⟩
  · exact absurd hok h
  · exact absurd hok h
  · obtain ⟨r1, r2, _, _, _, hs2, _, _, hmt2, _⟩ := afterRoots_facts c chart gh
    have hs3 : (creation c fuel chart gh).2.syncResult = some r2 :=
      (creation_step c fuel chart gh).2.1.trans hs2
    have hpl : teamMembersSyncData chart (creation c fuel chart gh).2 =
        (Outcome.ok plan, (planning c fuel chart gh).2) := by
      have : (planning c fuel chart gh).1 = (teamMembersSyncData chart _).1 := rfl
      rw [this] at hplan
      rw [← hplan]; rfl
    obtain ⟨hst, _⟩ := teamMembersSyncData_plan chart _ _ plan r2 hs3 hpl
    obtain ⟨new, e5, _⟩ := applyPlan_spec c (range.order plan) (planning c fuel chart gh).2
    rw [hrun, e5, hst]
    simp [withCalls, withResult, moreMaintainer, moreMembership, hmt2]

/-- C17. Maintainer short-circuit.  A round of the team loop of `teamMembersSyncData` for a
team whose configured tech lead resolves to an employee without a handle records that
employee in `unableToCreateMaintainer`, ensures the entry of the platform team and goes on
with the next team, whatever the product lead of the team is (with a handle, without a
handle or of unknown ID); the employee is in `unableToCreateMaintainer` however the loop
ends.  So, when the planner ends with a plan, the entries it has
appended to `unableToCreateMaintainer` are the leads of `unableLeads`, team by team, and
the `Maintainers` list of an entry is the list of the handles of `leadHandles` of the teams
bound to it, team by team, where a team whose tech lead has no handle contributes that
tech lead and no handle, and a team whose tech lead has a handle contributes that handle
followed by the handle of its product lead, if one is configured and has a handle. -/
theorem maintainer_short_circuit (chart : OrgChart) :
    (∀ (t : Team) (rest : List Team) (plan : List (GhTeam × TeamMembershipSync))
      (gh : GithubState) (r : GithubSyncResult) (team : GhTeam) (e : Employee)
      (productLeadID : String),
      gh.syncResult = some r → mget gh.teams t.Github = some team → t.TeachLeadID ≠ "" →
      employeeByID chart t.TeachLeadID = some (some e) → e.Github = "" →
      planTeams chart ({ t with ProductLeadID := productLeadID } :: rest) plan gh =
          planTeams chart rest (ensureEntry plan team)
            (withResult gh (moreMaintainer r [e])) ∧
        ∃ res, (planTeams chart ({ t with ProductLeadID := productLeadID } :: rest) plan
            gh).2.syncResult = some res ∧ e ∈ res.unableToCreateMaintainer) ∧
    (∀ (gh gh1 : GithubState) (p : List (GhTeam × TeamMembershipSync))
      (r : GithubSyncResult), gh.syncResult = some r →
      teamMembersSyncData chart gh = (Outcome.ok p, gh1) →
      gh1.syncResult.map (fun r1 => r1.unableToCreateMaintainer) =
          some (r.unableToCreateMaintainer ++ chart.Teams.flatMap (unableLeads chart)) ∧
        ∀ g m, mget p g = some m →
          m.Maintainers =
            (chart.Teams.filter fun t => decide (mget gh.teams t.Github = some g)).flatMap
              (leadHandles chart)) ∧
    (∀ (t : Team) (e : Employee), t.TeachLeadID ≠ "" →
      employeeByID chart t.TeachLeadID = some (some e) → e.Github = "" →
      leadHandles chart t = [] ∧ unableLeads chart t = [e]) ∧
    (∀ (t : Team) (e : Employee), t.TeachLeadID ≠ "" →
      employeeByID chart t.TeachLeadID = some (some e) → e.Github ≠ "" →
      (t.ProductLeadID = "" → leadHandles chart t = [e.Github]) ∧
      (∀ q, t.ProductLeadID ≠ "" → employeeByID chart t.ProductLeadID = some (some q) →
        (q.Github ≠ "" → leadHandles chart t = [e.Github, q.Github]) ∧
        (q.Github = "" → leadHandles chart t = [e.Github] ∧ unableLeads chart t = [q]))) := by
  refine ⟨?_, ?_, ?_, ?_⟩
  · intro t rest plan gh r team e x hs hteam htl hq hh
    have hrun : planTeams chart ({ t with ProductLeadID := x } :: rest) plan gh =
        planTeams chart rest (ensureEntry plan team)
          (withResult gh (moreMaintainer r [e])) := by
      conv_lhs => unfold planTeams
      simp only [hteam, hs, htl, hq, hh, ne_eq, not_false_eq_true, if_true]
      rfl
    refine ⟨hrun, ?_⟩
    obtain ⟨done, hst, _⟩ := planTeams_spec chart rest (ensureEntry plan team)
      (withResult gh (moreMaintainer r [e])) (moreMaintainer r [e]) rfl
    rw [hrun, hst]
    exact ⟨_, rfl, by simp [moreMaintainer]⟩
  · intro gh gh1 p r hs hp
    obtain ⟨hst, _, hview⟩ := teamMembersSyncData_plan chart gh gh1 p r hs hp
    refine ⟨?_, ?_⟩
    · rw [hst]
      simp [withResult, moreMaintainer, moreMembership]
    · intro g m hm
      rw [← (hview g).2.1]
      simp [maintainersOf, hm]
  · intro t e htl hq hh
    simp [leadHandles, unableLeads, htl, hq, hh]
  · intro t e htl hq hh
    refine ⟨?_, ?_⟩
    · intro hpl
      simp [leadHandles, productLeadHandles, htl, hq, hh, hpl]
    · intro q hpl hq2
      refine ⟨?_, ?_⟩
      · intro hh2
        simp [leadHandles, productLeadHandles, htl, hq, hh, hpl, hq2, hh2]
      · intro hh2
        simp [leadHandles, unableLeads, productLeadHandles, unableProductLead, htl, hq, hh,
          hpl, hq2, hh2]

/-- C17 at the chart of `leadTeam`, whose tech lead Bob and product lead Cy have no handle:
the planner ends with a plan in which the team has no maintainer, and Bob is the one lead
it records. -/
theorem maintainer_short_circuit_witness :
    (teamMembersSyncData leadsChart leadsState).1 =
        Outcome.ok [(leadGhTeam, { Maintainers := [], Members := [] })] ∧
      (teamMembersSyncData leadsChart leadsState).2.syncResult.map
          (fun r1 => r1.unableToCreateMaintainer) =
        some ([] ++ leadsChart.Teams.flatMap (unableLeads leadsChart)) ∧
      leadsChart.Teams.flatMap (unableLeads leadsChart) =
        [{ ID := "e2", Name := "Bob", Github := "", MemberOf := "lead", Team := some 0 }] :=
  ⟨by decide,
   ((maintainer_short_circuit leadsChart).2.1 leadsState
      (teamMembersSyncData leadsChart leadsState).2
      [(leadGhTeam, { Maintainers := [], Members := [] })] _ rfl (by decide)).1,
   by decide⟩

/-- C11 as stated fails: on the chart of `leadTeam`, whose tech lead Bob and product lead Cy
both have no handle, the dry run returns without error and Cy is not in
`unableToCreateMaintainer`. -/
theorem handle_less_product_lead_not_reported :
    (organise rawLeadsChart).1 = none ∧
    (SyncTeams sampleClient sampleRange 3 leadsChart (emptyState true)).1 = Outcome.ok () ∧
    leadTeam ∈ leadsChart.Teams ∧
    employeeByID leadsChart leadTeam.ProductLeadID =
      some (some { ID := "e3", Name := "Cy", Github := "", MemberOf := "lead", Team := some 0 }) ∧
    (SyncTeams sampleClient sampleRange 3 leadsChart (emptyState true)).2.syncResult.map
        (fun r => r.unableToCreateMaintainer) =
      some [{ ID := "e2", Name := "Bob", Github := "", MemberOf := "lead", Team := some 0 }] := by
  decide

/-- C11, amended. When `SyncTeams` returns without error, the result's
`unableToCreateMaintainer` holds every employee without a handle who is the configured tech
lead of a chart team, and every employee without a handle who is the configured product
lead of a chart team whose tech lead is not configured or has a handle. -/
theorem handle_less_leads_reported (c : Client) (range : MapRange) (fuel : Nat)
    (chart : OrgChart) (gh : GithubState)
    (hok : (SyncTeams c range fuel chart gh).1 = Outcome.ok ()) :
    ∃ res, (SyncTeams c range fuel chart gh).2.syncResult = some res ∧
      (∀ t ∈ chart.Teams, ∀ e, t.TeachLeadID ≠ "" →
        employeeByID chart t.TeachLeadID = some (some e) → e.Github = "" →
        e ∈ res.unableToCreateMaintainer) ∧
      (∀ t ∈ chart.Teams, ∀ e, t.ProductLeadID ≠ "" →
        employeeByID chart t.ProductLeadID = some (some e) → e.Github = "" →
        (t.TeachLeadID = "" ∨
          ∃ l, employeeByID chart t.TeachLeadID = some (some l) ∧ l.Github ≠ "") →
        e ∈ res.unableToCreateMaintainer) := by
  have h := SyncTeams_unable_leads c range fuel chart gh hok
  rcases hres : (SyncTeams c range fuel chart gh).2.syncResult with _ | res
  · rw [hres] at h; simp at h
  · rw [hres] at h
    simp only [Option.map_some', Option.some.injEq] at h
    refine ⟨res, rfl, ?_, ?_⟩
    · intro t ht e htl hq hh
      rw [h, List.mem_flatMap]
      exact ⟨t, ht, by simp [unableLeads, htl, hq, hh]⟩
    · intro t ht e hpl hq hh htech
      rw [h, List.mem_flatMap]
      refine ⟨t, ht, ?_⟩
      rcases htech with htl | ⟨l, hl, hlh⟩
      · simp [unableLeads, unableProductLead, htl, hpl, hq, hh]
      · by_cases htl : t.TeachLeadID = ""
        · simp [unableLeads, unableProductLead, htl, hpl, hq, hh]
        · simp [unableLeads, unableProductLead, htl, hl, hlh, hpl, hq, hh]

/-- C11, amended, at the sample chart on a live run: the run returns without error and Bob,
the product lead without a handle of the child team, which has no tech lead, is in
`unableToCreateMaintainer`. -/
theorem handle_less_leads_reported_witness :
    (SyncTeams sampleClient sampleRange 3 sampleChart (sampleState false)).1 = Outcome.ok () ∧
    ∃ res, (SyncTeams sampleClient sampleRange 3 sampleChart (sampleState false)).2.syncResult =
        some res ∧
      ∀ t ∈ sampleChart.Teams, ∀ e, t.ProductLeadID ≠ "" →
        employeeByID sampleChart t.ProductLeadID = some (some e) → e.Github = "" →
        (t.TeachLeadID = "" ∨
          ∃ l, employeeByID sampleChart t.TeachLeadID = some (some l) ∧ l.Github ≠ "") →
        e ∈ res.unableToCreateMaintainer := by
  refine ⟨by decide, ?_⟩
  obtain ⟨res, h1, _, h3⟩ :=
    handle_less_leads_reported sampleClient sampleRange 3 sampleChart (sampleState false)
      (by decide)
  exact ⟨res, h1, h3⟩

/-! ## Organised charts -/

theorem organiseEmployees_length (tb : List (String × Nat)) (es : List Employee) :
    ∀ (i : Nat) (m : List (String × Nat)),
      (organiseEmployees tb i es m).2.1.length = es.length := by
  induction es with
  | nil => intro i m; rfl
  | cons e es ih =>
    intro i m
    unfold organiseEmployees
    cases h : mget tb e.MemberOf with
    | none => rfl
    | some team => simp [ih]

/-- Every position stored in the employee index is a position of the employee list. -/
theorem organiseEmployees_bound (tb : List (String × Nat)) (es : List Employee) :
    ∀ (i : Nat) (m : List (String × Nat)),
      (∀ id j, mget m id = some j → j < i) →
      ∀ id j, mget (organiseEmployees tb i es m).2.2 id = some j → j < i + es.length := by
  induction es with
  | nil => intro i m hm id j h; simpa [organiseEmployees] using hm id j h
  | cons e es ih =>
    intro i m hm id j
    have hm1 : ∀ id j, mget (mset m e.ID i) id = some j → j < i + 1 := by
      intro id' j' h'
      rw [mget_mset] at h'
      by_cases he : e.ID = id'
      · simp only [he, if_true, Option.some.injEq] at h'
        omega
      · simp only [he, if_false] at h'
        exact Nat.lt_succ_of_lt (hm id' j' h')
    unfold organiseEmployees
    cases h : mget tb e.MemberOf with
    | none =>
      intro hj
      have := hm1 id j hj
      simp only [List.length_cons]
      omega
    | some team =>
      intro hj
      have := ih (i + 1) (mset m e.ID i) hm1 id j hj
      simp only [List.length_cons]
      omega

/-- A chart that `organise` accepts is organised. -/
theorem organise_organised (oc : OrgChart) (hok : (organise oc).1 = none) :
    Organised (organise oc).2 := by
  have hget : ∀ id j, mget (indexTeams 0 oc.Teams []) id = some j →
      ∃ t, oc.Teams.get? j = some t ∧ t.ID = id := by
    intro id j h
    have := indexTeams_get oc.Teams [] [] (by intro id j h; simp [mget] at h) id j
      (by simpa using h)
    simpa using this
  have herr := organiseEmployees_error (indexTeams 0 oc.Teams []) oc.Employees 0 []
  have h1 : (organise oc).1 = (organiseEmployees (indexTeams 0 oc.Teams []) 0 oc.Employees []).1 :=
    rfl
  have h2 : (organise oc).2.Employees =
      (organiseEmployees (indexTeams 0 oc.Teams []) 0 oc.Employees []).2.1 := rfl
  have h4 : (organise oc).2.EmployeesByID =
      (organiseEmployees (indexTeams 0 oc.Teams []) 0 oc.Employees []).2.2 := rfl
  have h5 : (organise oc).2.Teams = oc.Teams := rfl
  rw [h1] at hok
  have hmap := organiseEmployees_ok _ _ 0 [] hok
  refine ⟨?_, ?_⟩
  · intro e he
    rw [h2, hmap, List.mem_map] at he
    obtain ⟨e0, he0, rfl⟩ := he
    obtain ⟨i, hi⟩ := Option.isSome_iff_exists.1 ((herr.1.1 hok) e0 he0)
    obtain ⟨t, ht, _⟩ := hget _ _ hi
    refine ⟨t, ?_, ?_⟩
    · rw [h5]; exact List.get?_mem ht
    · simp only [teamOf, hi, Option.some_bind, h5]
      exact ht
  · intro e he
    have he0 : ∃ e0 ∈ oc.Employees, e0.ID = e.ID := by
      rw [h2, hmap, List.mem_map] at he
      obtain ⟨e0, he0, rfl⟩ := he
      exact ⟨e0, he0, rfl⟩
    have hs : (mget (organise oc).2.EmployeesByID e.ID).isSome := by
      rw [h4, organiseEmployees_index _ _ 0 [] e.ID hok]
      exact Or.inl he0
    obtain ⟨j, hj⟩ := Option.isSome_iff_exists.1 hs
    have hlt : j < (organise oc).2.Employees.length := by
      have := organiseEmployees_bound (indexTeams 0 oc.Teams []) oc.Employees 0 []
        (by intro id j h; simp [mget] at h) e.ID j (by rw [← h4]; exact hj)
      rw [h2, organiseEmployees_length]
      omega
    refine ⟨(organise oc).2.Employees.get ⟨j, hlt⟩, ?_⟩
    simp only [employeeByID, hj, Option.map_some', Option.some.injEq]
    exact List.get?_eq_get hlt

/-! ## When the planner succeeds -/

/-- The employee loop ends with a plan when the result record is there and the team of
every employee with a handle resolves to a team whose name is bound. -/
theorem planEmployees_ok (chart : OrgChart) (l : List Employee) :
    ∀ (plan : List (GhTeam × TeamMembershipSync)) (gh : GithubState) (r : GithubSyncResult),
      gh.syncResult = some r →
      (∀ e ∈ l, e.Github ≠ "" →
        ∃ t, teamOf chart e = some t ∧ (mget gh.teams t.Github).isSome) →
      ∃ p, (planEmployees chart l plan gh).1 = Outcome.ok p := by
  induction l with
  | nil => intro plan gh r _ _; exact ⟨plan, rfl⟩
  | cons e l ih =>
    intro plan gh r hs h
    unfold planEmployees
    by_cases he : e.Github = ""
    · simp only [he, if_true, hs]
      exact ih plan _ _ rfl fun e1 h1 => h e1 (List.mem_cons_of_mem _ h1)
    · simp only [he, if_false]
      obtain ⟨t, ht, hb⟩ := h e (List.mem_cons_self _ _) he
      obtain ⟨g, hg⟩ := Option.isSome_iff_exists.1 hb
      have ht' : (e.Team.bind fun i => chart.Teams.get? i) = some t := ht
      rw [ht']
      simp only [hg]
      exact ih _ gh r hs fun e1 h1 => h e1 (List.mem_cons_of_mem _ h1)

/-- The team loop ends with a plan when the result record is there, the name of every
team is bound and every configured lead resolves to an employee. -/
theorem planTeams_ok (chart : OrgChart) (l : List Team) :
    ∀ (plan : List (GhTeam × TeamMembershipSync)) (gh : GithubState) (r : GithubSyncResult),
      gh.syncResult = some r →
      (∀ t ∈ l, (mget gh.teams t.Github).isSome ∧
        (t.TeachLeadID ≠ "" → ∃ e, employeeByID chart t.TeachLeadID = some (some e)) ∧
        (t.ProductLeadID ≠ "" → ∃ e, employeeByID chart t.ProductLeadID = some (some e))) →
      ∃ p, (planTeams chart l plan gh).1 = Outcome.ok p := by
  induction l with
  | nil => intro plan gh r _ _; exact ⟨plan, rfl⟩
  | cons t l ih =>
    intro plan gh r hs h
    have hrest : ∀ t1 ∈ l, (mget gh.teams t1.Github).isSome ∧
        (t1.TeachLeadID ≠ "" → ∃ e, employeeByID chart t1.TeachLeadID = some (some e)) ∧
        (t1.ProductLeadID ≠ "" → ∃ e, employeeByID chart t1.ProductLeadID = some (some e)) :=
      fun t1 h1 => h t1 (List.mem_cons_of_mem _ h1)
    obtain ⟨hb, htech, hprod⟩ := h t (List.mem_cons_self _ _)
    obtain ⟨g, hg⟩ := Option.isSome_iff_exists.1 hb
    unfold planTeams
    simp only [hg, hs]
    by_cases htl : t.TeachLeadID = ""
    · simp only [htl, ne_eq, not_true_eq_false, if_false]
      by_cases hpl : t.ProductLeadID = ""
      · simp only [hpl, ne_eq, not_true_eq_false, if_false]
        exact ih _ gh r hs hrest
      · simp only [hpl, ne_eq, not_false_eq_true, if_true]
        obtain ⟨q, hq⟩ := hprod hpl
        simp only [hq]
        by_cases hh : q.Github = ""
        · simp only [hh, if_true]
          exact ih _ _ _ rfl hrest
        · simp only [hh, if_false]
          exact ih _ gh r hs hrest
    · simp only [htl, ne_eq, not_false_eq_true, if_true]
      obtain ⟨e, he⟩ := htech htl
      simp only [he]
      by_cases hh : e.Github = ""
      · simp only [hh, if_true]
        exact ih _ _ _ rfl hrest
      · simp only [hh, if_false]
        by_cases hpl : t.ProductLeadID = ""
        · simp only [hpl, ne_eq, not_true_eq_false, if_false]
          exact ih _ gh r hs hrest
        · simp only [hpl, ne_eq, not_false_eq_true, if_true]
          obtain ⟨q, hq⟩ := hprod hpl
          simp only [hq]
          by_cases hh2 : q.Github = ""
          · simp only [hh2, if_true]
            exact ih _ _ _ rfl hrest
          · simp only [hh2, if_false]
            exact ih _ gh r hs hrest

/-- The planner ends with a plan on an organised chart whose configured leads are
employees of the chart, when the result record is there and the name of every chart team
is bound. -/
theorem teamMembersSyncData_ok (chart : OrgChart) (gh : GithubState) (r : GithubSyncResult)
    (hs : gh.syncResult = some r) (horg : Organised chart)
    (hbound : ∀ t ∈ chart.Teams, (mget gh.teams t.Github).isSome)
    (htech : ∀ t ∈ chart.Teams, t.TeachLeadID ≠ "" →
      ∃ e ∈ chart.Employees, e.ID = t.TeachLeadID)
    (hprod : ∀ t ∈ chart.Teams, t.ProductLeadID ≠ "" →
      ∃ e ∈ chart.Employees, e.ID = t.ProductLeadID) :
    ∃ p, (teamMembersSyncData chart gh).1 = Outcome.ok p := by
  obtain ⟨p1, hp1⟩ := planEmployees_ok chart chart.Employees [] gh r hs (by
    intro e he _
    obtain ⟨t, ht, hte⟩ := horg.1 e he
    exact ⟨t, hte, hbound t ht⟩)
  obtain ⟨d1, hst, _⟩ := planEmployees_spec chart chart.Employees [] gh r hs
  unfold teamMembersSyncData
  rcases h1 : planEmployees chart chart.Employees [] gh with ⟨o1, gh1⟩
  rw [h1] at hp1 hst
  simp only at hp1 hst
  subst hp1
  simp only []
  refine planTeams_ok chart chart.Teams p1 gh1 (moreMembership r d1) (by rw [hst]; rfl) ?_
  intro t ht
  refine ⟨by rw [hst]; exact hbound t ht, ?_, ?_⟩
  · intro h
    obtain ⟨e, he, hid⟩ := htech t ht h
    obtain ⟨e1, he1⟩ := horg.2 e he
    exact ⟨e1, by rw [← hid]; exact he1⟩
  · intro h
    obtain ⟨e, he, hid⟩ := hprod t ht h
    obtain ⟨e1, he1⟩ := horg.2 e he
    exact ⟨e1, by rw [← hid]; exact he1⟩

/-! ## The team index in a dry run -/

theorem mget_isSome_of_mem {κ ν : Type} [DecidableEq κ] (m : List (κ × ν)) (p : κ × ν)
    (h : p ∈ m) : (mget m p.1).isSome := by
  induction m with
  | nil => cases h
  | cons q m ih =>
    obtain ⟨a, b⟩ := q
    by_cases hak : a = p.1
    · simp [mget, hak]
    · simp only [mget, hak, if_false]
      rcases List.mem_cons.1 h with h | h
      · subst h; exact absurd rfl hak
      · exact ih h

theorem mem_mdel {κ ν : Type} [DecidableEq κ] (m : List (κ × ν)) (k : κ) (p : κ × ν)
    (h : p ∈ mdel m k) : p ∈ m :=
  (List.mem_filter.1 h).1

/-- The method `removeTeam` leaves the index as it was or deletes the name of the team. -/
theorem removeTeam_teams (c : Client) (team : GhTeam) (gh : GithubState) :
    (removeTeam c team gh).2.teams = gh.teams ∨
      (removeTeam c team gh).2.teams = mdel gh.teams team.GetName := by
  unfold removeTeam
  by_cases hd : gh.dry = true
  · simp only [hd, if_true]
    rcases hs : gh.syncResult with _ | r
    · exact Or.inl rfl
    · exact Or.inr rfl
  · simp only [hd, Bool.false_eq_true, if_false]
    rcases hdel : c.DeleteTeam gh.calls team.GetID with _ | e
    · simp only []
      rcases hs : gh.syncResult with _ | r
      · exact Or.inl rfl
      · exact Or.inr rfl
    · exact Or.inl rfl

theorem removeTeam_entries (c : Client) (team : GhTeam) (gh : GithubState) :
    ∀ p ∈ (removeTeam c team gh).2.teams, p ∈ gh.teams := by
  intro p hp
  rcases removeTeam_teams c team gh with h | h
  · rw [h] at hp; exact hp
  · rw [h] at hp; exact mem_mdel _ _ _ hp

/-- The stale-team loop adds no entry to the index. -/
theorem removeStale_entries (c : Client) (l : List GhTeam) :
    ∀ gh : GithubState, ∀ p ∈ (removeStale c l gh).2.teams, p ∈ gh.teams := by
  induction l with
  | nil => intro gh p hp; exact hp
  | cons g l ih =>
    intro gh p hp
    unfold removeStale at hp
    have h1 := removeTeam_entries c g gh
    rcases hr : removeTeam c g gh with ⟨o, gh1⟩
    rw [hr] at hp h1
    cases o with
    | ok u => exact h1 p (ih gh1 p hp)
    | error e => exact h1 p hp
    | nilDeref => exact h1 p hp
    | overflow => exact h1 p hp

/-- The root loop adds no entry to the index. -/
theorem resetRoots_entries (c : Client) (l : List Team) :
    ∀ gh : GithubState, ∀ p ∈ (resetRoots c l gh).2.teams, p ∈ gh.teams := by
  induction l with
  | nil => intro gh p hp; exact hp
  | cons t l ih =>
    intro gh p hp
    unfold resetRoots at hp
    by_cases hroot : t.ParentID = ""
    · simp only [hroot, if_true] at hp
      rcases hg : mget gh.teams t.Github with _ | rootTeam
      · rw [hg] at hp; exact hp
      · rw [hg] at hp
        simp only [] at hp
        have h1 := removeTeam_entries c rootTeam gh
        rcases hr : removeTeam c rootTeam gh with ⟨o, gh1⟩
        rw [hr] at hp h1
        cases o with
        | ok u =>
          have := ih _ p hp
          cases this
        | error e => exact h1 p hp
        | nilDeref => exact h1 p hp
        | overflow => exact h1 p hp
    · simp only [hroot, if_false] at hp
      exact ih gh p hp

/-- After the two removal loops of a dry run on an index keyed by name, the index is keyed
by name and every key is the name of a chart team. -/
theorem afterRoots_mirrors (c : Client) (chart : OrgChart) (gh : GithubState)
    (hdry : gh.dry = true) (hkey : KeyedByName gh.teams) :
    Mirrors chart.Teams (afterRoots c chart gh).teams := by
  intro p hp
  have hp1 : p ∈ (afterStale c chart gh).teams := resetRoots_entries c _ _ p hp
  have hp0 : p ∈ gh.teams := removeStale_entries c _ (syncStart chart gh) p hp1
  refine ⟨hkey p hp0, ?_⟩
  by_contra hno
  obtain ⟨r1, _, _, _, _, _, _, _, _, hrec, _⟩ := afterStale_facts c chart gh
  have hstale : p.2 ∈ githubTeamsNotInOrgchart chart gh := by
    rw [mem_githubTeamsNotInOrgchart]
    refine ⟨List.mem_map_of_mem _ hp0, ?_⟩
    rw [hkey p hp0]
    exact hno
  have hgone := (hrec p.2 hstale (Or.inl hdry)).2
  rw [hkey p hp0] at hgone
  have := mget_isSome_of_mem _ p hp1
  rw [hgone] at this
  cases this

/-- In a dry run `createOrEdit` keeps the index a mirror of the chart teams. -/
theorem createOrEdit_mirrors (c : Client) (t : Team) (pid : Option Int) (gh : GithubState)
    (hdry : gh.dry = true) (ht : t ∈ gh.orgTeams) (h : Mirrors gh.orgTeams gh.teams) :
    Mirrors gh.orgTeams (createOrEdit c t pid gh).2.teams := by
  unfold createOrEdit
  rcases hg : mget gh.teams t.Github with _ | pre
  · simp only [hdry, if_true]
    intro p hp
    rcases mem_mset _ _ _ _ hp with hp | hp
    · exact h p hp
    · subst hp
      exact ⟨rfl, t, ht, rfl⟩
  · simp only [hdry, if_true]
    rcases pre.Parent with _ | parent
    · exact h
    · simp only []
      split <;> exact h

/-- In a dry run `createTeamByIDIfNotExists` keeps the index a mirror of the chart teams. -/
theorem createTeamByIDIfNotExists_mirrors (c : Client) (fuel : Nat) :
    ∀ (teamID : String) (gh : GithubState), gh.dry = true →
      Mirrors gh.orgTeams gh.teams →
      Mirrors gh.orgTeams (createTeamByIDIfNotExists c fuel teamID gh).2.teams := by
  induction fuel with
  | zero => intro teamID gh _ h; exact h
  | succ n ih =>
    intro teamID gh hdry h
    rcases hf : findOrgTeam gh.orgTeams teamID with _ | t
    · rw [createTeamByIDIfNotExists_none c n teamID gh hf]
      exact h
    · rw [createTeamByIDIfNotExists_succ c n teamID gh t hf]
      have ht := (findOrgTeam_some hf).1
      by_cases hp : t.ParentID = ""
      · simp only [hp, if_true]
        exact createOrEdit_mirrors c t none gh hdry ht h
      · simp only [hp, if_false]
        have hstep := (createTeamByIDIfNotExists_step c n t.ParentID gh).1
        have hrec := ih t.ParentID gh hdry h
        rcases ho : (createTeamByIDIfNotExists c n t.ParentID gh).1 with p | e | _ | _
        · simp only []
          have := createOrEdit_mirrors c t p.ID (createTeamByIDIfNotExists c n t.ParentID gh).2
            (by rw [hstep.1]; exact hdry) (by rw [hstep.2.1]; exact ht)
            (by rw [hstep.2.1]; exact hrec)
          rw [hstep.2.1] at this
          exact this
        all_goals exact hrec

/-- In a dry run the creation loop keeps the index a mirror of the chart teams. -/
theorem createMissing_mirrors (c : Client) (fuel : Nat) (l : List Team) :
    ∀ gh : GithubState, gh.dry = true → Mirrors gh.orgTeams gh.teams →
      Mirrors gh.orgTeams (createMissing c fuel l gh).2.teams := by
  induction l with
  | nil => intro gh _ h; exact h
  | cons t l ih =>
    intro gh hdry h
    rw [createMissing_cons]
    have hstep := (createTeamByIDIfNotExists_step c fuel t.ID gh).1
    have hrec := createTeamByIDIfNotExists_mirrors c fuel t.ID gh hdry h
    rcases ho : (createTeamByIDIfNotExists c fuel t.ID gh).1 with p | e | _ | _
    · simp only []
      have := ih (createTeamByIDIfNotExists c fuel t.ID gh).2 (by rw [hstep.1]; exact hdry)
        (by rw [hstep.2.1]; exact hrec)
      rw [hstep.2.1] at this
      exact this
    all_goals exact hrec

/-- In a dry run on an index keyed by name, the index `SyncTeams` leaves is keyed by name
and every key is the name of a chart team. -/
theorem SyncTeams_mirrors (c : Client) (range : MapRange) (fuel : Nat) (chart : OrgChart)
    (gh : GithubState) (hdry : gh.dry = true) (hkey : KeyedByName gh.teams) :
    Mirrors chart.Teams (creation c fuel chart gh).2.teams ∧
      (SyncTeams c range fuel chart gh).2.teams = (creation c fuel chart gh).2.teams := by
  obtain ⟨_, _, _, hcfg2, _⟩ := afterRoots_facts c chart gh
  have hdry2 : (afterRoots c chart gh).dry = true := by rw [hcfg2.1]; exact hdry
  have horg2 : (afterRoots c chart gh).orgTeams = chart.Teams := hcfg2.2.1
  have h2 := afterRoots_mirrors c chart gh hdry hkey
  have h3 := createMissing_mirrors c fuel (teamsNotInGithub chart (afterRoots c chart gh))
    (afterRoots c chart gh) hdry2 (by rw [horg2]; exact h2)
  rw [horg2] at h3
  refine ⟨h3, ?_⟩
  obtain ⟨r3, d1, d2, new, _, hfin, _⟩ := SyncTeams_after_creation c range fuel chart gh
  rw [hfin]; rfl

theorem applyPlan_dry_ok (c : Client) (l : List (GhTeam × TeamMembershipSync)) :
    ∀ gh : GithubState, gh.dry = true → (applyPlan c l gh).1 = Outcome.ok () := by
  induction l with
  | nil => intro gh _; rfl
  | cons e l ih =>
    intro gh h
    obtain ⟨g, m⟩ := e
    simp only [applyPlan, syncTeamMembers, h, if_true]
    exact ih gh h

/-! ## Acyclic charts -/

theorem ancestorID_step (teams : List Team) (k : Nat) :
    ∀ (v id : String) (t : Team), ancestorID teams k v = some id →
      findOrgTeam teams id = some t → t.ParentID ≠ "" →
      ancestorID teams (k + 1) v = some t.ParentID := by
  induction k with
  | zero =>
    intro v id t ha hf hp
    simp only [ancestorID, Option.some.injEq] at ha
    subst ha
    simp [ancestorID, hf, hp]
  | succ k ih =>
    intro v id t ha hf hp
    simp only [ancestorID] at ha
    rcases hv : findOrgTeam teams v with _ | u
    · simp [hv] at ha
    · simp only [hv] at ha
      by_cases hu : u.ParentID = ""
      · simp [hu] at ha
      · simp only [hu, if_false] at ha
        have := ih u.ParentID id t ha hf hp
        rw [ancestorID]
        simp only [hv, hu, if_false]
        exact this

/-- On a chart in which every parent ID is the ID of a team and no team is its own
ancestor, the parent chain of an ID that has been reached through `visited` reaches a root
within the teams that are left. -/
theorem chainResolves_visited (teams : List Team)
    (hpar : ∀ t ∈ teams, t.ParentID ≠ "" → ∃ u ∈ teams, u.ID = t.ParentID)
    (hacyc : ∀ id k, 0 < k → ancestorID teams k id ≠ some id) (n : Nat) :
    ∀ (visited : List String) (id : String), visited.Nodup →
      (∀ v ∈ visited, v ∈ teams.map Team.ID ∧ ∃ k, 0 < k ∧ ancestorID teams k v = some id) →
      id ∈ teams.map Team.ID → teams.length ≤ visited.length + n →
      chainResolves teams n id = true := by
  induction n with
  | zero =>
    intro visited id hnd hv hid hlen
    exfalso
    have hnot : id ∉ visited := by
      intro hmem
      obtain ⟨_, k, hk, ha⟩ := hv id hmem
      exact hacyc id k hk ha
    have hnd1 : (id :: visited).Nodup := List.nodup_cons.2 ⟨hnot, hnd⟩
    have hsub : (id :: visited) ⊆ teams.map Team.ID := by
      intro x hx
      rcases List.mem_cons.1 hx with rfl | hx
      · exact hid
      · exact (hv x hx).1
    have := (List.subperm_of_subset hnd1 hsub).length_le
    simp only [List.length_cons, List.length_map] at this
    omega
  | succ n ih =>
    intro visited id hnd hv hid hlen
    have hnot : id ∉ visited := by
      intro hmem
      obtain ⟨_, k, hk, ha⟩ := hv id hmem
      exact hacyc id k hk ha
    obtain ⟨t0, ht0, hid0⟩ := List.mem_map.1 hid
    rcases hf : findOrgTeam teams id with _ | t
    · exact absurd hid0 (findOrgTeam_none hf t0 ht0)
    · simp only [chainResolves, hf]
      by_cases hp : t.ParentID = ""
      · simp [hp]
      · simp only [hp, if_false]
        obtain ⟨u, hu, huid⟩ := hpar t (findOrgTeam_some hf).1 hp
        refine ih (id :: visited) t.ParentID (List.nodup_cons.2 ⟨hnot, hnd⟩) ?_
          (List.mem_map.2 ⟨u, hu, huid⟩) (by simp only [List.length_cons]; omega)
        intro v hvm
        rcases List.mem_cons.1 hvm with rfl | hvm
        · exact ⟨hid, 1, by omega, ancestorID_step teams 0 v v t rfl hf hp⟩
        · obtain ⟨h1, k, hk, ha⟩ := hv v hvm
          exact ⟨h1, k + 1, by omega, ancestorID_step teams k v id t ha hf hp⟩

/-- On a chart in which every parent ID is the ID of a team and no team is its own
ancestor, the parent chain of every team reaches a root within as many teams as the
chart has. -/
theorem chainResolves_of_acyclic (teams : List Team)
    (hpar : ∀ t ∈ teams, t.ParentID ≠ "" → ∃ u ∈ teams, u.ID = t.ParentID)
    (hacyc : ∀ id k, 0 < k → ancestorID teams k id ≠ some id) :
    ∀ t ∈ teams, chainResolves teams teams.length t.ID = true := by
  intro t ht
  exact chainResolves_visited teams hpar hacyc teams.length [] t.ID List.nodup_nil
    (by simp) (List.mem_map.2 ⟨t, ht, rfl⟩) (by simp)

theorem chainResolves_mono (teams : List Team) (n : Nat) :
    ∀ (id : String), chainResolves teams n id = true →
      ∀ k, chainResolves teams (n + k) id = true := by
  induction n with
  | zero => intro id h; simp [chainResolves] at h
  | succ n ih =>
    intro id h k
    have e : n + 1 + k = (n + k) + 1 := by omega
    rw [e]
    simp only [chainResolves] at h ⊢
    rcases hf : findOrgTeam teams id with _ | t
    · simp [hf] at h
    · simp only [hf] at h ⊢
      by_cases hp : t.ParentID = ""
      · simp [hp]
      · simp only [hp, if_false] at h ⊢
        exact ih _ h k

/-! ## Dry runs on well-formed charts -/

/-- In a dry run on an index keyed by name, the creation loop ends without error and binds
the name of every chart team, when names are derived from IDs and the parent chain of
every chart team resolves within the fuel. -/
theorem creation_dry_ok (c : Client) (fuel : Nat) (chart : OrgChart) (gh : GithubState)
    (derive : String → String) (hdry : gh.dry = true)
    (hname : ∀ t ∈ chart.Teams, t.Github = derive t.ID)
    (hchain : ∀ t ∈ chart.Teams, chainResolves chart.Teams fuel t.ID = true)
    (hkey : KeyedByName gh.teams) :
    (creation c fuel chart gh).1 = Outcome.ok () ∧
      ∀ t ∈ chart.Teams, (mget (creation c fuel chart gh).2.teams t.Github).isSome := by
  obtain ⟨_, _, _, hcfg2, _⟩ := afterRoots_facts c chart gh
  have hdry2 : (afterRoots c chart gh).dry = true := by rw [hcfg2.1]; exact hdry
  have horg2 : (afterRoots c chart gh).orgTeams = chart.Teams := hcfg2.2.1
  have hmir := afterRoots_mirrors c chart gh hdry hkey
  obtain ⟨hok, hbound⟩ := createMissing_ok c fuel (teamsNotInGithub chart (afterRoots c chart gh))
    (afterRoots c chart gh) (Or.inl hdry2) (by
      intro t ht
      rw [horg2]
      exact hchain t ((mem_teamsNotInGithub chart _ t).1 ht).1)
  refine ⟨hok, ?_⟩
  intro t ht
  by_cases hmiss : t ∈ teamsNotInGithub chart (afterRoots c chart gh)
  · obtain ⟨u, hu, hb⟩ := hbound t hmiss
    rw [horg2] at hu
    obtain ⟨hu1, hu2⟩ := findOrgTeam_some hu
    have : u.Github = t.Github := by rw [hname u hu1, hname t ht, hu2]
    rw [← this]
    exact hb
  · rw [mem_teamsNotInGithub] at hmiss
    have hfound : ∃ g ∈ (afterRoots c chart gh).teams.map Prod.snd, g.GetName = t.Github := by
      by_contra hno
      exact hmiss ⟨ht, hno⟩
    obtain ⟨g, hg, hgn⟩ := hfound
    obtain ⟨p, hp, rfl⟩ := List.mem_map.1 hg
    have hk : p.1 = t.Github := by rw [← (hmir p hp).1]; exact hgn
    have hs := mget_isSome_of_mem _ p hp
    rw [hk] at hs
    exact (creation_step c fuel chart gh).2.2.2.2.1 _ hs

/-- C19. Dry-run success.  For an organised chart whose platform-team names are derived
from the team IDs, in which every non-empty parent ID is the ID of a chart team, no team is
its own ancestor and every non-empty tech-lead and product-lead ID is the ID of a chart
employee, and for a snapshot whose team index is keyed by team name, the dry run, at a
recursion depth of at least the number of chart teams, returns without error: the creation
loop ends without error, the name of every chart team is a key of the index afterwards,
and the planner ends with a plan. -/
theorem dry_run_succeeds (c : Client) (range : MapRange) (fuel : Nat) (chart : OrgChart)
    (gh : GithubState) (derive : String → String) (hdry : gh.dry = true)
    (horg : Organised chart) (hname : ∀ t ∈ chart.Teams, t.Github = derive t.ID)
    (hpar : ∀ t ∈ chart.Teams, t.ParentID ≠ "" → ∃ u ∈ chart.Teams, u.ID = t.ParentID)
    (hacyc : ∀ id k, 0 < k → ancestorID chart.Teams k id ≠ some id)
    (htech : ∀ t ∈ chart.Teams, t.TeachLeadID ≠ "" →
      ∃ e ∈ chart.Employees, e.ID = t.TeachLeadID)
    (hprod : ∀ t ∈ chart.Teams, t.ProductLeadID ≠ "" →
      ∃ e ∈ chart.Employees, e.ID = t.ProductLeadID)
    (hkey : KeyedByName gh.teams) (hfuel : chart.Teams.length ≤ fuel) :
    (SyncTeams c range fuel chart gh).1 = Outcome.ok () ∧
      (creation c fuel chart gh).1 = Outcome.ok () ∧
      (∀ t ∈ chart.Teams, (mget (creation c fuel chart gh).2.teams t.Github).isSome) ∧
      ∃ plan, (planning c fuel chart gh).1 = Outcome.ok plan := by
  have hchain : ∀ t ∈ chart.Teams, chainResolves chart.Teams fuel t.ID = true := by
    intro t ht
    have h := chainResolves_mono chart.Teams chart.Teams.length t.ID
      (chainResolves_of_acyclic chart.Teams hpar hacyc t ht) (fuel - chart.Teams.length)
    have e : chart.Teams.length + (fuel - chart.Teams.length) = fuel := by omega
    rw [e] at h
    exact h
  obtain ⟨hcre, hbound⟩ := creation_dry_ok c fuel chart gh derive hdry hname hchain hkey
  obtain ⟨r1, r2, _, hcfg2, _, hs2, _⟩ := afterRoots_facts c chart gh
  have hstep := creation_step c fuel chart gh
  have hs3 : (creation c fuel chart gh).2.syncResult = some r2 := hstep.2.1.trans hs2
  have hdry3 : (creation c fuel chart gh).2.dry = true := by
    rw [hstep.1.1, hcfg2.1]; exact hdry
  obtain ⟨plan, hplan⟩ := teamMembersSyncData_ok chart _ r2 hs3 horg hbound htech hprod
  have hplan' : (planning c fuel chart gh).1 = Outcome.ok plan := hplan
  refine ⟨?_, hcre, hbound, plan, hplan'⟩
  obtain ⟨d1, d2, e4, _⟩ := teamMembersSyncData_spec chart _ r2 hs3
  have e4' : (planning c fuel chart gh).2 =
      withResult (creation c fuel chart gh).2 (moreMaintainer (moreMembership r2 d1) d2) := e4
  rw [SyncTeams_eq, hcre]
  simp only [hplan']
  exact applyPlan_dry_ok c _ _ (by rw [e4']; exact hdry3)

/-- The sample chart has no cycle of parents. -/
theorem sampleChart_acyclic :
    ∀ id k, 0 < k → ancestorID sampleChart.Teams k id ≠ some id := by
  have hroot : ∀ k, 0 < k → ancestorID sampleChart.Teams k "root" = none := by
    intro k hk
    obtain ⟨j, rfl⟩ : ∃ j, k = j + 1 := ⟨k - 1, by omega⟩
    have : findOrgTeam sampleChart.Teams "root" = some rootTeam := by decide
    simp [ancestorID, this, rootTeam]
  intro id k hk
  obtain ⟨j, rfl⟩ : ∃ j, k = j + 1 := ⟨k - 1, by omega⟩
  rw [ancestorID]
  rcases hf : findOrgTeam sampleChart.Teams id with _ | t
  · simp
  · obtain ⟨ht, hid⟩ := findOrgTeam_some hf
    have hmem : t = rootTeam ∨ t = childTeam := by
      have : sampleChart.Teams = [rootTeam, childTeam] := rfl
      rw [this] at ht
      simpa using ht
    rcases hmem with rfl | rfl
    · simp [rootTeam]
    · subst hid
      have hp : childTeam.ParentID = "root" := rfl
      simp only [hp]
      cases j with
      | zero => simp [ancestorID, childTeam]
      | succ j => simp [hroot (j + 1) (by omega)]

/-- C19 at the sample chart on a dry snapshot that holds a stale team only: every
hypothesis holds and the run returns without error. -/
theorem dry_run_succeeds_witness :
    (sampleState true).dry = true ∧ Organised sampleChart ∧
      KeyedByName (sampleState true).teams ∧
      (SyncTeams sampleClient sampleRange 2 sampleChart (sampleState true)).1 =
        Outcome.ok () :=
  ⟨rfl, organise_organised rawChart (by decide),
   by unfold KeyedByName; decide,
   (dry_run_succeeds sampleClient sampleRange 2 sampleChart (sampleState true)
      (fun id => "org-" ++ id) rfl (organise_organised rawChart (by decide)) (by decide)
      (by decide) sampleChart_acyclic (by decide) (by decide)
      (by unfold KeyedByName; decide) (by decide)).1⟩

/-- C20. The snapshot mirrors the chart after a dry run: when the dry run on a snapshot
whose team index is keyed by team name returns without error, the keys of the index it
leaves are the platform-team names of the chart teams, and every entry of that index is
stored under the name of its platform team. -/
theorem dry_run_mirrors_chart (c : Client) (range : MapRange) (fuel : Nat) (chart : OrgChart)
    (gh : GithubState) (hdry : gh.dry = true) (hkey : KeyedByName gh.teams)
    (hok : (SyncTeams c range fuel chart gh).1 = Outcome.ok ()) :
    (∀ k, (mget (SyncTeams c range fuel chart gh).2.teams k).isSome ↔
      ∃ t ∈ chart.Teams, t.Github = k) ∧
    KeyedByName (SyncTeams c range fuel chart gh).2.teams := by
  obtain ⟨hmir, hteams⟩ := SyncTeams_mirrors c range fuel chart gh hdry hkey
  rw [hteams]
  refine ⟨?_, fun p hp => (hmir p hp).1⟩
  intro k
  constructor
  · intro hs
    obtain ⟨g, hg⟩ := Option.isSome_iff_exists.1 hs
    exact (hmir _ (mget_mem _ _ _ hg)).2
  · rintro ⟨t, ht, rfl⟩
    rcases SyncTeams_final c range fuel chart gh with ⟨_, h⟩ | ⟨_, h, _⟩ | ⟨plan, hplan, _, _⟩
    · exact absurd hok h
    · exact absurd hok h
    · exact (teamMembersSyncData_entries chart _ plan hplan).1 t ht

/-- C20 at the sample chart on a dry snapshot that holds a stale team only: the run returns
without error and leaves the keys `org-root` and `org-child`. -/
theorem dry_run_mirrors_chart_witness :
    (SyncTeams sampleClient sampleRange 2 sampleChart (sampleState true)).1 = Outcome.ok () ∧
      (SyncTeams sampleClient sampleRange 2 sampleChart (sampleState true)).2.teams.map
          Prod.fst = ["org-root", "org-child"] ∧
      KeyedByName (SyncTeams sampleClient sampleRange 2 sampleChart (sampleState true)).2.teams :=
  ⟨by decide, by decide,
   (dry_run_mirrors_chart sampleClient sampleRange 2 sampleChart (sampleState true) rfl
      (by unfold KeyedByName; decide) (by decide)).2⟩

/-! ## Full recreation -/

theorem chainEnds_of_chainResolves (teams : List Team) (n : Nat) :
    ∀ id, chainResolves teams n id = true → chainEnds teams n id = true := by
  induction n with
  | zero => intro id h; simp [chainResolves] at h
  | succ n ih =>
    intro id h
    simp only [chainResolves] at h
    simp only [chainEnds]
    rcases hf : findOrgTeam teams id with _ | t
    · simp
    · simp only [hf] at h ⊢
      by_cases hp : t.ParentID = ""
      · simp [hp]
      · simp only [hp, if_false] at h ⊢
        exact ih _ h

/-- The creation loop returns when the parent chain of every listed team ends within the
fuel. -/
theorem createMissing_returns (c : Client) (fuel : Nat) (l : List Team) :
    ∀ gh : GithubState, (∀ t ∈ l, chainEnds gh.orgTeams fuel t.ID = true) →
      (createMissing c fuel l gh).1 ≠ Outcome.overflow := by
  induction l with
  | nil => intro gh _; simp [createMissing]
  | cons t l ih =>
    intro gh h
    rw [createMissing_cons]
    have h1 := createTeamByIDIfNotExists_step c fuel t.ID gh
    have h2 := createTeamByIDIfNotExists_returns c fuel t.ID gh (h t (List.mem_cons_self _ _))
    rcases ho : (createTeamByIDIfNotExists c fuel t.ID gh).1 with p | e | _ | _
    · exact ih _ (by rw [h1.1.2.1]; exact fun v hv => h v (List.mem_cons_of_mem _ hv))
    · simp
    · simp
    · exact absurd ho h2

theorem failingDeleteClient_echoes : Echoes failingDeleteClient :=
  ⟨fun _ _ _ _ h => by cases h; rfl, fun _ _ _ _ h => by cases h; rfl⟩

theorem failingDeleteClient_creates : CreatesSucceed failingDeleteClient :=
  ⟨fun _ _ _ => ⟨_, rfl⟩, fun _ _ _ => ⟨_, rfl⟩⟩

/-- C5, as stated, fails when the delete call for the root fails: the chart of `plainRoot`
and `plainChild` has a single root team, both teams exist on the platform and the parent
chains resolve; on a live run with a platform that refuses every delete the run returns
without error, the index is emptied and both teams are created again, and yet the root's
platform team is not in `removedTeams`. -/
theorem failed_delete_still_recreates :
    plainChart.Teams.filter (fun t => decide (t.ParentID = "")) = [plainRoot] ∧
    mget (plainState false).teams plainRoot.Github = some rootGhTeam ∧
    (∀ t ∈ plainChart.Teams, chainResolves plainChart.Teams 3 t.ID = true) ∧
    (SyncTeams failingDeleteClient sampleRange 3 plainChart (plainState false)).1 =
      Outcome.ok () ∧
    (afterRoots failingDeleteClient plainChart (plainState false)).teams = [] ∧
    Call.createTeam "acme" (newTeamFor plainRoot none) ∈
      (SyncTeams failingDeleteClient sampleRange 3 plainChart (plainState false)).2.calls ∧
    (SyncTeams failingDeleteClient sampleRange 3 plainChart (plainState false)).2.syncResult.map
      (fun r => r.removedTeams) = some [] := by
  decide

/-- C5, amended. Scenario D, blunt full recreation.  Take a chart with a single root team
whose platform-team name is bound in the snapshot, platform-team names derived from the
team IDs and parent chains that resolve within the fuel.  Then `SyncTeams` returns; the
root's platform team is handed to `removeTeam` (when the run is not dry a delete call is
issued for it after the calls of the stale-team loop; when the run is dry or that call does
not fail, it is in `removedTeams`); the index is empty after the root loop, whatever the
outcome of the delete call; the creation loop ranges over all chart teams.  When the run
is dry or the platform's create and edit calls succeed and echo the requested name, the
creation loop ends without error and at the end every chart team's name is bound to an
object allocated during the run — a placeholder for a chart team of that name when dry, and
otherwise a create call for a chart team of that name is in the log; the chart team of that
name is the team itself when the platform-team names are pairwise distinct.  In every case
no object of the initial snapshot is left in the index. -/
theorem blunt_full_recreation (c : Client) (range : MapRange) (fuel : Nat) (chart : OrgChart)
    (gh : GithubState) (r : Team) (g : GhTeam) (derive : String → String)
    (hroot : chart.Teams.filter (fun t => decide (t.ParentID = "")) = [r])
    (hpresent : mget gh.teams r.Github = some g)
    (hname : ∀ t ∈ chart.Teams, t.Github = derive t.ID)
    (hres : ∀ t ∈ chart.Teams, chainResolves chart.Teams fuel t.ID = true)
    (hheap : ∀ k v, mget gh.teams k = some v → v.addr < gh.heap) :
    (SyncTeams c range fuel chart gh).1 ≠ Outcome.overflow ∧
    (gh.dry = false →
      (afterRoots c chart gh).calls =
        (afterStale c chart gh).calls ++ [Call.deleteTeam g.GetID] ∧
      Call.deleteTeam g.GetID ∈ (SyncTeams c range fuel chart gh).2.calls) ∧
    (∃ res, (SyncTeams c range fuel chart gh).2.syncResult = some res ∧
      ((gh.dry = true ∨ c.DeleteTeam (afterStale c chart gh).calls g.GetID = none) →
        g ∈ res.removedTeams)) ∧
    (afterRoots c chart gh).teams = [] ∧
    creation c fuel chart gh = createMissing c fuel chart.Teams (afterRoots c chart gh) ∧
    (gh.dry = true ∨ (Echoes c ∧ CreatesSucceed c) →
      (creation c fuel chart gh).1 = Outcome.ok () ∧
      ∀ t ∈ chart.Teams, ∃ v,
        mget (SyncTeams c range fuel chart gh).2.teams t.Github = some v ∧
        gh.heap ≤ v.addr ∧
        (gh.dry = true → ∃ u ∈ chart.Teams, u.Github = t.Github ∧ v = placeholder v.addr u) ∧
        (gh.dry = false → ∃ u ∈ chart.Teams, u.Github = t.Github ∧
          ∃ pid, Call.createTeam gh.organisation (newTeamFor u pid) ∈
            (SyncTeams c range fuel chart gh).2.calls) ∧
        ((chart.Teams.map Team.Github).Nodup →
          (gh.dry = true → v = placeholder v.addr t) ∧
          (gh.dry = false → ∃ pid, Call.createTeam gh.organisation (newTeamFor t pid) ∈
            (SyncTeams c range fuel chart gh).2.calls))) ∧
    (∀ k v, mget (SyncTeams c range fuel chart gh).2.teams k = some v →
      gh.heap ≤ v.addr ∧ ∀ k0 v0, mget gh.teams k0 = some v0 → v ≠ v0) := by
  have hrmem : r ∈ chart.Teams := by
    have : r ∈ chart.Teams.filter (fun t => decide (t.ParentID = "")) := by rw [hroot]; simp
    exact (List.mem_filter.1 this).1
  have hfirst := find?_of_filter_cons _ r [] chart.Teams hroot
  have hpres1 : mget (afterStale c chart gh).teams r.Github = some g := by
    rw [afterStale_chart_name c chart gh r hrmem]; exact hpresent
  obtain ⟨r1, ghm, hs1, hroots, hcalls, hcase⟩ := afterRoots_first c chart gh r g hfirst hpres1
  have hteams2 : (afterRoots c chart gh).teams = [] := by rw [hroots]
  obtain ⟨_, _, _, hcfg2, hheap2, _⟩ := afterRoots_facts c chart gh
  have hdry2 : (afterRoots c chart gh).dry = gh.dry := hcfg2.1
  have horg2 : (afterRoots c chart gh).orgTeams = chart.Teams := hcfg2.2.1
  have hcre : creation c fuel chart gh =
      createMissing c fuel chart.Teams (afterRoots c chart gh) := by
    rw [creation, teamsNotInGithub_empty _ _ hteams2]
  have hstep := creation_step c fuel chart gh
  obtain ⟨r3, d1, d2, new, hs3, hfin, _⟩ := SyncTeams_after_creation c range fuel chart gh
  have hfteams : (SyncTeams c range fuel chart gh).2.teams = (creation c fuel chart gh).2.teams := by
    rw [hfin]; rfl
  have hfcalls : ∀ call ∈ (creation c fuel chart gh).2.calls,
      call ∈ (SyncTeams c range fuel chart gh).2.calls := by
    intro call hc
    rw [hfin]
    exact List.mem_append_left _ hc
  have hr3 : ghm.syncResult = some r3 := by
    have := hstep.2.1
    rw [hs3, hroots] at this
    exact this.symm
  have hnone2 : ∀ k, mget (afterRoots c chart gh).teams k = none := by
    intro k; rw [hteams2]; rfl
  have hfresh : ∀ k v, mget (creation c fuel chart gh).2.teams k = some v → gh.heap ≤ v.addr := by
    intro k v hv
    rcases hstep.2.2.2.2.2 k v hv with h | ⟨h, _⟩
    · rw [hnone2] at h; cases h
    · rw [hheap2] at h; exact h
  refine ⟨?_, ?_, ?_, hteams2, hcre, ?_, ?_⟩
  · apply SyncTeams_returns
    rw [hcre]
    apply createMissing_returns
    intro t ht
    rw [horg2]
    exact chainEnds_of_chainResolves _ _ _ (hres t ht)
  · intro hd
    have h0 : (afterRoots c chart gh).calls =
        (afterStale c chart gh).calls ++ [Call.deleteTeam g.GetID] := by
      rw [hroots]
      show ghm.calls = _
      rw [hcalls, hd]
      simp
    refine ⟨h0, hfcalls _ (callsAdded_mem hstep.2.2.2.1 ?_)⟩
    rw [h0]
    simp
  · refine ⟨moreMaintainer (moreMembership r3 d1) d2, by rw [hfin]; rfl, ?_⟩
    intro hor
    have hrec : ghm.syncResult = some { r1 with removedTeams := r1.removedTeams ++ [g] } := by
      rcases hcase with ⟨h1, _⟩ | ⟨_, h3, h4⟩
      · exact h1
      · exfalso
        rcases hor with hd | hdel
        · rw [hd] at h3; cases h3
        · rw [hdel] at h4; cases h4
    rw [hrec] at hr3
    cases hr3
    simp [moreMaintainer, moreMembership]
  · intro hplat
    obtain ⟨hok, hbound⟩ := createMissing_ok c fuel chart.Teams (afterRoots c chart gh)
      (by rw [hdry2]; exact hplat) (by rw [horg2]; exact hres)
    rw [← hcre] at hok hbound
    have hkeys : CreatedKeys (afterRoots c chart gh) (creation c fuel chart gh).2 := by
      rw [hcre]
      exact createMissing_created c fuel _ _ (by rw [hdry2]; exact hplat.imp id fun x => x.1)
    refine ⟨hok, ?_⟩
    intro t ht
    obtain ⟨u0, hu0, hb0⟩ := hbound t ht
    rw [horg2] at hu0
    obtain ⟨hu0m, hu0id⟩ := findOrgTeam_some hu0
    have hsame : u0.Github = t.Github := by rw [hname u0 hu0m, hname t ht, hu0id]
    have hb : (mget (creation c fuel chart gh).2.teams t.Github).isSome := by
      rw [← hsame]; exact hb0
    obtain ⟨v, hv⟩ := Option.isSome_iff_exists.1 hb
    have hdryc : gh.dry = true → ∃ u ∈ chart.Teams, u.Github = t.Github ∧
        v = placeholder v.addr u := by
      intro hd
      rcases hkeys.1 (by rw [hdry2]; exact hd) _ v hv with h | ⟨u, hu, huk, a, _, hva⟩
      · rw [hnone2] at h; cases h
      · refine ⟨u, by rw [← horg2]; exact hu, huk, ?_⟩
        rw [hva]; rfl
    have hlivec : gh.dry = false → ∃ u ∈ chart.Teams, u.Github = t.Github ∧
        ∃ pid, Call.createTeam gh.organisation (newTeamFor u pid) ∈
          (SyncTeams c range fuel chart gh).2.calls := by
      intro hd
      obtain ⟨u, hu, huk, pid, hc⟩ := hkeys.2 (by rw [hdry2]; exact hd) _ (hnone2 _) hb
      have horgn : (afterRoots c chart gh).organisation = gh.organisation := hcfg2.2.2.1
      refine ⟨u, by rw [← horg2]; exact hu, huk, pid, hfcalls _ ?_⟩
      rw [← horgn]
      exact hc
    refine ⟨v, by rw [hfteams]; exact hv, hfresh _ v hv, hdryc, hlivec, ?_⟩
    intro hnd
    have hinj : ∀ u ∈ chart.Teams, u.Github = t.Github → u = t := fun u hu he =>
      List.inj_on_of_nodup_map hnd hu ht he
    refine ⟨fun hd => ?_, fun hd => ?_⟩
    · obtain ⟨u, hu, he, hv⟩ := hdryc hd
      rw [hinj u hu he] at hv
      exact hv
    · obtain ⟨u, hu, he, hc⟩ := hlivec hd
      rw [hinj u hu he] at hc
      exact hc
  · intro k v hv
    rw [hfteams] at hv
    have h1 := hfresh k v hv
    refine ⟨h1, ?_⟩
    intro k0 v0 hv0 he
    have := hheap k0 v0 hv0
    rw [← he] at this
    exact Nat.lt_irrefl _ (Nat.lt_of_lt_of_le this h1)

/-- C5 (amended) on live runs with both teams of the chart existing unchanged.  On the
sample platform the root's platform team is removed and both teams are created again; on
a platform that refuses every delete the creation loop still ends without error and no
object of the initial snapshot is left in the index. -/
theorem blunt_full_recreation_witness :
    (∃ res, (SyncTeams sampleClient sampleRange 3 plainChart (plainState false)).2.syncResult =
        some res ∧ rootGhTeam ∈ res.removedTeams) ∧
    (∃ pid, Call.createTeam "acme" (newTeamFor plainChild pid) ∈
      (SyncTeams sampleClient sampleRange 3 plainChart (plainState false)).2.calls) ∧
    (creation failingDeleteClient 3 plainChart (plainState false)).1 = Outcome.ok () ∧
    ∀ k v,
      mget (SyncTeams failingDeleteClient sampleRange 3 plainChart (plainState false)).2.teams k =
        some v → 2 ≤ v.addr ∧ ∀ k0 v0, mget (plainState false).teams k0 = some v0 → v ≠ v0 := by
  have hheap : ∀ k v, mget (plainState false).teams k = some v → v.addr < (plainState false).heap := by
    intro k v hv
    have := mget_mem _ _ _ hv
    simp only [plainState, List.mem_cons, Prod.mk.injEq, List.mem_nil_iff, or_false] at this
    rcases this with ⟨_, rfl⟩ | ⟨_, rfl⟩ <;> decide
  have h := blunt_full_recreation sampleClient sampleRange 3 plainChart (plainState false)
    plainRoot rootGhTeam (fun id => "org-" ++ id) (by decide) (by decide) (by decide)
    (by decide) hheap
  have h2 := blunt_full_recreation failingDeleteClient sampleRange 3 plainChart
    (plainState false) plainRoot rootGhTeam (fun id => "org-" ++ id) (by decide) (by decide)
    (by decide) (by decide) hheap
  obtain ⟨res, hres, hrem⟩ := h.2.2.1
  have hcre := h.2.2.2.2.2.1 (Or.inr ⟨sampleClient_echoes, sampleClient_creates⟩)
  obtain ⟨v, _, _, _, _, hnd⟩ := hcre.2 plainChild (by decide)
  have hcre2 := h2.2.2.2.2.2.1
    (Or.inr ⟨failingDeleteClient_echoes, failingDeleteClient_creates⟩)
  exact ⟨⟨res, hres, hrem (Or.inr (by decide))⟩, (hnd (by decide)).2 rfl, hcre2.1,
    h2.2.2.2.2.2.2⟩

end OrgSync
